import Mathlib

/-!
Verification of the jsop module (dbm-based persistence for JSON-style data),
a shallow embedding of src/jsop.py.

The on-disk model: a DBM maps byte keys (address components joined by the
byte 0xFF) to JSON-encoded byte values.  Since 0xFF never occurs in the
UTF-8 encoding of any unicode string, the join is injective on component
lists, so the store is modelled as an association list from component lists
(addresses) to decoded record values.  Record values are what the python
code ever stores in a single dbm slot: a JSON scalar, or one of the two
container markers (an empty dict or an empty list, written by
JData.__setitem__ as type hints).  Numbers are modelled as integers: no
claim depends on non-integer numerics.
-/

namespace Jsop

/-- An address: the tuple of unicode-string components used as a DBMWrapper key. -/
abbrev Addr := List String

/-- A decoded record value, as stored in one dbm slot. -/
inductive Rec where
  | rnull
  | rbool (b : Bool)
  | rint (n : Int)
  | rstr (s : String)
  | rmapM
  | rlistM
deriving DecidableEq

/-- JSON-style values (the native python objects jsop round-trips):
null, booleans, numbers, strings, string-keyed maps (in insertion order,
as python dicts are ordered) and lists. -/
inductive JValue where
  | null
  | bool (b : Bool)
  | num (n : Int)
  | str (s : String)
  | obj (entries : List (String × JValue))
  | arr (items : List JValue)

/-- Errors the embedded operations can raise, mirroring the python
exceptions: KeyError, IndexError, JSOPError from referror, TypeError-ish
failures on malformed records, AttributeError (calling .export() on a
primitive), the two session-open JSOPErrors, and fuel exhaustion (an
artifact of the embedding of the store-directed loops, never raised on
well-formed stores with enough fuel). -/
inductive Err where
  | keyError (k : String)
  | indexError
  | refError (a : Addr)
  | typeError
  | attrError
  | corrupt
  | unsupported
  | fuelOut
deriving DecidableEq

/-! ## The store (DBMWrapper, cache aside) -/

/-- The store: an association list from addresses to records.  Only
lookup order matters (the python dbm is a hash-style mapping; the module
never iterates raw dbm keys). -/
abbrev Store := List (Addr × Rec)

def storeGet : Store → Addr → Option Rec
  | [], _ => none
  | (a, r) :: σ, b => if a = b then some r else storeGet σ b

def storeDel : Store → Addr → Store
  | [], _ => []
  | (a, r) :: σ, b => if a = b then storeDel σ b else (a, r) :: storeDel σ b

/-- DBMWrapper.__setitem__: overwrite the slot at an address. -/
def storeSet (σ : Store) (a : Addr) (r : Rec) : Store := (a, r) :: storeDel σ a

/-- DBMWrapper.__delitem__ as called through JData: deleting a missing key
raises (KeyError in the dbm, surfaced as referror by JData.__delitem__). -/
def rawDel (σ : Store) (a : Addr) : Except Err Store :=
  match storeGet σ a with
  | some _ => Except.ok (storeDel σ a)
  | none => Except.error (Err.refError a)

/-! ## Addresses of a map node (JDict) rooted at A -/

/-- The tail-key record address, self._address + ('p',). -/
def paddr (A : Addr) : Addr := A ++ ["p"]

/-- The head-key record address, self._address + ('n',). -/
def naddr (A : Addr) : Addr := A ++ ["n"]

/-- The size record address, self._address + ('s',). -/
def saddr (A : Addr) : Addr := A ++ ["s"]

/-- A per-entry record address, self._address + ('k', k, f). -/
def kaddr (A : Addr) (k f : String) : Addr := A ++ ["k", k, f]

/-- The child value address of entry k, self._address + ('k', k, 'v'). -/
def vaddr (A : Addr) (k : String) : Addr := A ++ ["k", k, "v"]

/-! ## Reading records -/

/-- JData.__getitem__ on a missing address raises referror (any failure of
the underlying read is converted to an Invalid Reference JSOPError). -/
def jfetch (σ : Store) (a : Addr) : Except Err Rec :=
  match storeGet σ a with
  | some r => Except.ok r
  | none => Except.error (Err.refError a)

/-- Interpret a record as a nullable key pointer (the p/n records).  Any
other record would make the python code fail downstream when the value is
used as a key component or compared; collapsed to typeError. -/
def asPtr : Rec → Except Err (Option String)
  | Rec.rnull => Except.ok none
  | Rec.rstr s => Except.ok (some s)
  | _ => Except.error Err.typeError

/-- Interpret a record as an integer (the s records). -/
def asSize : Rec → Except Err Int
  | Rec.rint n => Except.ok n
  | _ => Except.error Err.typeError

/-- Encode a nullable key pointer as a record. -/
def ptrRec : Option String → Rec
  | none => Rec.rnull
  | some s => Rec.rstr s

/-- len(self) of a JDict / JList: read the size record through JData. -/
def readLen (σ : Store) (A : Addr) : Except Err Int := do
  let r ← jfetch σ (saddr A)
  asSize r

/-- What JData.__getitem__ returns: a primitive value, or a live JDict /
JList handle wrapping the address of a container marker. -/
inductive Fetched where
  | scal (r : Rec)
  | dictH (a : Addr)
  | listH (a : Addr)
deriving DecidableEq

/-- JData.__getitem__. -/
def jdataGet (σ : Store) (a : Addr) : Except Err Fetched :=
  match storeGet σ a with
  | none => Except.error (Err.refError a)
  | some Rec.rmapM => Except.ok (Fetched.dictH a)
  | some Rec.rlistM => Except.ok (Fetched.listH a)
  | some r => Except.ok (Fetched.scal r)

/-- A scalar record as a native JSON value (markers never reach here). -/
def scalarOfRec : Rec → JValue
  | Rec.rnull => JValue.null
  | Rec.rbool b => JValue.bool b
  | Rec.rint n => JValue.num n
  | Rec.rstr s => JValue.str s
  | Rec.rmapM => JValue.obj []
  | Rec.rlistM => JValue.arr []

/-- The record JData.__setitem__ writes for a primitive value. -/
def recOfScalar : JValue → Rec
  | JValue.null => Rec.rnull
  | JValue.bool b => Rec.rbool b
  | JValue.num n => Rec.rint n
  | JValue.str s => Rec.rstr s
  | JValue.obj _ => Rec.rmapM
  | JValue.arr _ => Rec.rlistM

/-- The record holding the successor pointer of x: the n record of the key
x, or the head record of the node when x is null (the if/else of the
neighbour writes in JDict.__setitem__ and JDict.__delitem__). -/
def nextCellAddr (A : Addr) : Option String → Addr
  | some x => kaddr A x "n"
  | none => naddr A

/-- The record holding the predecessor pointer of x: the p record of the
key x, or the tail record of the node when x is null. -/
def prevCellAddr (A : Addr) : Option String → Addr
  | some x => kaddr A x "p"
  | none => paddr A

/-! ## The delete cluster

JData.__delitem__, JDict._destroy, JDict.clear and JDict.__delitem__ are
mutually recursive through the store contents, so the embedding uses a
fuel parameter bounding the recursion depth; fuel is decremented at each
call.  On a well-formed store any fuel above the subtree depth succeeds. -/

mutual

/-- JData.__delitem__: if the address holds a container marker, destroy its
subtree first; then delete the record itself (missing: referror). -/
def jdataDel : Nat → Store → Addr → Except Err Store
  | 0, _, _ => Except.error Err.fuelOut
  | fuel+1, σ, a =>
    match storeGet σ a with
    | some Rec.rmapM => do
        let σ1 ← destroyNode fuel σ a
        rawDel σ1 a
    | some Rec.rlistM => do
        let σ1 ← destroyNode fuel σ a
        rawDel σ1 a
    | _ => rawDel σ a

/-- JData.__setitem__ restricted to primitive record values (the only form
the dict internals write): delete any existing record first (raw for
scalars, subtree destruction for markers), then store. -/
def jdataSetRec : Nat → Store → Addr → Rec → Except Err Store
  | 0, _, _, _ => Except.error Err.fuelOut
  | fuel+1, σ, a, r =>
    if (storeGet σ a).isSome then do
      let σ1 ← jdataDel fuel σ a
      Except.ok (storeSet σ1 a r)
    else Except.ok (storeSet σ a r)

/-- JDict._destroy: clear, then delete the n, p, s records (each through
JData.__delitem__, though they are never markers). -/
def destroyNode : Nat → Store → Addr → Except Err Store
  | 0, _, _ => Except.error Err.fuelOut
  | fuel+1, σ, A => do
      let σ1 ← clearNode fuel σ A
      let σ2 ← jdataDel fuel σ1 (naddr A)
      let σ3 ← jdataDel fuel σ2 (paddr A)
      jdataDel fuel σ3 (saddr A)

/-- JDict.clear: iterate (the generator reads the head key first) deleting
every key. -/
def clearNode : Nat → Store → Addr → Except Err Store
  | 0, _, _ => Except.error Err.fuelOut
  | fuel+1, σ, A => do
      let hr ← jfetch σ (naddr A)
      let hk ← asPtr hr
      clearLoop fuel σ A hk

/-- The loop of JDict.clear: JDict.__iter__ reads the successor of the
current key before yielding it, so the deletion of the yielded key does not
derail the iteration. -/
def clearLoop : Nat → Store → Addr → Option String → Except Err Store
  | 0, _, _, _ => Except.error Err.fuelOut
  | _+1, σ, _, none => Except.ok σ
  | fuel+1, σ, A, some k => do
      let nr ← jfetch σ (kaddr A k "n")
      let nk ← asPtr nr
      let σ1 ← dictDel fuel σ A k
      clearLoop fuel σ1 A nk

/-- JDict.__delitem__: missing key raises KeyError; otherwise read the two
neighbour pointers, delete the three per-entry records (the value through
JData, destroying any subtree), rewire the neighbours (or head/tail), and
decrement the size. -/
def dictDel : Nat → Store → Addr → String → Except Err Store
  | 0, _, _, _ => Except.error Err.fuelOut
  | fuel+1, σ, A, k =>
    if (storeGet σ (vaddr A k)).isSome then do
      let pr ← jfetch σ (kaddr A k "p")
      let pk ← asPtr pr
      let nr ← jfetch σ (kaddr A k "n")
      let nk ← asPtr nr
      let σ1 ← jdataDel fuel σ (vaddr A k)
      let σ2 ← jdataDel fuel σ1 (kaddr A k "p")
      let σ3 ← jdataDel fuel σ2 (kaddr A k "n")
      let σ4 ← jdataSetRec fuel σ3 (nextCellAddr A pk) (ptrRec nk)
      let σ5 ← jdataSetRec fuel σ4 (prevCellAddr A nk) (ptrRec pk)
      let sr ← jfetch σ5 (saddr A)
      let sv ← asSize sr
      jdataSetRec fuel σ5 (saddr A) (Rec.rint (sv - 1))
    else Except.error (Err.keyError k)

end

/-! ## The assign cluster

JData.__setitem__ with a native value recurses structurally on the value
(JDict._init and JList._init re-enter it per entry), calling into the
delete cluster when a record is overwritten; the fuel parameter is only
passed through to those calls. -/

/-- The overwrite guard of JData.__setitem__: an existing record is removed
(destroying any subtree) before the new value is written. -/
def preDel (fuel : Nat) (σ : Store) (a : Addr) : Except Err Store :=
  if (storeGet σ a).isSome then jdataDel fuel σ a else Except.ok σ

/-- The three metadata writes of JDict._init (each through
JData.__setitem__, whose overwrite guard is the present-check). -/
def dictInitMeta (fuel : Nat) (σ : Store) (A : Addr) : Except Err Store := do
  let σ1 ← jdataSetRec fuel σ (paddr A) Rec.rnull
  let σ2 ← jdataSetRec fuel σ1 (naddr A) Rec.rnull
  jdataSetRec fuel σ2 (saddr A) (Rec.rint 0)

/-- The linking block of JDict.__setitem__ for a new key: prev := tail,
next := null, successor of the old tail (or the head) := k, tail := k,
size += 1.  All writes go through JData.__setitem__. -/
def dictLink (fuel : Nat) (σ : Store) (A : Addr) (k : String) : Except Err Store := do
  let lr ← jfetch σ (paddr A)
  let last ← asPtr lr
  let σ1 ← jdataSetRec fuel σ (kaddr A k "p") (ptrRec last)
  let σ2 ← jdataSetRec fuel σ1 (kaddr A k "n") Rec.rnull
  let σ3 ← jdataSetRec fuel σ2 (nextCellAddr A last) (Rec.rstr k)
  let σ4 ← jdataSetRec fuel σ3 (paddr A) (Rec.rstr k)
  let sr ← jfetch σ4 (saddr A)
  let sv ← asSize sr
  jdataSetRec fuel σ4 (saddr A) (Rec.rint (sv + 1))

mutual

/-- JData.__setitem__ with a native python value: remove any existing
record (and its subtree), then either store the scalar, or store the
matching container marker and initialise the fresh node from the value. -/
def jdataSetV (fuel : Nat) (σ : Store) (A : Addr) (v : JValue) : Except Err Store :=
  match v with
  | JValue.obj l => do
      let σ1 ← preDel fuel σ A
      let σ2 ← dictInitMeta fuel (storeSet σ1 A Rec.rmapM) A
      dictPutList fuel σ2 A l
  | JValue.arr xs => do
      let σ1 ← preDel fuel σ A
      let σ2 ← dictInitMeta fuel (storeSet σ1 A Rec.rlistM) A
      listAppendItems fuel σ2 A xs
  | v => do
      let σ1 ← preDel fuel σ A
      Except.ok (storeSet σ1 A (recOfScalar v))
termination_by (sizeOf v, 1)

/-- JDict.__setitem__ with a native value: link the key when new, then
assign the child address through JData.__setitem__. -/
def dictPutCore (fuel : Nat) (σ : Store) (A : Addr) (k : String) (v : JValue) :
    Except Err Store := do
  let σ1 ← if (storeGet σ (vaddr A k)).isSome then Except.ok σ else dictLink fuel σ A k
  jdataSetV fuel σ1 (vaddr A k) v
termination_by (sizeOf v, 2)

/-- The entry loop of JDict._init: insert the entries in iteration
(insertion) order. -/
def dictPutList (fuel : Nat) (σ : Store) (A : Addr) (l : List (String × JValue)) :
    Except Err Store :=
  match l with
  | [] => Except.ok σ
  | (k, v) :: rest => do
      let σ1 ← dictPutCore fuel σ A k v
      dictPutList fuel σ1 A rest
termination_by (sizeOf l, 0)

/-- The append loop of JList._init: each JList.append stores at the key
str(len(self)), with the length read from the size record. -/
def listAppendItems (fuel : Nat) (σ : Store) (A : Addr) (xs : List JValue) :
    Except Err Store :=
  match xs with
  | [] => Except.ok σ
  | x :: rest => do
      let n ← readLen σ A
      let σ1 ← dictPutCore fuel σ A (toString n) x
      listAppendItems fuel σ1 A rest
termination_by (sizeOf xs, 0)

end

/-! ## Iteration and export -/

/-- The loop of JDict.__iter__: yield the current key after reading its
successor.  Fuel bounds the walk (cyclic chains only arise on corrupt
stores). -/
def walkKeys : Nat → Store → Addr → Option String → Except Err (List String)
  | 0, _, _, _ => Except.error Err.fuelOut
  | _+1, _, _, none => Except.ok []
  | wfuel+1, σ, A, some k => do
      let nr ← jfetch σ (kaddr A k "n")
      let nk ← asPtr nr
      let rest ← walkKeys wfuel σ A nk
      Except.ok (k :: rest)

/-- JDict.keys() = list(JDict.__iter__): start the walk at the head key. -/
def dictKeys (wfuel : Nat) (σ : Store) (A : Addr) : Except Err (List String) := do
  let hr ← jfetch σ (naddr A)
  let hk ← asPtr hr
  walkKeys wfuel σ A hk

/-- Observer for the reverse walk of spec section 3 invariant 2: follow the
p records starting from a key (the code itself has no such loop; the claim
quantifies over the store's linkage structure). -/
def walkKeysBack : Nat → Store → Addr → Option String → Except Err (List String)
  | 0, _, _, _ => Except.error Err.fuelOut
  | _+1, _, _, none => Except.ok []
  | wfuel+1, σ, A, some k => do
      let pr ← jfetch σ (kaddr A k "p")
      let pk ← asPtr pr
      let rest ← walkKeysBack wfuel σ A pk
      Except.ok (k :: rest)

/-- The reverse walk started at the tail key. -/
def dictKeysBack (wfuel : Nat) (σ : Store) (A : Addr) : Except Err (List String) := do
  let tr ← jfetch σ (paddr A)
  let tk ← asPtr tr
  walkKeysBack wfuel σ A tk

/-- range(n) as a list of integers. -/
def intRange (n : Int) : List Int := (List.range n.toNat).map (fun j => Int.ofNat j)

mutual

/-- JObject.export through JData: primitives are returned as stored; a map
marker exports by iterating the key chain; a list marker exports by
indexing 0..len-1 (JList.__iter__ over JList.__getitem__, whose bounds
checks hold trivially for indices below the length just read).  Fuel
bounds the container nesting depth. -/
def exportVal (efuel : Nat) (σ : Store) (A : Addr) : Except Err JValue :=
  match efuel with
  | 0 => Except.error Err.fuelOut
  | e+1 =>
    match storeGet σ A with
    | none => Except.error (Err.refError A)
    | some Rec.rmapM => do
        let ks ← dictKeys (e+1) σ A
        let l ← exportEntries e σ A ks
        Except.ok (JValue.obj l)
    | some Rec.rlistM => do
        let n ← readLen σ A
        let xs ← exportItems e σ A (intRange n)
        Except.ok (JValue.arr xs)
    | some r => Except.ok (scalarOfRec r)
termination_by (efuel, 0)

/-- The entry loop of JDict.export. -/
def exportEntries (efuel : Nat) (σ : Store) (A : Addr) (ks : List String) :
    Except Err (List (String × JValue)) :=
  match ks with
  | [] => Except.ok []
  | k :: rest => do
      let v ← exportVal efuel σ (vaddr A k)
      let tail ← exportEntries efuel σ A rest
      Except.ok ((k, v) :: tail)
termination_by (efuel, ks.length + 1)

/-- The item loop of JList.export: each index is read at its decimal key. -/
def exportItems (efuel : Nat) (σ : Store) (A : Addr) (is : List Int) :
    Except Err (List JValue) :=
  match is with
  | [] => Except.ok []
  | i :: rest => do
      let v ← exportVal efuel σ (vaddr A (toString i))
      let tail ← exportItems efuel σ A rest
      Except.ok (v :: tail)
termination_by (efuel, is.length + 1)

end

/-- What python passes to JData.__setitem__: a native value, or a live
JDict/JList handle (which JData snapshots with .export() before writing). -/
inductive AValue where
  | native (v : JValue)
  | handle (a : Addr)

/-- The isinstance(value, JObject) snapshot at the top of
JData.__setitem__. -/
def fetchedExport (efuel : Nat) (σ : Store) : Fetched → Except Err JValue
  | Fetched.scal r => Except.ok (scalarOfRec r)
  | Fetched.dictH a => exportVal efuel σ a
  | Fetched.listH a => exportVal efuel σ a

/-- A fetched value as an assignment argument (handles stay handles). -/
def avalOfFetched : Fetched → AValue
  | Fetched.scal r => AValue.native (scalarOfRec r)
  | Fetched.dictH a => AValue.handle a
  | Fetched.listH a => AValue.handle a

/-- JData.__setitem__ in full: snapshot a handle argument, then assign the
native value. -/
def jdataSetA (fuel efuel : Nat) (σ : Store) (A : Addr) (a : AValue) :
    Except Err Store := do
  let v ← match a with
    | AValue.native v => Except.ok v
    | AValue.handle b => exportVal efuel σ b
  jdataSetV fuel σ A v

/-- JDict.__setitem__ in full (argument possibly a handle). -/
def dictPutA (fuel efuel : Nat) (σ : Store) (A : Addr) (k : String) (a : AValue) :
    Except Err Store := do
  let σ1 ← if (storeGet σ (vaddr A k)).isSome then Except.ok σ else dictLink fuel σ A k
  jdataSetA fuel efuel σ1 (vaddr A k) a

/-! ## Lists (JList) -/

/-- JList.__getitem__: bounds-check against [-n, n); negative indices recurse
on i + n; then read the map entry at the decimal key. -/
def jlistGet (σ : Store) (A : Addr) (i : Int) : Except Err Fetched := do
  let n ← readLen σ A
  if hb : i < -n ∨ n ≤ i then Except.error Err.indexError
  else if hneg : i < 0 then jlistGet σ A (i + n)
  else jdataGet σ (vaddr A (toString i))
termination_by (if i < 0 then 1 else 0)
decreasing_by simp_wf; split_ifs <;> omega

/-- JList.__setitem__: bounds as __getitem__; for a negative index the code
assigns at i + n but then FALLS THROUGH (there is no else before the final
line), additionally performing self._dict[str(i)] = value with the original
negative index. -/
def jlistSetA (fuel efuel : Nat) (σ : Store) (A : Addr) (i : Int) (a : AValue) :
    Except Err Store := do
  let n ← readLen σ A
  if hb : i < -n ∨ n ≤ i then Except.error Err.indexError
  else do
    let σ1 ← if hneg : i < 0 then jlistSetA fuel efuel σ A (i + n) a else Except.ok σ
    dictPutA fuel efuel σ1 A (toString i) a
termination_by (if i < 0 then 1 else 0)
decreasing_by simp_wf; split_ifs <;> omega

/-- range(a, b) as a list of integers. -/
def intRangeFromTo (a b : Int) : List Int :=
  (List.range (b - a).toNat).map (fun j => a + Int.ofNat j)

/-- The shift loop of JList.__delitem__: self[j] = self[j + 1] for each j. -/
def jlistShift (fuel efuel : Nat) (σ : Store) (A : Addr) (js : List Int) :
    Except Err Store :=
  match js with
  | [] => Except.ok σ
  | j :: rest => do
      let f ← jlistGet σ A (j + 1)
      let σ1 ← jlistSetA fuel efuel σ A j (avalOfFetched f)
      jlistShift fuel efuel σ1 A rest

/-- JDict.pop: with the key present, snapshot the value, delete the entry,
return the snapshot; otherwise return the default or raise KeyError. -/
def dictPop (fuel efuel : Nat) (σ : Store) (A : Addr) (k : String)
    (dflt : Option JValue) : Except Err (JValue × Store) :=
  if (storeGet σ (vaddr A k)).isSome then do
    let f ← jdataGet σ (vaddr A k)
    let v ← fetchedExport efuel σ f
    let σ1 ← dictDel fuel σ A k
    Except.ok (v, σ1)
  else
    match dflt with
    | some d => Except.ok (d, σ)
    | none => Except.error (Err.keyError k)

/-- JList.pop: IndexError on an empty list, else pop the map entry at the
last index (the length is read again for the key computation). -/
def jlistPop (fuel efuel : Nat) (σ : Store) (A : Addr) : Except Err (JValue × Store) := do
  let n ← readLen σ A
  if n = 0 then Except.error Err.indexError
  else do
    let n2 ← readLen σ A
    dictPop fuel efuel σ A (toString (n2 - 1)) none

/-- JList.__delitem__: bounds-check, negative indices recurse on i + n; then
shift left over range(i, len - 1) and pop the last element. -/
def jlistDel (fuel efuel : Nat) (σ : Store) (A : Addr) (i : Int) : Except Err Store := do
  let n ← readLen σ A
  if hb : n ≤ i ∨ i < -n then Except.error Err.indexError
  else if hneg : i < 0 then jlistDel fuel efuel σ A (i + n)
  else do
    let n2 ← readLen σ A
    let σ1 ← jlistShift fuel efuel σ A (intRangeFromTo i (n2 - 1))
    let p ← jlistPop fuel efuel σ1 A
    Except.ok p.2
termination_by (if i < 0 then 1 else 0)
decreasing_by simp_wf; split_ifs <;> omega

/-! ## The remaining JDict protocol (for the mutation-sequence claims) -/

/-- JDict.__contains__. -/
def dictContains (σ : Store) (A : Addr) (k : String) : Bool :=
  (storeGet σ (vaddr A k)).isSome

/-- JDict.update from a keyed mapping: self[k] = other[k] in order. -/
def dictUpdate (fuel : Nat) (σ : Store) (A : Addr) (kvs : List (String × JValue)) :
    Except Err Store :=
  dictPutList fuel σ A kvs

/-- JDict.setdefault: insert the default when the key is new, then fetch
the entry (the fetch is the return value; its failure modes are kept). -/
def dictSetdefault (fuel : Nat) (σ : Store) (A : Addr) (k : String) (d : JValue) :
    Except Err Store := do
  let σ1 ← if dictContains σ A k then Except.ok σ else dictPutCore fuel σ A k d
  let _ ← jdataGet σ1 (vaddr A k)
  Except.ok σ1

/-- JDict.popitem: KeyError on an empty map; else pop the head key (the
iterator reads the head key and its successor before yielding). -/
def dictPopitem (fuel efuel : Nat) (σ : Store) (A : Addr) :
    Except Err ((String × JValue) × Store) := do
  let n ← readLen σ A
  if n = 0 then Except.error (Err.keyError "popitem")
  else do
    let hr ← jfetch σ (naddr A)
    let hk ← asPtr hr
    match hk with
    | none => Except.error Err.typeError
    | some k => do
        let nr ← jfetch σ (kaddr A k "n")
        let _ ← asPtr nr
        let p ← dictPop fuel efuel σ A k none
        Except.ok ((k, p.1), p.2)

/-- One completed map mutation, as named by the spec. -/
inductive MapOp where
  | put (k : String) (v : JValue)
  | drop (k : String)
  | clear
  | pop (k : String) (dflt : Option JValue)
  | popitem
  | setdefault (k : String) (v : JValue)
  | update (kvs : List (String × JValue))

/-- Run one map mutation against the node at A. -/
def applyOp (fuel efuel : Nat) (σ : Store) (A : Addr) : MapOp → Except Err Store
  | MapOp.put k v => dictPutCore fuel σ A k v
  | MapOp.drop k => dictDel fuel σ A k
  | MapOp.clear => clearNode fuel σ A
  | MapOp.pop k dflt => do
      let p ← dictPop fuel efuel σ A k dflt
      Except.ok p.2
  | MapOp.popitem => do
      let p ← dictPopitem fuel efuel σ A
      Except.ok p.2
  | MapOp.setdefault k v => dictSetdefault fuel σ A k v
  | MapOp.update kvs => dictUpdate fuel σ A kvs

/-- Run a sequence of map mutations. -/
def applyOps (fuel efuel : Nat) (σ : Store) (A : Addr) : List MapOp → Except Err Store
  | [] => Except.ok σ
  | op :: rest => do
      let σ1 ← applyOp fuel efuel σ A op
      applyOps fuel efuel σ1 A rest

/-! ## The session (JSOP class) -/

/-- Python equality of a fetched metadata value with a string: a handle
compares by export (a container never equals a string); among scalars only
an equal string matches. -/
def eqStrF : Fetched → String → Bool
  | Fetched.scal (Rec.rstr s), t => s = t
  | _, _ => false

/-- Python equality of a fetched metadata value with an integer (python
booleans are numeric: True == 1). -/
def eqIntF : Fetched → Int → Bool
  | Fetched.scal (Rec.rint n), m => n = m
  | Fetched.scal (Rec.rbool b), m => (if b then (1 : Int) else 0) = m
  | _, _ => false

/-- Python order comparison of a fetched metadata value with an integer:
TypeError unless numeric. -/
def leIntF : Fetched → Int → Except Err Bool
  | Fetched.scal (Rec.rint n), m => Except.ok (decide (n ≤ m))
  | Fetched.scal (Rec.rbool b), m => Except.ok (decide ((if b then (1 : Int) else 0) ≤ m))
  | _, _ => Except.error Err.typeError

/-- JSOP.__enter__: read the three metadata records (any failure becomes
the JSOPError "Cannot determine fromat version"); validate name, major and
minor against FORMAT_NAME = "JSOP", 1, 0; then return JData(dbmw)[()]. -/
def jsopOpen (σ : Store) : Except Err Fetched :=
  match (do
    let fn ← jdataGet σ ["m", "format-name"]
    let fma ← jdataGet σ ["m", "format-version-major"]
    let fmi ← jdataGet σ ["m", "format-version-minor"]
    Except.ok (fn, fma, fmi) : Except Err (Fetched × Fetched × Fetched)) with
  | Except.error _ => Except.error Err.corrupt
  | Except.ok (fn, fma, fmi) => do
      let ok3 ← leIntF fmi 0
      if eqStrF fn "JSOP" && eqIntF fma 1 && ok3 then jdataGet σ []
      else Except.error Err.unsupported

/-- JSOP.init: a fresh (truncated) store, the three metadata records, then
the root assignment jdata[()] = obj. -/
def jsopInit (fuel : Nat) (v : JValue) : Except Err Store := do
  let σ1 ← jdataSetV fuel [] ["m", "format-name"] (JValue.str "JSOP")
  let σ2 ← jdataSetV fuel σ1 ["m", "format-version-major"] (JValue.num 1)
  let σ3 ← jdataSetV fuel σ2 ["m", "format-version-minor"] (JValue.num 0)
  jdataSetV fuel σ3 [] v

/-- JSOP.export: open the session, then data.export().  A primitive root
has no export attribute (python AttributeError). -/
def jsopExport (efuel : Nat) (σ : Store) : Except Err JValue := do
  let root ← jsopOpen σ
  match root with
  | Fetched.dictH b => exportVal efuel σ b
  | Fetched.listH b => exportVal efuel σ b
  | Fetched.scal _ => Except.error Err.attrError

/-! ## DBMWrapper with its cache (section I of the module) -/

/-- A python dict key as used by DBMWrapper._cache: the code inserts under
the address tuple but probes membership with the 0xFF-joined byte string.
A bytes object and a tuple are never equal as dict keys, which the two
constructors mirror; the byte key determines the address (0xFF cannot
occur inside UTF-8 output, so the join is injective). -/
inductive CacheKey where
  | tup (a : Addr)
  | bkey (a : Addr)
deriving DecidableEq

/-- The state of one DBMWrapper session: the open dbm and the cache. -/
structure DBMState where
  dbm : List (Addr × Rec)
  cache : List (CacheKey × Rec)

/-- Lookup in the cache (first binding wins; insertions shadow). -/
def cacheFind : List (CacheKey × Rec) → CacheKey → Option Rec
  | [], _ => none
  | (k2, r) :: rest, k => if k2 = k then some r else cacheFind rest k

/-- DBMWrapper.__getitem__: if bkey is not a cache key, read the dbm,
decode, and memoise under the tuple key; return self._cache[key].  The
returned flag records whether the underlying dbm was read (and json-decoded)
by this call. -/
def dbmwGet (st : DBMState) (key : Addr) : Except Err (Rec × DBMState × Bool) :=
  if (cacheFind st.cache (CacheKey.bkey key)).isSome then
    match cacheFind st.cache (CacheKey.tup key) with
    | some r => Except.ok (r, st, false)
    | none => Except.error (Err.refError key)
  else
    match storeGet st.dbm key with
    | some r =>
        Except.ok (r, { st with cache := (CacheKey.tup key, r) :: st.cache }, true)
    | none => Except.error (Err.refError key)

/-! ## Cells (spec section 4.4; absent from src/jsop.py) -/

/-- Modelled from the spec: JList.cells is missing from src/jsop.py (only
the tests under testing/ call it).  Spec 4.4: "cells(): yields cell handles
for each element.  A cell offers value(), put(v), and remove() on the
underlying map entry at its frozen key."  A cell handle is modelled by its
frozen key: the decimal string of the element's index when cells() yielded
it, one per element in index order. -/
def cells (σ : Store) (A : Addr) : Except Err (List String) := do
  let n ← readLen σ A
  Except.ok ((intRange n).map (fun i => toString i))

/-- Modelled from the spec: cell.value() reads the underlying map entry at
the cell's frozen key. -/
def cellValue (σ : Store) (A : Addr) (c : String) : Except Err Fetched :=
  jdataGet σ (vaddr A c)

/-- Modelled from the spec: cell.put(v) writes the underlying map entry at
the cell's frozen key. -/
def cellPut (fuel : Nat) (σ : Store) (A : Addr) (c : String) (v : JValue) :
    Except Err Store :=
  dictPutCore fuel σ A c v

/-- Modelled from the spec: cell.remove() removes the underlying map entry
at the cell's frozen key. -/
def cellRemove (fuel : Nat) (σ : Store) (A : Addr) (c : String) : Except Err Store :=
  dictDel fuel σ A c

/-! ## The canonical record layout of a value

layout A v is the exact set of records a well-formed store holds in the
address space of a node at A representing v: the marker or scalar at A and,
for containers, the head/tail/size records, the per-entry prev/next chain
in insertion order, and the child layouts. -/

/-- The key list of an entry list, in insertion order. -/
def nodeKeys (l : List (String × JValue)) : List String := l.map Prod.fst

/-- The decimal key of a list index (str(i) on the python int). -/
def idxKey (i : Nat) : String := toString (Int.ofNat i)

/-- The entries of a list value viewed as a map node, keyed from a start
index. -/
def arrEntries : Nat → List JValue → List (String × JValue)
  | _, [] => []
  | i, v :: rest => (idxKey i, v) :: arrEntries (i+1) rest

/-- The prev/next chain records of a key list, given the key preceding the
segment. -/
def linkRecs (A : Addr) : Option String → List String → Store
  | _, [] => []
  | pre, k :: rest =>
      (kaddr A k "p", ptrRec pre) :: (kaddr A k "n", ptrRec rest.head?) ::
        linkRecs A (some k) rest

/-- The tail/head/size records of a map node with the given key list. -/
def metaRecs (A : Addr) (ks : List String) : Store :=
  [(paddr A, ptrRec ks.getLast?), (naddr A, ptrRec ks.head?),
   (saddr A, Rec.rint (ks.length : Int))]

mutual

/-- The records of the subtree rooted at A for value v (the record at A
itself included). -/
def layout (A : Addr) (v : JValue) : Store :=
  match v with
  | JValue.obj l =>
      (A, Rec.rmapM) ::
        (metaRecs A (nodeKeys l) ++ linkRecs A none (nodeKeys l) ++ childRecs A l)
  | JValue.arr xs =>
      (A, Rec.rlistM) ::
        (metaRecs A (nodeKeys (arrEntries 0 xs)) ++
          linkRecs A none (nodeKeys (arrEntries 0 xs)) ++ childRecsIdx A 0 xs)
  | v => [(A, recOfScalar v)]
termination_by (sizeOf v, 0)

/-- The child layouts of a map node's entries. -/
def childRecs (A : Addr) (l : List (String × JValue)) : Store :=
  match l with
  | [] => []
  | (k, v) :: rest => layout (vaddr A k) v ++ childRecs A rest
termination_by (sizeOf l, 1)

/-- The child layouts of a list node's items, keyed by index. -/
def childRecsIdx (A : Addr) (i : Nat) (xs : List JValue) : Store :=
  match xs with
  | [] => []
  | v :: rest => layout (vaddr A (idxKey i)) v ++ childRecsIdx A (i+1) rest
termination_by (sizeOf xs, 1)

end

/-- The non-marker records of a map node with entry list l. -/
def dictRecs (A : Addr) (l : List (String × JValue)) : Store :=
  metaRecs A (nodeKeys l) ++ linkRecs A none (nodeKeys l) ++ childRecs A l

/-- The address space of the node at A: its own record, the three metadata
records, and everything below the "k" component. -/
def NodeAddr (A addr : Addr) : Prop :=
  addr = A ∨ addr = paddr A ∨ addr = naddr A ∨ addr = saddr A ∨
    (A ++ ["k"]) <+: addr

/-- The store holds, on the whole address space of the node at A, exactly
the layout of v. -/
def ReprAt (σ : Store) (A : Addr) (v : JValue) : Prop :=
  ∀ addr, NodeAddr A addr → storeGet σ addr = storeGet (layout A v) addr

/-- The store holds, on the address space of A, exactly a map node with
marker mk and entry list l. -/
def DictRepr (σ : Store) (A : Addr) (mk : Rec) (l : List (String × JValue)) : Prop :=
  ∀ addr, NodeAddr A addr → storeGet σ addr = storeGet ((A, mk) :: dictRecs A l) addr

mutual

/-- Well-formedness of a native value: map keys are distinct (python dicts
cannot hold duplicate keys). -/
def wfB (v : JValue) : Bool :=
  match v with
  | JValue.obj l => decide (nodeKeys l).Nodup && wfEntries l
  | JValue.arr xs => wfItems xs
  | _ => true
termination_by (sizeOf v, 0)

def wfEntries (l : List (String × JValue)) : Bool :=
  match l with
  | [] => true
  | (_, v) :: rest => wfB v && wfEntries rest
termination_by (sizeOf l, 1)

def wfItems (xs : List JValue) : Bool :=
  match xs with
  | [] => true
  | v :: rest => wfB v && wfItems rest
termination_by (sizeOf xs, 1)

end

/-! ## Basic store lemmas -/

theorem storeGet_cons (a : Addr) (r : Rec) (σ : Store) (b : Addr) :
    storeGet ((a, r) :: σ) b = if a = b then some r else storeGet σ b := rfl

theorem storeGet_del (σ : Store) (a b : Addr) :
    storeGet (storeDel σ a) b = if a = b then none else storeGet σ b := by
  induction σ with
  | nil => simp [storeDel, storeGet]
  | cons p σ ih =>
      obtain ⟨c, r⟩ := p
      simp only [storeDel]
      by_cases hca : c = a
      · subst hca
        rw [if_pos rfl, ih]
        by_cases hab : c = b
        · simp [hab]
        · simp [storeGet, hab]
      · rw [if_neg hca]
        simp only [storeGet]
        by_cases hcb : c = b
        · subst hcb
          have hab : a ≠ c := fun h => hca h.symm
          simp [hab]
        · simp [hcb, ih]

theorem storeGet_set_self (σ : Store) (a : Addr) (r : Rec) :
    storeGet (storeSet σ a r) a = some r := by
  simp [storeSet, storeGet]

theorem storeGet_set_ne (σ : Store) (a b : Addr) (r : Rec) (h : a ≠ b) :
    storeGet (storeSet σ a r) b = storeGet σ b := by
  simp [storeSet, storeGet, h, storeGet_del]

theorem storeGet_set (σ : Store) (a b : Addr) (r : Rec) :
    storeGet (storeSet σ a r) b = if a = b then some r else storeGet σ b := by
  by_cases h : a = b
  · subst h; simp [storeGet_set_self]
  · simp [h, storeGet_set_ne σ a b r h]

theorem storeGet_append (σ1 σ2 : Store) (a : Addr) :
    storeGet (σ1 ++ σ2) a =
      match storeGet σ1 a with
      | some r => some r
      | none => storeGet σ2 a := by
  induction σ1 with
  | nil => simp [storeGet]
  | cons p σ ih =>
      obtain ⟨c, r⟩ := p
      by_cases hca : c = a <;> simp [storeGet, hca, ih]

/-! ## Address toolkit -/

theorem addr_ext (A : Addr) {t u : List String} : A ++ t = A ++ u ↔ t = u :=
  ⟨List.append_cancel_left, fun h => h ▸ rfl⟩

theorem addr_ne (A : Addr) {t u : List String} (h : t ≠ u) : A ++ t ≠ A ++ u :=
  fun he => h (List.append_cancel_left he)

theorem ne_of_ne_length {t u : List String} (h : t.length ≠ u.length) : t ≠ u :=
  fun he => h (he ▸ rfl)

theorem ext_ne_self (A : Addr) {t : List String} (h : t ≠ []) : A ++ t ≠ A := by
  intro he
  exact h (List.append_cancel_left (he.trans (List.append_nil A).symm))

theorem kaddr_inj {A : Addr} {k f k2 f2 : String} :
    kaddr A k f = kaddr A k2 f2 ↔ k = k2 ∧ f = f2 := by
  constructor
  · intro h
    have := List.append_cancel_left (h : A ++ ["k", k, f] = A ++ ["k", k2, f2])
    simp at this
    exact this
  · rintro ⟨rfl, rfl⟩; rfl

theorem under_trans (A : Addr) (t : List String) {addr : Addr}
    (h : ¬ A <+: addr) : ¬ (A ++ t) <+: addr :=
  fun hu => h ((List.prefix_append A t).trans hu)

theorem prefix_kaddr (A : Addr) (k f : String) : (A ++ ["k"]) <+: kaddr A k f := by
  rw [show kaddr A k f = (A ++ ["k"]) ++ [k, f] by simp [kaddr]]
  exact List.prefix_append _ _

theorem prefix_vaddr_kaddr (A : Addr) (k : String) (f : String) :
    ¬ (vaddr A k) <+: kaddr A k2 f → True := fun _ => trivial

theorem vaddr_collision {A : Addr} {k k2 : String} {addr : Addr}
    (h1 : vaddr A k <+: addr) (h2 : vaddr A k2 <+: addr) : k = k2 := by
  have hl : (vaddr A k).length = (vaddr A k2).length := by simp [vaddr]
  have h3 : vaddr A k <+: vaddr A k2 :=
    List.prefix_of_prefix_length_le h1 h2 (le_of_eq hl)
  have h4 : vaddr A k = vaddr A k2 := h3.eq_of_length hl
  exact (kaddr_inj.mp h4).1

theorem under_vaddr_kaddr {A : Addr} {k k2 f : String}
    (h : vaddr A k <+: kaddr A k2 f) : k = k2 ∧ f = "v" := by
  have hl : (vaddr A k).length = (kaddr A k2 f).length := by simp [vaddr, kaddr]
  have h4 : vaddr A k = kaddr A k2 f := h.eq_of_length hl
  have := kaddr_inj.mp h4
  exact ⟨this.1, this.2.symm⟩

theorem nodeAddr_child {A : Addr} {k : String} {addr : Addr}
    (h : NodeAddr (vaddr A k) addr) : NodeAddr A addr := by
  have base : (A ++ ["k"]) <+: vaddr A k := prefix_kaddr A k "v"
  rcases h with rfl | rfl | rfl | rfl | h5
  · exact Or.inr (Or.inr (Or.inr (Or.inr base)))
  · exact Or.inr (Or.inr (Or.inr (Or.inr (base.trans (List.prefix_append _ _)))))
  · exact Or.inr (Or.inr (Or.inr (Or.inr (base.trans (List.prefix_append _ _)))))
  · exact Or.inr (Or.inr (Or.inr (Or.inr (base.trans (List.prefix_append _ _)))))
  · exact Or.inr (Or.inr (Or.inr (Or.inr (base.trans ((List.prefix_append _ _).trans h5)))))

theorem under_vaddr_nodeAddr {A : Addr} {k : String} {addr : Addr}
    (h : vaddr A k <+: addr) : NodeAddr A addr :=
  Or.inr (Or.inr (Or.inr (Or.inr ((prefix_kaddr A k "v").trans h))))

/-! ## The prev/next chain of a key list -/

/-- The successor of the first occurrence of k in the chain. -/
def chainNext : List String → String → Option String
  | [], _ => none
  | a :: rest, k => if a = k then rest.head? else chainNext rest k

/-- The predecessor of the first occurrence of k in a chain whose segment
is preceded by pre. -/
def chainPrev : Option String → List String → String → Option String
  | _, [], _ => none
  | pre, a :: rest, k => if a = k then pre else chainPrev (some a) rest k

/-! ## Domain and lookup lemmas for layouts -/

theorem linkRecs_get_other (A : Addr) (pre : Option String) (ks : List String)
    (addr : Addr)
    (h : ∀ k ∈ ks, addr ≠ kaddr A k "p" ∧ addr ≠ kaddr A k "n") :
    storeGet (linkRecs A pre ks) addr = none := by
  induction ks generalizing pre with
  | nil => rfl
  | cons k rest ih =>
      have hk := h k (by simp)
      simp only [linkRecs, storeGet]
      rw [if_neg (fun he => hk.1 he.symm), if_neg (fun he => hk.2 he.symm)]
      exact ih (some k) (fun k2 hk2 => h k2 (List.mem_cons_of_mem _ hk2))

theorem linkRecs_get_none_of_not_under (A : Addr) (pre : Option String)
    (ks : List String) (addr : Addr) (h : ¬ (A ++ ["k"]) <+: addr) :
    storeGet (linkRecs A pre ks) addr = none := by
  refine linkRecs_get_other A pre ks addr (fun k _ => ⟨?_, ?_⟩) <;>
    exact fun he => h (he ▸ prefix_kaddr A k _)

theorem linkRecs_get_p (A : Addr) (pre : Option String) (ks : List String)
    (k : String) (hk : k ∈ ks) :
    storeGet (linkRecs A pre ks) (kaddr A k "p") =
      some (ptrRec (chainPrev pre ks k)) := by
  induction ks generalizing pre with
  | nil => cases hk
  | cons a rest ih =>
      simp only [linkRecs, storeGet, chainPrev]
      by_cases hak : a = k
      · subst hak; simp
      · rw [if_neg (fun he => hak (kaddr_inj.mp he).1),
            if_neg (fun he => by simpa using (kaddr_inj.mp he).2), if_neg hak]
        exact ih (some a) ((List.mem_cons.mp hk).resolve_left (fun he => hak he.symm))

theorem linkRecs_get_n (A : Addr) (pre : Option String) (ks : List String)
    (k : String) (hk : k ∈ ks) :
    storeGet (linkRecs A pre ks) (kaddr A k "n") =
      some (ptrRec (chainNext ks k)) := by
  induction ks generalizing pre with
  | nil => cases hk
  | cons a rest ih =>
      simp only [linkRecs, storeGet, chainNext]
      by_cases hak : a = k
      · subst hak
        rw [if_neg (fun he => by simpa using (kaddr_inj.mp he).2), if_pos rfl, if_pos rfl]
      · rw [if_neg (fun he => by simpa using (kaddr_inj.mp he)),
            if_neg (fun he => hak (kaddr_inj.mp he).1), if_neg hak]
        exact ih (some a) ((List.mem_cons.mp hk).resolve_left (fun he => hak he.symm))

theorem metaRecs_get_p (A : Addr) (ks : List String) :
    storeGet (metaRecs A ks) (paddr A) = some (ptrRec ks.getLast?) := by
  simp [metaRecs, storeGet]

theorem metaRecs_get_n (A : Addr) (ks : List String) :
    storeGet (metaRecs A ks) (naddr A) = some (ptrRec ks.head?) := by
  simp [metaRecs, storeGet, paddr, naddr, List.append_cancel_left_eq]

theorem metaRecs_get_s (A : Addr) (ks : List String) :
    storeGet (metaRecs A ks) (saddr A) = some (Rec.rint (ks.length : Int)) := by
  simp [metaRecs, storeGet, paddr, naddr, saddr, List.append_cancel_left_eq]

theorem metaRecs_get_other (A : Addr) (ks : List String) (addr : Addr)
    (h1 : addr ≠ paddr A) (h2 : addr ≠ naddr A) (h3 : addr ≠ saddr A) :
    storeGet (metaRecs A ks) addr = none := by
  simp only [metaRecs, storeGet]
  rw [if_neg (fun he => h1 he.symm), if_neg (fun he => h2 he.symm),
      if_neg (fun he => h3 he.symm)]

mutual

theorem layout_get_none (A : Addr) (v : JValue) (addr : Addr) (h : ¬ A <+: addr) :
    storeGet (layout A v) addr = none := by
  have hne : A ≠ addr := fun he => h (he ▸ List.prefix_refl A)
  have hk : ¬ (A ++ ["k"]) <+: addr := under_trans A ["k"] h
  match v with
  | JValue.null => simp [layout, storeGet, hne]
  | JValue.bool b => simp [layout, storeGet, hne]
  | JValue.num n => simp [layout, storeGet, hne]
  | JValue.str s => simp [layout, storeGet, hne]
  | JValue.obj l =>
      rw [layout, storeGet_cons, if_neg hne, storeGet_append, storeGet_append,
          metaRecs_get_other A _ addr (fun he => h (he ▸ List.prefix_append A _))
            (fun he => h (he ▸ List.prefix_append A _))
            (fun he => h (he ▸ List.prefix_append A _)),
          linkRecs_get_none_of_not_under A none _ addr hk,
          childRecs_get_none A l addr hk]
  | JValue.arr xs =>
      rw [layout, storeGet_cons, if_neg hne, storeGet_append, storeGet_append,
          metaRecs_get_other A _ addr (fun he => h (he ▸ List.prefix_append A _))
            (fun he => h (he ▸ List.prefix_append A _))
            (fun he => h (he ▸ List.prefix_append A _)),
          linkRecs_get_none_of_not_under A none _ addr hk,
          childRecsIdx_get_none A 0 xs addr hk]
termination_by (sizeOf v, 0)

theorem childRecs_get_none (A : Addr) (l : List (String × JValue)) (addr : Addr)
    (h : ¬ (A ++ ["k"]) <+: addr) : storeGet (childRecs A l) addr = none := by
  match l with
  | [] => rw [childRecs]; rfl
  | (k, v) :: rest =>
      rw [childRecs, storeGet_append,
          layout_get_none (vaddr A k) v addr
            (fun hu => h ((prefix_kaddr A k "v").trans hu)),
          childRecs_get_none A rest addr h]
termination_by (sizeOf l, 1)

theorem childRecsIdx_get_none (A : Addr) (i : Nat) (xs : List JValue) (addr : Addr)
    (h : ¬ (A ++ ["k"]) <+: addr) : storeGet (childRecsIdx A i xs) addr = none := by
  match xs with
  | [] => rw [childRecsIdx]; rfl
  | v :: rest =>
      rw [childRecsIdx, storeGet_append,
          layout_get_none (vaddr A (idxKey i)) v addr
            (fun hu => h ((prefix_kaddr A (idxKey i) "v").trans hu)),
          childRecsIdx_get_none A (i+1) rest addr h]
termination_by (sizeOf xs, 1)

end

theorem childRecs_get_not_mem (A : Addr) (l : List (String × JValue)) (addr : Addr)
    (h : ∀ k ∈ nodeKeys l, ¬ vaddr A k <+: addr) :
    storeGet (childRecs A l) addr = none := by
  induction l with
  | nil => rw [childRecs]; rfl
  | cons p rest ih =>
      obtain ⟨k, v⟩ := p
      rw [childRecs, storeGet_append,
          layout_get_none (vaddr A k) v addr (h k (by simp [nodeKeys])),
          ih (fun k2 hk2 => h k2 (by
            rw [show nodeKeys ((k, v) :: rest) = k :: nodeKeys rest from rfl]
            exact List.mem_cons_of_mem _ hk2))]

theorem childRecs_get_under (A : Addr) (l : List (String × JValue)) (k : String)
    (v : JValue) (addr : Addr) (hnd : (nodeKeys l).Nodup) (hmem : (k, v) ∈ l)
    (hpre : vaddr A k <+: addr) :
    storeGet (childRecs A l) addr = storeGet (layout (vaddr A k) v) addr := by
  induction l with
  | nil => cases hmem
  | cons p rest ih =>
      obtain ⟨k0, v0⟩ := p
      rw [show nodeKeys ((k0, v0) :: rest) = k0 :: nodeKeys rest from rfl,
        List.nodup_cons] at hnd
      obtain ⟨hnd0, hndr⟩ := hnd
      by_cases hk0 : k0 = k
      · subst hk0
        have hv : v0 = v := by
          rcases List.mem_cons.mp hmem with he | hr
          · exact (congrArg Prod.snd he).symm
          · exact absurd (List.mem_map.mpr ⟨(k0, v), hr, rfl⟩) hnd0
        subst hv
        rw [childRecs, storeGet_append,
            childRecs_get_not_mem A rest addr
              (fun k2 hk2 he =>
                hnd0 ((vaddr_collision he hpre) ▸ hk2))]
        cases storeGet (layout (vaddr A k0) v0) addr <;> rfl
      · have hmr : (k, v) ∈ rest := by
          rcases List.mem_cons.mp hmem with he | hr
          · exact absurd (congrArg Prod.fst he).symm hk0
          · exact hr
        rw [childRecs, storeGet_append,
            layout_get_none (vaddr A k0) v0 addr
              (fun hu => hk0 (vaddr_collision hu hpre)),
            ih hndr hmr]

/-! ## Lookup battery for a map node's record set -/

theorem root_ne_ext (A : Addr) {t : List String} (h : t ≠ []) : A ≠ A ++ t :=
  fun he => ext_ne_self A h he.symm

theorem not_vaddr_prefix_of_short {A : Addr} {k : String} {addr : Addr}
    (h : addr.length < A.length + 3) : ¬ vaddr A k <+: addr := by
  intro hp
  have := hp.length_le
  simp [vaddr] at this
  omega

theorem ne_kaddr_of_length {A : Addr} {k f : String} {addr : Addr}
    (h : addr.length ≠ A.length + 3) : addr ≠ kaddr A k f := by
  intro he
  subst he
  simp [kaddr] at h

theorem root_ne_paddr (A : Addr) : A ≠ paddr A := by
  rw [paddr]; exact root_ne_ext A (by simp)

theorem root_ne_naddr (A : Addr) : A ≠ naddr A := by
  rw [naddr]; exact root_ne_ext A (by simp)

theorem root_ne_saddr (A : Addr) : A ≠ saddr A := by
  rw [saddr]; exact root_ne_ext A (by simp)

theorem root_ne_kaddr (A : Addr) (k f : String) : A ≠ kaddr A k f := by
  rw [kaddr]; exact root_ne_ext A (by simp)

theorem kaddr_ne_paddr (A : Addr) (k f : String) : kaddr A k f ≠ paddr A := by
  rw [kaddr, paddr]; exact addr_ne A (by simp)

theorem kaddr_ne_naddr (A : Addr) (k f : String) : kaddr A k f ≠ naddr A := by
  rw [kaddr, naddr]; exact addr_ne A (by simp)

theorem kaddr_ne_saddr (A : Addr) (k f : String) : kaddr A k f ≠ saddr A := by
  rw [kaddr, saddr]; exact addr_ne A (by simp)

theorem dictRecs_get_root (A : Addr) (mk : Rec) (l : List (String × JValue)) :
    storeGet ((A, mk) :: dictRecs A l) A = some mk := by
  simp [storeGet]

theorem dictRecs_get_p (A : Addr) (mk : Rec) (l : List (String × JValue)) :
    storeGet ((A, mk) :: dictRecs A l) (paddr A) =
      some (ptrRec (nodeKeys l).getLast?) := by
  rw [storeGet_cons, if_neg (root_ne_paddr A), dictRecs,
      storeGet_append, storeGet_append, metaRecs_get_p]

theorem dictRecs_get_n (A : Addr) (mk : Rec) (l : List (String × JValue)) :
    storeGet ((A, mk) :: dictRecs A l) (naddr A) =
      some (ptrRec (nodeKeys l).head?) := by
  rw [storeGet_cons, if_neg (root_ne_naddr A), dictRecs,
      storeGet_append, storeGet_append, metaRecs_get_n]

theorem dictRecs_get_s (A : Addr) (mk : Rec) (l : List (String × JValue)) :
    storeGet ((A, mk) :: dictRecs A l) (saddr A) =
      some (Rec.rint ((nodeKeys l).length : Int)) := by
  rw [storeGet_cons, if_neg (root_ne_saddr A), dictRecs,
      storeGet_append, storeGet_append, metaRecs_get_s]

theorem dictRecs_get_kp (A : Addr) (mk : Rec) (l : List (String × JValue))
    (k : String) (hk : k ∈ nodeKeys l) :
    storeGet ((A, mk) :: dictRecs A l) (kaddr A k "p") =
      some (ptrRec (chainPrev none (nodeKeys l) k)) := by
  rw [storeGet_cons, if_neg (root_ne_kaddr A k "p"), dictRecs,
      storeGet_append, storeGet_append,
      metaRecs_get_other A _ _ (kaddr_ne_paddr A k "p") (kaddr_ne_naddr A k "p")
        (kaddr_ne_saddr A k "p"),
      linkRecs_get_p A none (nodeKeys l) k hk]

theorem dictRecs_get_kn (A : Addr) (mk : Rec) (l : List (String × JValue))
    (k : String) (hk : k ∈ nodeKeys l) :
    storeGet ((A, mk) :: dictRecs A l) (kaddr A k "n") =
      some (ptrRec (chainNext (nodeKeys l) k)) := by
  rw [storeGet_cons, if_neg (root_ne_kaddr A k "n"), dictRecs,
      storeGet_append, storeGet_append,
      metaRecs_get_other A _ _ (kaddr_ne_paddr A k "n") (kaddr_ne_naddr A k "n")
        (kaddr_ne_saddr A k "n"),
      linkRecs_get_n A none (nodeKeys l) k hk]

theorem dictRecs_get_child (A : Addr) (mk : Rec) (l : List (String × JValue))
    (k : String) (v : JValue) (addr : Addr) (hnd : (nodeKeys l).Nodup)
    (hmem : (k, v) ∈ l) (hpre : vaddr A k <+: addr) :
    storeGet ((A, mk) :: dictRecs A l) addr =
      storeGet (layout (vaddr A k) v) addr := by
  have hlen : A.length + 3 ≤ addr.length := by
    have := hpre.length_le
    simpa [vaddr] using this
  have hA : A ≠ addr := by
    intro he; subst he; omega
  rw [storeGet_cons, if_neg hA, dictRecs, storeGet_append, storeGet_append,
      metaRecs_get_other A _ _
        (fun he => by subst he; simp [paddr] at hlen)
        (fun he => by subst he; simp [naddr] at hlen)
        (fun he => by subst he; simp [saddr] at hlen),
      linkRecs_get_other A none (nodeKeys l) addr
        (fun k2 _ => ⟨fun he => by
            subst he
            have := under_vaddr_kaddr hpre
            simp at this,
          fun he => by
            subst he
            have := under_vaddr_kaddr hpre
            simp at this⟩),
      childRecs_get_under A l k v addr hnd hmem hpre]

theorem dictRecs_get_none (A : Addr) (mk : Rec) (l : List (String × JValue))
    (addr : Addr) (h0 : addr ≠ A) (h1 : addr ≠ paddr A) (h2 : addr ≠ naddr A)
    (h3 : addr ≠ saddr A)
    (h4 : ∀ k ∈ nodeKeys l,
        addr ≠ kaddr A k "p" ∧ addr ≠ kaddr A k "n" ∧ ¬ vaddr A k <+: addr) :
    storeGet ((A, mk) :: dictRecs A l) addr = none := by
  rw [storeGet_cons, if_neg (fun he => h0 he.symm), dictRecs, storeGet_append,
      storeGet_append, metaRecs_get_other A _ _ h1 h2 h3,
      linkRecs_get_other A none (nodeKeys l) addr
        (fun k hk => ⟨(h4 k hk).1, (h4 k hk).2.1⟩),
      childRecs_get_not_mem A l addr (fun k hk => (h4 k hk).2.2)]

/-- Garbage addresses: in the node's space but never bound by any layout. -/
def GarbAddr (A addr : Addr) : Prop :=
  (addr ≠ A ∧ addr ≠ paddr A ∧ addr ≠ naddr A ∧ addr ≠ saddr A) ∧
  ∀ k, addr ≠ kaddr A k "p" ∧ addr ≠ kaddr A k "n" ∧ ¬ vaddr A k <+: addr

/-- Every address in a node's space is its root, one of the three metadata
records, a prev or next cell, inside a child subtree, or garbage. -/
theorem nodeAddr_classify (A addr : Addr) (h : NodeAddr A addr) :
    addr = A ∨ addr = paddr A ∨ addr = naddr A ∨ addr = saddr A ∨
    (∃ k, addr = kaddr A k "p") ∨ (∃ k, addr = kaddr A k "n") ∨
    (∃ k, vaddr A k <+: addr) ∨ GarbAddr A addr := by
  rcases h with h | h | h | h | h
  · exact Or.inl h
  · exact Or.inr (Or.inl h)
  · exact Or.inr (Or.inr (Or.inl h))
  · exact Or.inr (Or.inr (Or.inr (Or.inl h)))
  · obtain ⟨t, rfl⟩ := h
    have hbase : ∀ rest : List String,
        A ++ ["k"] ++ rest ≠ A ∧ A ++ ["k"] ++ rest ≠ paddr A ∧
        A ++ ["k"] ++ rest ≠ naddr A ∧ A ++ ["k"] ++ rest ≠ saddr A := by
      intro rest
      refine ⟨?_, ?_, ?_, ?_⟩
      · rw [List.append_assoc]
        exact ext_ne_self A (by simp)
      · rw [List.append_assoc, paddr]
        exact addr_ne A (by simp)
      · rw [List.append_assoc, naddr]
        exact addr_ne A (by simp)
      · rw [List.append_assoc, saddr]
        exact addr_ne A (by simp)
    match t with
    | [] =>
        refine Or.inr (Or.inr (Or.inr (Or.inr (Or.inr (Or.inr (Or.inr ⟨hbase [], ?_⟩))))))
        intro k
        refine ⟨ne_kaddr_of_length (by simp), ne_kaddr_of_length (by simp),
          not_vaddr_prefix_of_short (by simp)⟩
    | [k1] =>
        refine Or.inr (Or.inr (Or.inr (Or.inr (Or.inr (Or.inr (Or.inr ⟨hbase [k1], ?_⟩))))))
        intro k
        refine ⟨ne_kaddr_of_length (by simp), ne_kaddr_of_length (by simp),
          not_vaddr_prefix_of_short (by simp)⟩
    | k1 :: f1 :: t2 =>
        have hshape : A ++ ["k"] ++ k1 :: f1 :: t2 = A ++ "k" :: k1 :: f1 :: t2 := by
          simp
        by_cases hv : f1 = "v"
        · subst hv
          refine Or.inr (Or.inr (Or.inr (Or.inr (Or.inr (Or.inr (Or.inl ⟨k1, ?_⟩))))))
          rw [hshape, vaddr]
          refine (List.prefix_append_right_inj A).mpr ?_
          simp [List.cons_prefix_cons]
        · by_cases hp : f1 = "p"
          · subst hp
            match t2 with
            | [] =>
                refine Or.inr (Or.inr (Or.inr (Or.inr (Or.inl ⟨k1, ?_⟩))))
                rw [hshape, kaddr]
            | x :: t3 =>
                refine Or.inr (Or.inr (Or.inr (Or.inr (Or.inr (Or.inr (Or.inr
                  ⟨hbase _, ?_⟩))))))
                intro k
                refine ⟨ne_kaddr_of_length (by simp),
                  ne_kaddr_of_length (by simp), ?_⟩
                rw [hshape]
                intro hpre
                have := (List.prefix_append_right_inj A).mp hpre
                simp [List.cons_prefix_cons] at this
          · by_cases hn : f1 = "n"
            · subst hn
              match t2 with
              | [] =>
                  refine Or.inr (Or.inr (Or.inr (Or.inr (Or.inr (Or.inl ⟨k1, ?_⟩)))))
                  rw [hshape, kaddr]
              | x :: t3 =>
                  refine Or.inr (Or.inr (Or.inr (Or.inr (Or.inr (Or.inr (Or.inr
                    ⟨hbase _, ?_⟩))))))
                  intro k
                  refine ⟨ne_kaddr_of_length (by simp),
                    ne_kaddr_of_length (by simp), ?_⟩
                  rw [hshape]
                  intro hpre
                  have := (List.prefix_append_right_inj A).mp hpre
                  simp [List.cons_prefix_cons] at this
            · refine Or.inr (Or.inr (Or.inr (Or.inr (Or.inr (Or.inr (Or.inr
                ⟨hbase _, ?_⟩))))))
              intro k
              refine ⟨?_, ?_, ?_⟩
              · intro he
                rw [hshape, kaddr] at he
                have := List.append_cancel_left he
                simp at this
                exact hp this.2.1
              · intro he
                rw [hshape, kaddr] at he
                have := List.append_cancel_left he
                simp at this
                exact hn this.2.1
              · rw [hshape]
                intro hpre
                have := (List.prefix_append_right_inj A).mp hpre
                simp [List.cons_prefix_cons] at this
                exact hv this.2.symm

/-! ## Injectivity of the decimal list keys -/

def charVal (c : Char) : Nat := c.toNat - 48

def valStep (a : Nat) (c : Char) : Nat := 10 * a + charVal c

def valFrom (a : Nat) (l : List Char) : Nat := l.foldl valStep a

def decShift (a : Nat) (n : Nat) : Nat :=
  if n < 10 then 10 * a + n else 10 * decShift a (n / 10) + n % 10
decreasing_by simp_wf; omega

theorem charVal_digitChar {m : Nat} (h : m < 10) : charVal (Nat.digitChar m) = m := by
  interval_cases m <;> decide

theorem valFrom_toDigitsCore (fuel : Nat) :
    ∀ (n a : Nat) (ds : List Char), n < fuel →
    valFrom a (Nat.toDigitsCore 10 fuel n ds) = valFrom (decShift a n) ds := by
  induction fuel with
  | zero => intro n a ds h; omega
  | succ fuel ih =>
      intro n a ds h
      rw [Nat.toDigitsCore]
      by_cases h0 : n / 10 = 0
      · have hn : n < 10 := by omega
        simp only [h0, if_pos rfl]
        have hv : charVal (Nat.digitChar (n % 10)) = n % 10 :=
          charVal_digitChar (Nat.mod_lt _ (by omega))
        show valFrom (valStep a _) ds = _
        rw [decShift]
        simp [hn, valStep, hv]
        congr 1
        omega
      · have hge : 10 ≤ n := by omega
        have hlt : n / 10 < fuel := by omega
        rw [if_neg h0, ih (n / 10) a _ hlt]
        show valFrom (valStep (decShift a (n / 10)) _) ds = _
        have hv : charVal (Nat.digitChar (n % 10)) = n % 10 :=
          charVal_digitChar (Nat.mod_lt _ (by omega))
        conv_rhs => rw [decShift]
        rw [if_neg (by omega)]
        simp [valStep, hv]

theorem decShift_zero (n : Nat) : decShift 0 n = n := by
  induction n using Nat.strong_induction_on with
  | _ n ih =>
      rw [decShift]
      by_cases hn : n < 10
      · simp [hn]
      · have hd : n / 10 < n := by omega
        simp [hn, ih _ hd]
        omega

theorem natRepr_val (n : Nat) : valFrom 0 (Nat.toDigits 10 n) = n := by
  rw [Nat.toDigits, valFrom_toDigitsCore (n+1) n 0 [] (by omega), decShift_zero]
  rfl

theorem natRepr_inj {m n : Nat} (h : Nat.repr m = Nat.repr n) : m = n := by
  have hd : Nat.toDigits 10 m = Nat.toDigits 10 n := by
    have h2 := congrArg String.data h
    simpa [Nat.repr, List.asString] using h2
  have h3 := congrArg (valFrom 0) hd
  rwa [natRepr_val, natRepr_val] at h3

theorem idxKey_eq_natRepr (i : Nat) : idxKey i = Nat.repr i := rfl

theorem idxKey_inj {i j : Nat} (h : idxKey i = idxKey j) : i = j :=
  natRepr_inj (by rwa [idxKey_eq_natRepr, idxKey_eq_natRepr] at h)

/-! ## arrEntries key facts -/

theorem arrEntries_keys (i : Nat) (xs : List JValue) :
    nodeKeys (arrEntries i xs) = (List.range xs.length).map (fun j => idxKey (i + j)) := by
  induction xs generalizing i with
  | nil => rfl
  | cons x rest ih =>
      show idxKey i :: nodeKeys (arrEntries (i+1) rest) = _
      rw [ih (i+1)]
      simp [List.range_succ_eq_map, Function.comp, Nat.add_assoc, Nat.add_comm 1]

theorem arrEntries_keys_mem {i : Nat} {xs : List JValue} {k : String}
    (h : k ∈ nodeKeys (arrEntries i xs)) : ∃ m, i ≤ m ∧ m < i + xs.length ∧ k = idxKey m := by
  rw [arrEntries_keys] at h
  obtain ⟨j, hj, rfl⟩ := List.mem_map.mp h
  exact ⟨i + j, by omega, by simp at hj; omega, rfl⟩

theorem arrEntries_keys_nodup (i : Nat) (xs : List JValue) :
    (nodeKeys (arrEntries i xs)).Nodup := by
  rw [arrEntries_keys]
  refine List.Nodup.map ?_ (List.nodup_range _)
  intro a b hab
  have := idxKey_inj hab
  omega

theorem arrEntries_length (i : Nat) (xs : List JValue) :
    (arrEntries i xs).length = xs.length := by
  induction xs generalizing i with
  | nil => rfl
  | cons x rest ih => show (arrEntries (i+1) rest).length + 1 = _; simp [ih]

theorem arrEntries_append (i : Nat) (xs ys : List JValue) :
    arrEntries i (xs ++ ys) = arrEntries i xs ++ arrEntries (i + xs.length) ys := by
  induction xs generalizing i with
  | nil => simp [arrEntries]
  | cons x rest ih =>
      show (idxKey i, x) :: arrEntries (i+1) (rest ++ ys) = _
      rw [ih (i+1)]
      simp [arrEntries, Nat.add_assoc, Nat.add_comm 1]

/-! ## Chain lemmas -/

/-- The last key of a chain segment, defaulting to the preceding key. -/
def olast (pre : Option String) (ks : List String) : Option String :=
  match ks.getLast? with
  | some x => some x
  | none => pre

theorem olast_nil (pre : Option String) : olast pre [] = pre := rfl

theorem chainNext_append {ks1 : List String} (ks2 : List String) {k : String}
    (hk : k ∈ ks1) :
    chainNext (ks1 ++ ks2) k =
      match chainNext ks1 k with
      | some x => some x
      | none => ks2.head? := by
  induction ks1 with
  | nil => cases hk
  | cons a rest ih =>
      by_cases hak : a = k
      · subst hak
        show (if a = a then (rest ++ ks2).head? else _) = _
        rw [if_pos rfl]
        show (rest ++ ks2).head? = match (if a = a then rest.head? else chainNext rest a) with
          | some x => some x
          | none => ks2.head?
        rw [if_pos rfl]
        cases rest <;> simp
      · show (if a = k then _ else chainNext (rest ++ ks2) k) = _
        rw [if_neg hak, ih ((List.mem_cons.mp hk).resolve_left (fun he => hak he.symm))]
        show _ = match (if a = k then rest.head? else chainNext rest k) with
          | some x => some x
          | none => ks2.head?
        rw [if_neg hak]

theorem chainNext_append_right {ks1 : List String} (ks2 : List String) {k : String}
    (hk : k ∉ ks1) : chainNext (ks1 ++ ks2) k = chainNext ks2 k := by
  induction ks1 with
  | nil => rfl
  | cons a rest ih =>
      show (if a = k then _ else chainNext (rest ++ ks2) k) = _
      rw [if_neg (fun he => hk (by rw [← he]; exact List.mem_cons_self a rest)),
          ih (fun hm => hk (List.mem_cons_of_mem a hm))]

theorem chainPrev_append {ks1 : List String} (ks2 : List String) {k : String}
    (pre : Option String) (hk : k ∈ ks1) :
    chainPrev pre (ks1 ++ ks2) k = chainPrev pre ks1 k := by
  induction ks1 generalizing pre with
  | nil => cases hk
  | cons a rest ih =>
      by_cases hak : a = k
      · subst hak
        show (if a = a then pre else _) = (if a = a then pre else _)
        rw [if_pos rfl, if_pos rfl]
      · show (if a = k then pre else chainPrev (some a) (rest ++ ks2) k) = _
        rw [if_neg hak, ih (some a) ((List.mem_cons.mp hk).resolve_left (fun he => hak he.symm))]
        show _ = (if a = k then pre else chainPrev (some a) rest k)
        rw [if_neg hak]

theorem chainPrev_append_right {ks1 : List String} (ks2 : List String) {k : String}
    (pre : Option String) (hk : k ∉ ks1) :
    chainPrev pre (ks1 ++ ks2) k = chainPrev (olast pre ks1) ks2 k := by
  induction ks1 generalizing pre with
  | nil => rfl
  | cons a rest ih =>
      show (if a = k then pre else chainPrev (some a) (rest ++ ks2) k) = _
      rw [if_neg (fun he => hk (by rw [← he]; exact List.mem_cons_self a rest)),
          ih (some a) (fun hm => hk (List.mem_cons_of_mem a hm))]
      congr 1
      rw [olast, olast]
      cases hr : rest.getLast? with
      | none => simp [List.getLast?_eq_none_iff.mp hr]
      | some x =>
          have : (a :: rest).getLast? = some x := by
            rw [List.getLast?_cons]
            cases rest with
            | nil => simp at hr
            | cons b r2 => simpa [List.getLast?_cons] using hr
          simp [this]

/-! ## More battery lemmas and helpers -/

theorem nodeKeys_append (l1 l2 : List (String × JValue)) :
    nodeKeys (l1 ++ l2) = nodeKeys l1 ++ nodeKeys l2 := List.map_append _ _ _

theorem mem_nodeKeys {k : String} {l : List (String × JValue)} :
    k ∈ nodeKeys l ↔ ∃ v, (k, v) ∈ l := by
  constructor
  · intro h
    obtain ⟨⟨k2, v⟩, hm, rfl⟩ := List.mem_map.mp h
    exact ⟨v, hm⟩
  · rintro ⟨v, hm⟩
    exact List.mem_map.mpr ⟨(k, v), hm, rfl⟩

theorem ptrRec_ne_rmapM (x : Option String) : ptrRec x ≠ Rec.rmapM := by
  cases x <;> simp [ptrRec]

theorem ptrRec_ne_rlistM (x : Option String) : ptrRec x ≠ Rec.rlistM := by
  cases x <;> simp [ptrRec]

theorem asPtr_ptrRec (x : Option String) : asPtr (ptrRec x) = Except.ok x := by
  cases x <;> rfl

theorem olast_none (ks : List String) : olast none ks = ks.getLast? := by
  rw [olast]
  cases ks.getLast? <;> rfl

theorem dictRecs_get_kaddr_fresh (A : Addr) (mk : Rec) (l : List (String × JValue))
    (k f : String) (hnk : k ∉ nodeKeys l) :
    storeGet ((A, mk) :: dictRecs A l) (kaddr A k f) = none := by
  refine dictRecs_get_none A mk l _ (fun he => root_ne_kaddr A k f he.symm)
    (kaddr_ne_paddr A k f) (kaddr_ne_naddr A k f) (kaddr_ne_saddr A k f)
    (fun k2 hk2 => ⟨?_, ?_, ?_⟩)
  · intro he
    exact hnk ((kaddr_inj.mp he).1 ▸ hk2)
  · intro he
    exact hnk ((kaddr_inj.mp he).1 ▸ hk2)
  · intro hpre
    exact hnk ((under_vaddr_kaddr hpre).1.symm ▸ hk2)

theorem dictRecs_get_under_fresh (A : Addr) (mk : Rec) (l : List (String × JValue))
    (k : String) (addr : Addr) (hnk : k ∉ nodeKeys l) (hpre : vaddr A k <+: addr) :
    storeGet ((A, mk) :: dictRecs A l) addr = none := by
  have hlen : A.length + 3 ≤ addr.length := by
    have := hpre.length_le
    simpa [vaddr] using this
  refine dictRecs_get_none A mk l _
    (fun he => by subst he; omega)
    (fun he => by subst he; simp [paddr] at hlen)
    (fun he => by subst he; simp [naddr] at hlen)
    (fun he => by subst he; simp [saddr] at hlen)
    (fun k2 hk2 => ⟨?_, ?_, ?_⟩)
  · intro he
    subst he
    have := under_vaddr_kaddr hpre
    simp at this
  · intro he
    subst he
    have := under_vaddr_kaddr hpre
    simp at this
  · intro hpre2
    exact hnk (vaddr_collision hpre hpre2 ▸ hk2)

theorem chainNext_getLast {ks : List String} (hnd : ks.Nodup) {lk : String}
    (hl : ks.getLast? = some lk) : chainNext ks lk = none := by
  induction ks with
  | nil => simp at hl
  | cons a rest ih =>
      rw [List.nodup_cons] at hnd
      cases rest with
      | nil =>
          simp at hl
          subst hl
          simp [chainNext]
      | cons b r2 =>
          rw [List.getLast?_cons_cons] at hl
          have hmem : lk ∈ b :: r2 := List.mem_of_mem_getLast? hl
          show (if a = lk then (b :: r2).head? else chainNext (b :: r2) lk) = none
          rw [if_neg (fun he => hnd.1 (by rw [he]; exact hmem)), ih hnd.2 hl]

theorem chainNext_none_last {ks : List String} {k : String} (hk : k ∈ ks)
    (h : chainNext ks k = none) : ks.getLast? = some k := by
  induction ks with
  | nil => cases hk
  | cons a rest ih =>
      by_cases hak : a = k
      · subst hak
        rw [chainNext, if_pos rfl] at h
        have hre : rest = [] := by
          cases rest with
          | nil => rfl
          | cons b r2 => simp at h
        subst hre
        rfl
      · rw [chainNext, if_neg hak] at h
        have hkr := (List.mem_cons.mp hk).resolve_left (fun he => hak he.symm)
        have hgl := ih hkr h
        cases rest with
        | nil => cases hkr
        | cons b r2 =>
            rw [List.getLast?_cons_cons]
            exact hgl

/-! ## Specs of the primitive write helpers -/

/-- jdataSetRec on a slot that is absent or holds a non-marker record acts
as a plain overwrite. -/
theorem jdataSetRec_spec (fuel : Nat) (σ : Store) (a : Addr) (r : Rec)
    (hf : 2 ≤ fuel)
    (hex : storeGet σ a = none ∨
      ∃ r0, storeGet σ a = some r0 ∧ r0 ≠ Rec.rmapM ∧ r0 ≠ Rec.rlistM) :
    ∃ σ2, jdataSetRec fuel σ a r = Except.ok σ2 ∧
      ∀ b, storeGet σ2 b = if a = b then some r else storeGet σ b := by
  obtain ⟨f, rfl⟩ := Nat.exists_eq_add_of_le' hf
  rcases hex with hnone | ⟨r0, hr0, hm, hl⟩
  · refine ⟨storeSet σ a r, ?_, fun b => storeGet_set σ a b r⟩
    show jdataSetRec (f + 2) σ a r = _
    have : f + 2 = (f + 1) + 1 := rfl
    rw [this, jdataSetRec, hnone]
    rfl
  · refine ⟨storeSet (storeDel σ a) a r, ?_, ?_⟩
    · show jdataSetRec (f + 2) σ a r = _
      have h2 : f + 2 = (f + 1) + 1 := rfl
      rw [h2, jdataSetRec, hr0]
      have h1 : f + 1 = f + 1 := rfl
      show (do
        let σ1 ← jdataDel (f + 1) σ a
        Except.ok (storeSet σ1 a r) : Except Err Store) = _
      rw [jdataDel]
      cases r0 with
      | rmapM => exact absurd rfl hm
      | rlistM => exact absurd rfl hl
      | rnull => rw [hr0]; simp [rawDel, hr0]; rfl
      | rbool b => rw [hr0]; simp [rawDel, hr0]; rfl
      | rint n => rw [hr0]; simp [rawDel, hr0]; rfl
      | rstr s2 => rw [hr0]; simp [rawDel, hr0]; rfl
    · intro b
      rw [storeGet_set, storeGet_del]
      by_cases hab : a = b <;> simp [hab]

/-- jfetch against a known record. -/
theorem jfetch_eq {σ : Store} {a : Addr} {r : Rec} (h : storeGet σ a = some r) :
    jfetch σ a = Except.ok r := by
  rw [jfetch, h]

/-! ## NodeAddr membership helpers -/

theorem vaddr_def (A : Addr) (k : String) : vaddr A k = kaddr A k "v" := rfl

theorem nodeAddr_root (A : Addr) : NodeAddr A A := Or.inl rfl

theorem nodeAddr_paddr (A : Addr) : NodeAddr A (paddr A) := Or.inr (Or.inl rfl)

theorem nodeAddr_naddr (A : Addr) : NodeAddr A (naddr A) := Or.inr (Or.inr (Or.inl rfl))

theorem nodeAddr_saddr (A : Addr) : NodeAddr A (saddr A) :=
  Or.inr (Or.inr (Or.inr (Or.inl rfl)))

theorem nodeAddr_kaddr (A : Addr) (k f : String) : NodeAddr A (kaddr A k f) :=
  Or.inr (Or.inr (Or.inr (Or.inr (prefix_kaddr A k f))))

theorem head?_append_left {α : Type} {ks : List α} (k : α) (h : ks ≠ []) :
    (ks ++ [k]).head? = ks.head? := by
  cases ks with
  | nil => exact absurd rfl h
  | cons a r => rfl

theorem paddr_ne_naddr (A : Addr) : paddr A ≠ naddr A := by
  rw [paddr, naddr]; exact addr_ne A (by simp)

theorem paddr_ne_saddr (A : Addr) : paddr A ≠ saddr A := by
  rw [paddr, saddr]; exact addr_ne A (by simp)

theorem naddr_ne_saddr (A : Addr) : naddr A ≠ saddr A := by
  rw [naddr, saddr]; exact addr_ne A (by simp)

theorem naddr_ne_paddr (A : Addr) : naddr A ≠ paddr A := fun h => paddr_ne_naddr A h.symm

theorem saddr_ne_paddr (A : Addr) : saddr A ≠ paddr A := fun h => paddr_ne_saddr A h.symm

theorem saddr_ne_naddr (A : Addr) : saddr A ≠ naddr A := fun h => naddr_ne_saddr A h.symm

theorem ok_bind {α β : Type} (a : α) (f : α → Except Err β) :
    (Except.ok a >>= f : Except Err β) = f a := rfl

theorem asSize_rint (n : Int) : asSize (Rec.rint n) = Except.ok n := rfl

theorem getLast?_mem_keys {l : List (String × JValue)} {lk : String}
    (h : (nodeKeys l).getLast? = some lk) : lk ∈ nodeKeys l :=
  List.mem_of_mem_getLast? h

/-! ## The record set of a map node after appending a fresh entry -/

theorem dictRecs_get_garb (A : Addr) (mk : Rec) (l : List (String × JValue))
    (addr : Addr) (hg : GarbAddr A addr) :
    storeGet ((A, mk) :: dictRecs A l) addr = none :=
  dictRecs_get_none A mk l addr hg.1.1 hg.1.2.1 hg.1.2.2.1 hg.1.2.2.2
    (fun k2 _ => hg.2 k2)

theorem nodeKeys_concat (l : List (String × JValue)) (k : String) (w : JValue) :
    nodeKeys (l ++ [(k, w)]) = nodeKeys l ++ [k] := by
  rw [nodeKeys_append]; rfl

theorem insLayout_p (A : Addr) (mk : Rec) (l : List (String × JValue))
    (k : String) (w : JValue) :
    storeGet ((A, mk) :: dictRecs A (l ++ [(k, w)])) (paddr A) =
      some (Rec.rstr k) := by
  rw [dictRecs_get_p, nodeKeys_concat, List.getLast?_concat]
  rfl

theorem insLayout_n_nil (A : Addr) (mk : Rec) (l : List (String × JValue))
    (k : String) (w : JValue) (h : nodeKeys l = []) :
    storeGet ((A, mk) :: dictRecs A (l ++ [(k, w)])) (naddr A) =
      some (Rec.rstr k) := by
  rw [dictRecs_get_n, nodeKeys_concat, h]
  rfl

theorem insLayout_n_cons (A : Addr) (mk : Rec) (l : List (String × JValue))
    (k : String) (w : JValue) (h : nodeKeys l ≠ []) :
    storeGet ((A, mk) :: dictRecs A (l ++ [(k, w)])) (naddr A) =
      some (ptrRec (nodeKeys l).head?) := by
  rw [dictRecs_get_n, nodeKeys_concat, head?_append_left k h]

theorem insLayout_s (A : Addr) (mk : Rec) (l : List (String × JValue))
    (k : String) (w : JValue) :
    storeGet ((A, mk) :: dictRecs A (l ++ [(k, w)])) (saddr A) =
      some (Rec.rint (((nodeKeys l).length : Int) + 1)) := by
  rw [dictRecs_get_s, nodeKeys_concat]
  simp

theorem insLayout_kp_self (A : Addr) (mk : Rec) (l : List (String × JValue))
    (k : String) (w : JValue) (hnk : k ∉ nodeKeys l) :
    storeGet ((A, mk) :: dictRecs A (l ++ [(k, w)])) (kaddr A k "p") =
      some (ptrRec (nodeKeys l).getLast?) := by
  rw [dictRecs_get_kp A mk _ k (by rw [nodeKeys_concat]; simp), nodeKeys_concat,
      chainPrev_append_right [k] none hnk, olast_none]
  simp [chainPrev]

theorem insLayout_kn_self (A : Addr) (mk : Rec) (l : List (String × JValue))
    (k : String) (w : JValue) (hnk : k ∉ nodeKeys l) :
    storeGet ((A, mk) :: dictRecs A (l ++ [(k, w)])) (kaddr A k "n") =
      some Rec.rnull := by
  rw [dictRecs_get_kn A mk _ k (by rw [nodeKeys_concat]; simp), nodeKeys_concat,
      chainNext_append_right [k] hnk]
  simp [chainNext, ptrRec]

theorem insLayout_kn_last (A : Addr) (mk : Rec) (l : List (String × JValue))
    (k lk : String) (w : JValue) (hnd : (nodeKeys l).Nodup)
    (hlast : (nodeKeys l).getLast? = some lk) :
    storeGet ((A, mk) :: dictRecs A (l ++ [(k, w)])) (kaddr A lk "n") =
      some (Rec.rstr k) := by
  have hmem : lk ∈ nodeKeys l := getLast?_mem_keys hlast
  rw [dictRecs_get_kn A mk _ lk (by rw [nodeKeys_concat]; exact List.mem_append_left _ hmem),
      nodeKeys_concat, chainNext_append [k] hmem, chainNext_getLast hnd hlast]
  rfl

theorem insLayout_kp_old (A : Addr) (mk : Rec) (l : List (String × JValue))
    (k k2 : String) (w : JValue) (hk2 : k2 ∈ nodeKeys l) :
    storeGet ((A, mk) :: dictRecs A (l ++ [(k, w)])) (kaddr A k2 "p") =
      storeGet ((A, mk) :: dictRecs A l) (kaddr A k2 "p") := by
  rw [dictRecs_get_kp A mk _ k2 (by rw [nodeKeys_concat]; exact List.mem_append_left _ hk2),
      nodeKeys_concat, chainPrev_append [k] none hk2, dictRecs_get_kp A mk l k2 hk2]

theorem insLayout_kn_old (A : Addr) (mk : Rec) (l : List (String × JValue))
    (k k2 : String) (w : JValue) (hk2 : k2 ∈ nodeKeys l)
    (hnl : (nodeKeys l).getLast? ≠ some k2) :
    storeGet ((A, mk) :: dictRecs A (l ++ [(k, w)])) (kaddr A k2 "n") =
      storeGet ((A, mk) :: dictRecs A l) (kaddr A k2 "n") := by
  rw [dictRecs_get_kn A mk _ k2 (by rw [nodeKeys_concat]; exact List.mem_append_left _ hk2),
      nodeKeys_concat, chainNext_append [k] hk2, dictRecs_get_kn A mk l k2 hk2]
  cases hc : chainNext (nodeKeys l) k2 with
  | some x => rfl
  | none => exact absurd (chainNext_none_last hk2 hc) hnl

theorem insLayout_child_old (A : Addr) (mk : Rec) (l : List (String × JValue))
    (k k2 : String) (w : JValue) (addr : Addr) (hnd : (nodeKeys l).Nodup)
    (hnk : k ∉ nodeKeys l) (hne : k2 ≠ k) (hpre : vaddr A k2 <+: addr) :
    storeGet ((A, mk) :: dictRecs A (l ++ [(k, w)])) addr =
      storeGet ((A, mk) :: dictRecs A l) addr := by
  have hnd2 : (nodeKeys (l ++ [(k, w)])).Nodup := by
    rw [nodeKeys_concat]
    simp [List.nodup_append, hnd, hnk]
  by_cases hmem : k2 ∈ nodeKeys l
  · obtain ⟨v2, hv2⟩ := mem_nodeKeys.mp hmem
    rw [dictRecs_get_child A mk _ k2 v2 addr hnd2 (List.mem_append_left _ hv2) hpre,
        dictRecs_get_child A mk l k2 v2 addr hnd hv2 hpre]
  · rw [dictRecs_get_under_fresh A mk _ k2 addr
        (by rw [nodeKeys_concat]; simp [hmem, hne]) hpre,
        dictRecs_get_under_fresh A mk l k2 addr hmem hpre]

/-! ## Cell-address helpers -/

theorem nextCellAddr_ne_paddr (A : Addr) (x : Option String) :
    nextCellAddr A x ≠ paddr A := by
  cases x with
  | some lk => exact kaddr_ne_paddr A lk "n"
  | none => exact naddr_ne_paddr A

theorem nextCellAddr_ne_saddr (A : Addr) (x : Option String) :
    nextCellAddr A x ≠ saddr A := by
  cases x with
  | some lk => exact kaddr_ne_saddr A lk "n"
  | none => exact naddr_ne_saddr A

theorem nextCellAddr_ne_root (A : Addr) (x : Option String) :
    nextCellAddr A x ≠ A := by
  cases x with
  | some lk => exact fun he => root_ne_kaddr A lk "n" he.symm
  | none => exact fun he => root_ne_naddr A he.symm

theorem nextCellAddr_nodeAddr (A : Addr) (x : Option String) :
    NodeAddr A (nextCellAddr A x) := by
  cases x with
  | some lk => exact nodeAddr_kaddr A lk "n"
  | none => exact nodeAddr_naddr A

theorem nextCellAddr_eq_kaddr {A : Addr} {x : Option String} {k f : String}
    (h : nextCellAddr A x = kaddr A k f) : x = some k ∧ f = "n" := by
  cases x with
  | some lk =>
      have := kaddr_inj.mp h
      exact ⟨by rw [this.1], this.2.symm⟩
  | none => exact absurd h.symm (kaddr_ne_naddr A k f)

theorem nextCellAddr_eq_naddr {A : Addr} {x : Option String}
    (h : nextCellAddr A x = naddr A) : x = none := by
  cases x with
  | some lk => exact absurd h (kaddr_ne_naddr A lk "n")
  | none => rfl

theorem nextCellAddr_not_under {A : Addr} {x : Option String} {k2 : String}
    (h : vaddr A k2 <+: nextCellAddr A x) : False := by
  cases x with
  | some lk =>
      have := under_vaddr_kaddr h
      simp at this
  | none =>
      have := h.length_le
      simp [nextCellAddr, vaddr, naddr] at this

theorem prevCellAddr_ne_paddr (A : Addr) {x : Option String} (h : x ≠ none) :
    prevCellAddr A x ≠ paddr A := by
  cases x with
  | some lk => exact kaddr_ne_paddr A lk "p"
  | none => exact absurd rfl h

theorem prevCellAddr_ne_naddr (A : Addr) (x : Option String) :
    prevCellAddr A x ≠ naddr A := by
  cases x with
  | some lk => exact kaddr_ne_naddr A lk "p"
  | none => exact paddr_ne_naddr A

theorem prevCellAddr_ne_saddr (A : Addr) (x : Option String) :
    prevCellAddr A x ≠ saddr A := by
  cases x with
  | some lk => exact kaddr_ne_saddr A lk "p"
  | none => exact paddr_ne_saddr A

theorem prevCellAddr_ne_root (A : Addr) (x : Option String) :
    prevCellAddr A x ≠ A := by
  cases x with
  | some lk => exact fun he => root_ne_kaddr A lk "p" he.symm
  | none => exact fun he => root_ne_paddr A he.symm

theorem prevCellAddr_nodeAddr (A : Addr) (x : Option String) :
    NodeAddr A (prevCellAddr A x) := by
  cases x with
  | some lk => exact nodeAddr_kaddr A lk "p"
  | none => exact nodeAddr_paddr A

theorem prevCellAddr_eq_kaddr {A : Addr} {x : Option String} {k f : String}
    (h : prevCellAddr A x = kaddr A k f) : x = some k ∧ f = "p" := by
  cases x with
  | some lk =>
      have := kaddr_inj.mp h
      exact ⟨by rw [this.1], this.2.symm⟩
  | none => exact absurd h.symm (kaddr_ne_paddr A k f)

theorem prevCellAddr_not_under {A : Addr} {x : Option String} {k2 : String}
    (h : vaddr A k2 <+: prevCellAddr A x) : False := by
  cases x with
  | some lk =>
      have := under_vaddr_kaddr h
      simp at this
  | none =>
      have := h.length_le
      simp [prevCellAddr, vaddr, paddr] at this

/-- The linking block of JDict.__setitem__ for a fresh key: afterwards the
node's records outside the (still empty) child subtree of k are exactly
those of the entry list with (k, w) appended — for any value w; records
outside the node's space are untouched. -/
theorem dictLink_spec (fuel : Nat) (σ : Store) (A : Addr) (mk : Rec)
    (l : List (String × JValue)) (k : String) (hf : 3 ≤ fuel)
    (hnd : (nodeKeys l).Nodup) (hnk : k ∉ nodeKeys l)
    (hrepr : DictRepr σ A mk l) :
    ∃ σ2, dictLink fuel σ A k = Except.ok σ2 ∧
      (∀ (w : JValue) (addr : Addr), NodeAddr A addr → ¬ vaddr A k <+: addr →
        storeGet σ2 addr = storeGet ((A, mk) :: dictRecs A (l ++ [(k, w)])) addr) ∧
      (∀ addr, vaddr A k <+: addr → storeGet σ2 addr = none) ∧
      (∀ addr, ¬ NodeAddr A addr → storeGet σ2 addr = storeGet σ addr) := by
  have hf2 : 2 ≤ fuel := by omega
  have hread : jfetch σ (paddr A) = Except.ok (ptrRec (nodeKeys l).getLast?) :=
    jfetch_eq (by rw [hrepr (paddr A) (nodeAddr_paddr A), dictRecs_get_p])
  obtain ⟨σ1, hw1, hp1⟩ := jdataSetRec_spec fuel σ (kaddr A k "p")
    (ptrRec (nodeKeys l).getLast?) hf2
    (Or.inl (by rw [hrepr _ (nodeAddr_kaddr A k "p"),
      dictRecs_get_kaddr_fresh A mk l k "p" hnk]))
  obtain ⟨σ2, hw2, hp2⟩ := jdataSetRec_spec fuel σ1 (kaddr A k "n") Rec.rnull hf2
    (Or.inl (by
      rw [hp1 _, if_neg (fun he => by simpa using (kaddr_inj.mp he).2),
        hrepr _ (nodeAddr_kaddr A k "n"), dictRecs_get_kaddr_fresh A mk l k "n" hnk]))
  have hex3 : ∃ r0, storeGet σ2 (nextCellAddr A (nodeKeys l).getLast?) = some r0 ∧
      r0 ≠ Rec.rmapM ∧ r0 ≠ Rec.rlistM := by
    cases hlast : (nodeKeys l).getLast? with
    | some lk =>
        have hlkmem : lk ∈ nodeKeys l := getLast?_mem_keys hlast
        have hlk_ne : lk ≠ k := fun he => hnk (he ▸ hlkmem)
        refine ⟨ptrRec (chainNext (nodeKeys l) lk), ?_, ptrRec_ne_rmapM _,
          ptrRec_ne_rlistM _⟩
        show storeGet σ2 (kaddr A lk "n") = _
        rw [hp2 _, if_neg (fun he => hlk_ne (kaddr_inj.mp he).1.symm),
            hp1 _, if_neg (fun he => hlk_ne (kaddr_inj.mp he).1.symm),
            hrepr _ (nodeAddr_kaddr A lk "n"), dictRecs_get_kn A mk l lk hlkmem]
    | none =>
        refine ⟨ptrRec (nodeKeys l).head?, ?_, ptrRec_ne_rmapM _, ptrRec_ne_rlistM _⟩
        show storeGet σ2 (naddr A) = _
        rw [hp2 _, if_neg (fun he => kaddr_ne_naddr A k "n" he),
            hp1 _, if_neg (fun he => kaddr_ne_naddr A k "p" he),
            hrepr _ (nodeAddr_naddr A), dictRecs_get_n]
  obtain ⟨σ3, hw3, hp3⟩ := jdataSetRec_spec fuel σ2
    (nextCellAddr A (nodeKeys l).getLast?) (Rec.rstr k) hf2 (Or.inr hex3)
  obtain ⟨σ4, hw4, hp4⟩ := jdataSetRec_spec fuel σ3 (paddr A) (Rec.rstr k) hf2
    (Or.inr ⟨_, by
      rw [hp3 _, if_neg (nextCellAddr_ne_paddr A _),
          hp2 _, if_neg (fun he => kaddr_ne_paddr A k "n" he),
          hp1 _, if_neg (fun he => kaddr_ne_paddr A k "p" he),
          hrepr _ (nodeAddr_paddr A), dictRecs_get_p],
      ptrRec_ne_rmapM _, ptrRec_ne_rlistM _⟩)
  have hsz : storeGet σ4 (saddr A) = some (Rec.rint ((nodeKeys l).length : Int)) := by
    rw [hp4 _, if_neg (paddr_ne_saddr A),
        hp3 _, if_neg (nextCellAddr_ne_saddr A _),
        hp2 _, if_neg (fun he => kaddr_ne_saddr A k "n" he),
        hp1 _, if_neg (fun he => kaddr_ne_saddr A k "p" he),
        hrepr _ (nodeAddr_saddr A), dictRecs_get_s]
  obtain ⟨σ5, hw5, hp5⟩ := jdataSetRec_spec fuel σ4 (saddr A)
    (Rec.rint (((nodeKeys l).length : Int) + 1)) hf2
    (Or.inr ⟨_, hsz, by simp, by simp⟩)
  have hdesc : ∀ b, storeGet σ5 b =
      if saddr A = b then some (Rec.rint (((nodeKeys l).length : Int) + 1))
      else if paddr A = b then some (Rec.rstr k)
      else if nextCellAddr A (nodeKeys l).getLast? = b then some (Rec.rstr k)
      else if kaddr A k "n" = b then some Rec.rnull
      else if kaddr A k "p" = b then some (ptrRec (nodeKeys l).getLast?)
      else storeGet σ b := by
    intro b
    rw [hp5 b, hp4 b, hp3 b, hp2 b, hp1 b]
  refine ⟨σ5, ?_, ?_, ?_, ?_⟩
  · rw [dictLink, hread, ok_bind, asPtr_ptrRec, ok_bind, hw1, ok_bind, hw2, ok_bind,
        hw3, ok_bind, hw4, ok_bind, jfetch_eq hsz, ok_bind, asSize_rint, ok_bind, hw5]
  · intro w addr hna hnotk
    rw [hdesc addr]
    rcases nodeAddr_classify A addr hna with heq | heq | heq | heq | ⟨k2, heq⟩ |
      ⟨k2, heq⟩ | ⟨k2, hk2⟩ | hg
    · subst addr
      rw [if_neg (fun he => root_ne_saddr A he.symm),
          if_neg (fun he => root_ne_paddr A he.symm),
          if_neg (nextCellAddr_ne_root A _),
          if_neg (fun he => root_ne_kaddr A k "n" he.symm),
          if_neg (fun he => root_ne_kaddr A k "p" he.symm),
          hrepr _ (nodeAddr_root A), dictRecs_get_root, dictRecs_get_root]
    · subst addr
      rw [if_neg (saddr_ne_paddr A), if_pos rfl, insLayout_p]
    · subst addr
      rw [if_neg (saddr_ne_naddr A), if_neg (paddr_ne_naddr A)]
      by_cases hcell : nextCellAddr A (nodeKeys l).getLast? = naddr A
      · have hlast := nextCellAddr_eq_naddr hcell
        rw [if_pos hcell, insLayout_n_nil A mk l k w (List.getLast?_eq_none_iff.mp hlast)]
      · have hlast : nodeKeys l ≠ [] := by
          intro he
          exact hcell (by rw [he]; rfl)
        rw [if_neg hcell,
            if_neg (kaddr_ne_naddr A k "n"), if_neg (kaddr_ne_naddr A k "p"),
            hrepr _ (nodeAddr_naddr A), dictRecs_get_n, insLayout_n_cons A mk l k w hlast]
    · subst addr
      rw [if_pos rfl, insLayout_s]
    · subst addr
      rw [if_neg (fun he => kaddr_ne_saddr A k2 "p" he.symm),
          if_neg (fun he => kaddr_ne_paddr A k2 "p" he.symm),
          if_neg (fun he => by simpa using (nextCellAddr_eq_kaddr he).2),
          if_neg (fun he => by simpa using (kaddr_inj.mp he).2)]
      by_cases hk2k : k2 = k
      · subst hk2k
        rw [if_pos rfl, insLayout_kp_self A mk l k2 w hnk]
      · rw [if_neg (fun he => hk2k (kaddr_inj.mp he).1.symm)]
        by_cases hmem : k2 ∈ nodeKeys l
        · rw [hrepr _ (nodeAddr_kaddr A k2 "p"), insLayout_kp_old A mk l k k2 w hmem]
        · rw [hrepr _ (nodeAddr_kaddr A k2 "p"),
              dictRecs_get_kaddr_fresh A mk l k2 "p" hmem,
              dictRecs_get_kaddr_fresh A mk _ k2 "p"
                (by rw [nodeKeys_concat]; simp [hmem, hk2k])]
    · subst addr
      rw [if_neg (fun he => kaddr_ne_saddr A k2 "n" he.symm),
          if_neg (fun he => kaddr_ne_paddr A k2 "n" he.symm)]
      by_cases hcell : nextCellAddr A (nodeKeys l).getLast? = kaddr A k2 "n"
      · have hlast : (nodeKeys l).getLast? = some k2 := (nextCellAddr_eq_kaddr hcell).1
        rw [if_pos hcell, insLayout_kn_last A mk l k k2 w hnd hlast]
      · rw [if_neg hcell]
        by_cases hk2k : k2 = k
        · subst hk2k
          rw [if_pos rfl, insLayout_kn_self A mk l k2 w hnk]
        · rw [if_neg (fun he => hk2k (kaddr_inj.mp he).1.symm),
              if_neg (fun he => by simpa using (kaddr_inj.mp he).2)]
          by_cases hmem : k2 ∈ nodeKeys l
          · have hnl : (nodeKeys l).getLast? ≠ some k2 := by
              intro he
              exact hcell (by rw [he]; rfl)
            rw [hrepr _ (nodeAddr_kaddr A k2 "n"),
                insLayout_kn_old A mk l k k2 w hmem hnl]
          · rw [hrepr _ (nodeAddr_kaddr A k2 "n"),
                dictRecs_get_kaddr_fresh A mk l k2 "n" hmem,
                dictRecs_get_kaddr_fresh A mk _ k2 "n"
                  (by rw [nodeKeys_concat]; simp [hmem, hk2k])]
    · have hne : k2 ≠ k := fun he => hnotk (he ▸ hk2)
      have hlen : A.length + 3 ≤ addr.length := by
        have := hk2.length_le
        simpa [vaddr] using this
      rw [if_neg (fun he => by rw [← he] at hlen; simp [saddr] at hlen),
          if_neg (fun he => by rw [← he] at hlen; simp [paddr] at hlen),
          if_neg (fun he => nextCellAddr_not_under (by rw [he]; exact hk2)),
          if_neg (fun he => by
            rw [← he] at hk2
            have := under_vaddr_kaddr hk2
            simp at this),
          if_neg (fun he => by
            rw [← he] at hk2
            have := under_vaddr_kaddr hk2
            simp at this),
          hrepr _ (under_vaddr_nodeAddr hk2),
          insLayout_child_old A mk l k k2 w addr hnd hnk hne hk2]
    · rw [if_neg (fun he => hg.1.2.2.2 he.symm),
          if_neg (fun he => hg.1.2.1 he.symm),
          if_neg (fun he => by
            revert he
            cases hx : (nodeKeys l).getLast? with
            | some lk =>
                intro he
                exact (hg.2 lk).2.1 he.symm
            | none =>
                intro he
                exact hg.1.2.2.1 he.symm),
          if_neg (fun he => (hg.2 k).2.1 he.symm),
          if_neg (fun he => (hg.2 k).1 he.symm),
          hrepr _ hna, dictRecs_get_garb A mk l addr hg,
          dictRecs_get_garb A mk _ addr hg]
  · intro addr hpre
    have hlen : A.length + 3 ≤ addr.length := by
      have := hpre.length_le
      simpa [vaddr] using this
    rw [hdesc addr,
        if_neg (fun he => by rw [← he] at hlen; simp [saddr] at hlen),
        if_neg (fun he => by rw [← he] at hlen; simp [paddr] at hlen),
        if_neg (fun he => nextCellAddr_not_under (by rw [he]; exact hpre)),
        if_neg (fun he => by
          rw [← he] at hpre
          have := under_vaddr_kaddr hpre
          simp at this),
        if_neg (fun he => by
          rw [← he] at hpre
          have := under_vaddr_kaddr hpre
          simp at this),
        hrepr _ (under_vaddr_nodeAddr hpre),
        dictRecs_get_under_fresh A mk l k addr hnk hpre]
  · intro addr hna
    rw [hdesc addr,
        if_neg (fun he => hna (by rw [← he]; exact nodeAddr_saddr A)),
        if_neg (fun he => hna (by rw [← he]; exact nodeAddr_paddr A)),
        if_neg (fun he => hna (by rw [← he]; exact nextCellAddr_nodeAddr A _)),
        if_neg (fun he => hna (by rw [← he]; exact nodeAddr_kaddr A k "n")),
        if_neg (fun he => hna (by rw [← he]; exact nodeAddr_kaddr A k "p"))]

/-! ## Layout as a map-node record set -/

theorem nodeAddr_under {B addr : Addr} (h : NodeAddr B addr) : B <+: addr := by
  rcases h with heq | heq | heq | heq | h5
  · subst addr; exact List.prefix_refl B
  · subst addr; exact List.prefix_append B _
  · subst addr; exact List.prefix_append B _
  · subst addr; exact List.prefix_append B _
  · exact (List.prefix_append B ["k"]).trans h5

theorem childRecsIdx_eq (A : Addr) (i : Nat) (xs : List JValue) :
    childRecsIdx A i xs = childRecs A (arrEntries i xs) := by
  induction xs generalizing i with
  | nil => rw [childRecsIdx, arrEntries, childRecs]
  | cons x rest ih =>
      rw [childRecsIdx, arrEntries, childRecs, ih (i+1)]

theorem layout_obj (A : Addr) (l : List (String × JValue)) :
    layout A (JValue.obj l) = (A, Rec.rmapM) :: dictRecs A l := by
  rw [layout, dictRecs]

theorem layout_arr (A : Addr) (xs : List JValue) :
    layout A (JValue.arr xs) = (A, Rec.rlistM) :: dictRecs A (arrEntries 0 xs) := by
  rw [layout, dictRecs, childRecsIdx_eq]

theorem reprAt_obj {σ : Store} {A : Addr} {l : List (String × JValue)} :
    ReprAt σ A (JValue.obj l) ↔ DictRepr σ A Rec.rmapM l := by
  rw [ReprAt, DictRepr]
  constructor <;> intro h addr hna <;> have h2 := h addr hna
  · rwa [layout_obj] at h2
  · rwa [layout_obj]

theorem reprAt_arr {σ : Store} {A : Addr} {xs : List JValue} :
    ReprAt σ A (JValue.arr xs) ↔ DictRepr σ A Rec.rlistM (arrEntries 0 xs) := by
  rw [ReprAt, DictRepr]
  constructor <;> intro h addr hna <;> have h2 := h addr hna
  · rwa [layout_arr] at h2
  · rwa [layout_arr]

theorem layout_get_none_garb (B : Addr) (v : JValue) (addr : Addr)
    (h : ¬ NodeAddr B addr) : storeGet (layout B v) addr = none := by
  have hroot : B ≠ addr := fun he => h (he ▸ nodeAddr_root B)
  have hgen : ∀ (mk : Rec) (l : List (String × JValue)),
      storeGet ((B, mk) :: dictRecs B l) addr = none := by
    intro mk l
    refine dictRecs_get_none B mk l addr (fun he => hroot he.symm)
      (fun he => h (he ▸ nodeAddr_paddr B))
      (fun he => h (he ▸ nodeAddr_naddr B))
      (fun he => h (he ▸ nodeAddr_saddr B))
      (fun k2 _ => ⟨fun he => h (he ▸ nodeAddr_kaddr B k2 "p"),
        fun he => h (he ▸ nodeAddr_kaddr B k2 "n"),
        fun hpre => h (under_vaddr_nodeAddr hpre)⟩)
  match v with
  | JValue.null => simp [layout, storeGet, hroot]
  | JValue.bool b => simp [layout, storeGet, hroot]
  | JValue.num n => simp [layout, storeGet, hroot]
  | JValue.str s => simp [layout, storeGet, hroot]
  | JValue.obj l => rw [layout_obj]; exact hgen _ _
  | JValue.arr xs => rw [layout_arr]; exact hgen _ _

/-- The marker write followed by JDict._init's three metadata writes turn an
empty node space into an empty map node. -/
theorem initMeta_spec (fuel : Nat) (σ : Store) (A : Addr) (mk : Rec)
    (hf : 2 ≤ fuel)
    (hempty : ∀ addr, NodeAddr A addr → storeGet σ addr = none) :
    ∃ σ2, dictInitMeta fuel (storeSet σ A mk) A = Except.ok σ2 ∧
      DictRepr σ2 A mk [] ∧
      (∀ addr, ¬ NodeAddr A addr → storeGet σ2 addr = storeGet σ addr) := by
  have hm : ∀ b, storeGet (storeSet σ A mk) b =
      if A = b then some mk else storeGet σ b := fun b => storeGet_set σ A b mk
  obtain ⟨σ1, hw1, hp1⟩ := jdataSetRec_spec fuel (storeSet σ A mk) (paddr A)
    Rec.rnull hf
    (Or.inl (by rw [hm _, if_neg (root_ne_paddr A), hempty _ (nodeAddr_paddr A)]))
  obtain ⟨σ2, hw2, hp2⟩ := jdataSetRec_spec fuel σ1 (naddr A) Rec.rnull hf
    (Or.inl (by rw [hp1 _, if_neg (paddr_ne_naddr A), hm _,
      if_neg (root_ne_naddr A), hempty _ (nodeAddr_naddr A)]))
  obtain ⟨σ3, hw3, hp3⟩ := jdataSetRec_spec fuel σ2 (saddr A) (Rec.rint 0) hf
    (Or.inl (by rw [hp2 _, if_neg (naddr_ne_saddr A), hp1 _,
      if_neg (paddr_ne_saddr A), hm _, if_neg (root_ne_saddr A),
      hempty _ (nodeAddr_saddr A)]))
  refine ⟨σ3, ?_, ?_, ?_⟩
  · rw [dictInitMeta, hw1, ok_bind, hw2, ok_bind, hw3]
  · intro addr hna
    rw [hp3 _, hp2 _, hp1 _, hm _]
    rcases nodeAddr_classify A addr hna with heq | heq | heq | heq | ⟨k2, heq⟩ |
      ⟨k2, heq⟩ | ⟨k2, hk2⟩ | hg
    · subst addr
      rw [if_neg (fun he => root_ne_saddr A he.symm),
          if_neg (fun he => root_ne_naddr A he.symm),
          if_neg (fun he => root_ne_paddr A he.symm), if_pos rfl, dictRecs_get_root]
    · subst addr
      rw [if_neg (saddr_ne_paddr A), if_neg (naddr_ne_paddr A), if_pos rfl,
          dictRecs_get_p]
      rfl
    · subst addr
      rw [if_neg (saddr_ne_naddr A), if_pos rfl, dictRecs_get_n]
      rfl
    · subst addr
      rw [if_pos rfl, dictRecs_get_s]
      rfl
    · subst addr
      rw [if_neg (fun he => kaddr_ne_saddr A k2 "p" he.symm),
          if_neg (fun he => kaddr_ne_naddr A k2 "p" he.symm),
          if_neg (fun he => kaddr_ne_paddr A k2 "p" he.symm),
          if_neg (root_ne_kaddr A k2 "p"),
          hempty _ (nodeAddr_kaddr A k2 "p"),
          dictRecs_get_kaddr_fresh A mk [] k2 "p" (by simp [nodeKeys])]
    · subst addr
      rw [if_neg (fun he => kaddr_ne_saddr A k2 "n" he.symm),
          if_neg (fun he => kaddr_ne_naddr A k2 "n" he.symm),
          if_neg (fun he => kaddr_ne_paddr A k2 "n" he.symm),
          if_neg (root_ne_kaddr A k2 "n"),
          hempty _ (nodeAddr_kaddr A k2 "n"),
          dictRecs_get_kaddr_fresh A mk [] k2 "n" (by simp [nodeKeys])]
    · have hlen : A.length + 3 ≤ addr.length := by
        have := hk2.length_le
        simpa [vaddr] using this
      rw [if_neg (fun he => by rw [← he] at hlen; simp [saddr] at hlen),
          if_neg (fun he => by rw [← he] at hlen; simp [naddr] at hlen),
          if_neg (fun he => by rw [← he] at hlen; simp [paddr] at hlen),
          if_neg (fun he => by rw [← he] at hlen; omega),
          hempty _ hna,
          dictRecs_get_under_fresh A mk [] k2 addr (by simp [nodeKeys]) hk2]
    · rw [if_neg (fun he => hg.1.2.2.2 he.symm),
          if_neg (fun he => hg.1.2.2.1 he.symm),
          if_neg (fun he => hg.1.2.1 he.symm),
          if_neg (fun he => hg.1.1 he.symm),
          hempty _ hna, dictRecs_get_garb A mk [] addr hg]
  · intro addr hna
    rw [hp3 _, if_neg (fun he => hna (by rw [← he]; exact nodeAddr_saddr A)),
        hp2 _, if_neg (fun he => hna (by rw [← he]; exact nodeAddr_naddr A)),
        hp1 _, if_neg (fun he => hna (by rw [← he]; exact nodeAddr_paddr A)),
        hm _, if_neg (fun he => hna (by rw [← he]; exact nodeAddr_root A))]

/-! ## Assignment into a fresh subtree builds exactly the layout -/

mutual

theorem jdataSetV_fresh (fuel : Nat) (σ : Store) (A : Addr) (v : JValue)
    (hf : 3 ≤ fuel) (hwf : wfB v = true)
    (hempty : ∀ addr, NodeAddr A addr → storeGet σ addr = none) :
    ∃ σ2, jdataSetV fuel σ A v = Except.ok σ2 ∧ ReprAt σ2 A v ∧
      (∀ addr, ¬ NodeAddr A addr → storeGet σ2 addr = storeGet σ addr) := by
  have hf2 : 2 ≤ fuel := by omega
  have hpre : preDel fuel σ A = Except.ok σ := by
    rw [preDel, hempty A (nodeAddr_root A)]
    rfl
  match v with
  | JValue.null =>
      refine ⟨storeSet σ A Rec.rnull, ?_, ?_, ?_⟩
      · simp only [jdataSetV]
        rw [hpre, ok_bind]
        rfl
      · intro addr hna
        rw [storeGet_set]
        by_cases hA : A = addr
        · subst hA
          simp [layout, storeGet, recOfScalar]
        · rw [if_neg hA, hempty addr hna]
          simp [layout, storeGet, recOfScalar, hA]
      · intro addr hna
        rw [storeGet_set, if_neg (fun he => hna (by rw [← he]; exact nodeAddr_root A))]
  | JValue.bool b =>
      refine ⟨storeSet σ A (Rec.rbool b), ?_, ?_, ?_⟩
      · simp only [jdataSetV]
        rw [hpre, ok_bind]
        rfl
      · intro addr hna
        rw [storeGet_set]
        by_cases hA : A = addr
        · subst hA
          simp [layout, storeGet, recOfScalar]
        · rw [if_neg hA, hempty addr hna]
          simp [layout, storeGet, recOfScalar, hA]
      · intro addr hna
        rw [storeGet_set, if_neg (fun he => hna (by rw [← he]; exact nodeAddr_root A))]
  | JValue.num n =>
      refine ⟨storeSet σ A (Rec.rint n), ?_, ?_, ?_⟩
      · simp only [jdataSetV]
        rw [hpre, ok_bind]
        rfl
      · intro addr hna
        rw [storeGet_set]
        by_cases hA : A = addr
        · subst hA
          simp [layout, storeGet, recOfScalar]
        · rw [if_neg hA, hempty addr hna]
          simp [layout, storeGet, recOfScalar, hA]
      · intro addr hna
        rw [storeGet_set, if_neg (fun he => hna (by rw [← he]; exact nodeAddr_root A))]
  | JValue.str s =>
      refine ⟨storeSet σ A (Rec.rstr s), ?_, ?_, ?_⟩
      · simp only [jdataSetV]
        rw [hpre, ok_bind]
        rfl
      · intro addr hna
        rw [storeGet_set]
        by_cases hA : A = addr
        · subst hA
          simp [layout, storeGet, recOfScalar]
        · rw [if_neg hA, hempty addr hna]
          simp [layout, storeGet, recOfScalar, hA]
      · intro addr hna
        rw [storeGet_set, if_neg (fun he => hna (by rw [← he]; exact nodeAddr_root A))]
  | JValue.obj l =>
      have hparts : (nodeKeys l).Nodup ∧ wfEntries l = true := by
        have h2 := hwf
        simp only [wfB, Bool.and_eq_true, decide_eq_true_eq] at h2
        exact h2
      obtain ⟨σm, hwm, hrm, hfm⟩ := initMeta_spec fuel σ A Rec.rmapM hf2 hempty
      obtain ⟨σ3, hw3, hr3, hf3⟩ := dictPutList_fresh fuel l σm A Rec.rmapM []
        hf hparts.2 (by simpa using hparts.1) hrm
      refine ⟨σ3, ?_, ?_, ?_⟩
      · simp only [jdataSetV]
        rw [hpre, ok_bind, hwm, ok_bind, hw3]
      · rw [reprAt_obj]
        have he : ([] : List (String × JValue)) ++ l = l := by simp
        rwa [he] at hr3
      · intro addr hna
        rw [hf3 addr hna, hfm addr hna]
  | JValue.arr xs =>
      have hwfi : wfItems xs = true := by
        have h2 := hwf
        simp only [wfB] at h2
        exact h2
      obtain ⟨σm, hwm, hrm, hfm⟩ := initMeta_spec fuel σ A Rec.rlistM hf2 hempty
      obtain ⟨σ3, hw3, hr3, hf3⟩ := listAppendItems_fresh fuel xs σm A Rec.rlistM []
        hf hwfi hrm
      refine ⟨σ3, ?_, ?_, ?_⟩
      · simp only [jdataSetV]
        rw [hpre, ok_bind, hwm, ok_bind, hw3]
      · rw [reprAt_arr]
        have he : ([] : List JValue) ++ xs = xs := by simp
        rwa [he] at hr3
      · intro addr hna
        rw [hf3 addr hna, hfm addr hna]
termination_by (sizeOf v, 1)

theorem dictPutCore_fresh (fuel : Nat) (v : JValue) (σ : Store) (A : Addr)
    (mk : Rec) (l1 : List (String × JValue)) (k : String)
    (hf : 3 ≤ fuel) (hwf : wfB v = true) (hnd1 : (nodeKeys l1).Nodup)
    (hnk : k ∉ nodeKeys l1) (hrepr : DictRepr σ A mk l1) :
    ∃ σ2, dictPutCore fuel σ A k v = Except.ok σ2 ∧
      DictRepr σ2 A mk (l1 ++ [(k, v)]) ∧
      (∀ addr, ¬ NodeAddr A addr → storeGet σ2 addr = storeGet σ addr) := by
  have hvget : storeGet σ (vaddr A k) = none := by
    rw [vaddr_def, hrepr _ (nodeAddr_kaddr A k "v"),
      dictRecs_get_kaddr_fresh A mk l1 k "v" hnk]
  obtain ⟨σL, hwL, hspec⟩ := dictLink_spec fuel σ A mk l1 k hf hnd1 hnk hrepr
  obtain ⟨haL, hbL, hcL⟩ := hspec
  have hemptyC : ∀ addr, NodeAddr (vaddr A k) addr → storeGet σL addr = none :=
    fun addr hna => hbL addr (nodeAddr_under hna)
  obtain ⟨σC, hwC, hrC, hfC⟩ := jdataSetV_fresh fuel σL (vaddr A k) v hf hwf hemptyC
  have hnd2 : (nodeKeys (l1 ++ [(k, v)])).Nodup := by
    rw [nodeKeys_concat]
    simp [List.nodup_append, hnd1, hnk]
  have hmem2 : (k, v) ∈ l1 ++ [(k, v)] := List.mem_append_right _ (by simp)
  refine ⟨σC, ?_, ?_, ?_⟩
  · rw [dictPutCore, hvget]
    show (do
      let σ1 ← if false = true then Except.ok σ else dictLink fuel σ A k
      jdataSetV fuel σ1 (vaddr A k) v : Except Err Store) = _
    rw [if_neg (by simp), hwL, ok_bind]
    exact hwC
  · intro addr hna
    by_cases hunder : vaddr A k <+: addr
    · by_cases hnaC : NodeAddr (vaddr A k) addr
      · rw [hrC addr hnaC, dictRecs_get_child A mk _ k v addr hnd2 hmem2 hunder]
      · rw [hfC addr hnaC, hbL addr hunder,
            dictRecs_get_child A mk _ k v addr hnd2 hmem2 hunder,
            layout_get_none_garb (vaddr A k) v addr hnaC]
    · have hnC : ¬ NodeAddr (vaddr A k) addr := fun hc => hunder (nodeAddr_under hc)
      rw [hfC addr hnC, haL v addr hna hunder]
  · intro addr hna
    have h1 : ¬ NodeAddr (vaddr A k) addr := fun hc => hna (nodeAddr_child hc)
    rw [hfC addr h1, hcL addr hna]
termination_by (sizeOf v, 2)

theorem dictPutList_fresh (fuel : Nat) (l2 : List (String × JValue)) (σ : Store)
    (A : Addr) (mk : Rec) (l1 : List (String × JValue))
    (hf : 3 ≤ fuel) (hwf2 : wfEntries l2 = true)
    (hnd : (nodeKeys (l1 ++ l2)).Nodup)
    (hrepr : DictRepr σ A mk l1) :
    ∃ σ2, dictPutList fuel σ A l2 = Except.ok σ2 ∧ DictRepr σ2 A mk (l1 ++ l2) ∧
      (∀ addr, ¬ NodeAddr A addr → storeGet σ2 addr = storeGet σ addr) := by
  match l2 with
  | [] =>
      refine ⟨σ, by simp [dictPutList], ?_, fun _ _ => rfl⟩
      have he : l1 ++ ([] : List (String × JValue)) = l1 := by simp
      rwa [he]
  | (k, v) :: rest =>
      have hkeys : nodeKeys (l1 ++ (k, v) :: rest) =
          nodeKeys l1 ++ k :: nodeKeys rest := by
        rw [nodeKeys_append]
        rfl
      have hnd2 := hnd
      rw [hkeys, List.nodup_append] at hnd2
      have hnd1 : (nodeKeys l1).Nodup := hnd2.1
      have hnk : k ∉ nodeKeys l1 := by
        intro hmem
        exact hnd2.2.2 hmem (by simp)
      have hwfp : wfB v = true ∧ wfEntries rest = true := by
        have h2 := hwf2
        simp only [wfEntries, Bool.and_eq_true] at h2
        exact h2
      obtain ⟨σ1, hw1, hr1, hfr1⟩ := dictPutCore_fresh fuel v σ A mk l1 k hf
        hwfp.1 hnd1 hnk hrepr
      obtain ⟨σ2, hw2, hr2, hfr2⟩ := dictPutList_fresh fuel rest σ1 A mk
        (l1 ++ [(k, v)]) hf hwfp.2
        (by rw [List.append_assoc]; simpa using hnd) hr1
      refine ⟨σ2, ?_, ?_, ?_⟩
      · rw [dictPutList, hw1, ok_bind, hw2]
      · have he : l1 ++ [(k, v)] ++ rest = l1 ++ (k, v) :: rest := by simp
        rwa [he] at hr2
      · intro addr hna
        rw [hfr2 addr hna, hfr1 addr hna]
termination_by (sizeOf l2, 0)

theorem listAppendItems_fresh (fuel : Nat) (xs : List JValue) (σ : Store)
    (A : Addr) (mk : Rec) (ys : List JValue)
    (hf : 3 ≤ fuel) (hwf : wfItems xs = true)
    (hrepr : DictRepr σ A mk (arrEntries 0 ys)) :
    ∃ σ2, listAppendItems fuel σ A xs = Except.ok σ2 ∧
      DictRepr σ2 A mk (arrEntries 0 (ys ++ xs)) ∧
      (∀ addr, ¬ NodeAddr A addr → storeGet σ2 addr = storeGet σ addr) := by
  match xs with
  | [] =>
      refine ⟨σ, by simp [listAppendItems], ?_, fun _ _ => rfl⟩
      have he : ys ++ ([] : List JValue) = ys := by simp
      rwa [he]
  | x :: rest =>
      have hklen : (nodeKeys (arrEntries 0 ys)).length = ys.length := by
        rw [nodeKeys, List.length_map, arrEntries_length]
      have hread : readLen σ A = Except.ok ((ys.length : Nat) : Int) := by
        rw [readLen, jfetch_eq (by
          rw [hrepr _ (nodeAddr_saddr A), dictRecs_get_s, hklen]), ok_bind, asSize_rint]
      have hkey : toString ((ys.length : Nat) : Int) = idxKey ys.length := rfl
      have hnk : idxKey ys.length ∉ nodeKeys (arrEntries 0 ys) := by
        intro hmem
        obtain ⟨m, h0, hlt, heq⟩ := arrEntries_keys_mem hmem
        have := idxKey_inj heq
        omega
      have hwfp : wfB x = true ∧ wfItems rest = true := by
        have h2 := hwf
        simp only [wfItems, Bool.and_eq_true] at h2
        exact h2
      obtain ⟨σ1, hw1, hr1, hfr1⟩ := dictPutCore_fresh fuel x σ A mk
        (arrEntries 0 ys) (idxKey ys.length) hf hwfp.1 (arrEntries_keys_nodup 0 ys)
        hnk hrepr
      have hr1e : DictRepr σ1 A mk (arrEntries 0 (ys ++ [x])) := by
        rw [arrEntries_append]
        simpa using hr1
      obtain ⟨σ2, hw2, hr2, hfr2⟩ := listAppendItems_fresh fuel rest σ1 A mk
        (ys ++ [x]) hf hwfp.2 hr1e
      refine ⟨σ2, ?_, ?_, ?_⟩
      · rw [listAppendItems, hread, ok_bind, hkey, hw1, ok_bind, hw2]
      · have he : ys ++ [x] ++ rest = ys ++ x :: rest := by simp
        rwa [he] at hr2
      · intro addr hna
        rw [hfr2 addr hna, hfr1 addr hna]
termination_by (sizeOf xs, 0)

end

/-! ## Reading a well-formed node: child representation, key walks, export -/

theorem reprAt_child {σ : Store} {A : Addr} {mk : Rec} {l : List (String × JValue)}
    {k : String} {v : JValue} (hrepr : DictRepr σ A mk l)
    (hnd : (nodeKeys l).Nodup) (hmem : (k, v) ∈ l) :
    ReprAt σ (vaddr A k) v := by
  intro addr hna
  have hunder : vaddr A k <+: addr := nodeAddr_under hna
  rw [hrepr addr (nodeAddr_child hna),
      dictRecs_get_child A mk l k v addr hnd hmem hunder]

theorem walkKeys_layout (σ : Store) (A : Addr) (mk : Rec)
    (l : List (String × JValue)) (hrepr : DictRepr σ A mk l)
    (hnd : (nodeKeys l).Nodup) :
    ∀ (ks2 ks1 : List String) (wfuel : Nat), nodeKeys l = ks1 ++ ks2 →
      ks2.length + 1 ≤ wfuel →
      walkKeys wfuel σ A ks2.head? = Except.ok ks2 := by
  intro ks2
  induction ks2 with
  | nil =>
      intro ks1 wfuel hsplit hfe
      obtain ⟨w, rfl⟩ := Nat.exists_eq_add_of_le' hfe
      rfl
  | cons k rest ih =>
      intro ks1 wfuel hsplit hfe
      obtain ⟨w, rfl⟩ := Nat.exists_eq_add_of_le' hfe
      have hkmem : k ∈ nodeKeys l := by
        rw [hsplit]
        exact List.mem_append_right _ (by simp)
      have hknot1 : k ∉ ks1 := by
        intro hk1
        have := hnd
        rw [hsplit, List.nodup_append] at this
        exact this.2.2 hk1 (by simp)
      have hnext : chainNext (nodeKeys l) k = rest.head? := by
        rw [hsplit, chainNext_append_right _ hknot1, chainNext, if_pos rfl]
      have hw : w + ((k :: rest).length + 1) = (w + rest.length + 1) + 1 := by
        simp
        omega
      show walkKeys (w + ((k :: rest).length + 1)) σ A (some k) = Except.ok (k :: rest)
      rw [hw, walkKeys,
          jfetch_eq (by rw [hrepr _ (nodeAddr_kaddr A k "n"),
            dictRecs_get_kn A mk l k hkmem, hnext]),
          ok_bind, asPtr_ptrRec, ok_bind,
          ih (ks1 ++ [k]) (w + rest.length + 1) (by rw [hsplit]; simp) (by omega)]
      rfl

theorem dictKeys_layout (σ : Store) (A : Addr) (mk : Rec)
    (l : List (String × JValue)) (wfuel : Nat) (hrepr : DictRepr σ A mk l)
    (hnd : (nodeKeys l).Nodup) (hfe : (nodeKeys l).length + 1 ≤ wfuel) :
    dictKeys wfuel σ A = Except.ok (nodeKeys l) := by
  rw [dictKeys,
      jfetch_eq (by rw [hrepr _ (nodeAddr_naddr A), dictRecs_get_n]),
      ok_bind, asPtr_ptrRec, ok_bind,
      walkKeys_layout σ A mk l hrepr hnd (nodeKeys l) [] wfuel rfl hfe]

theorem walkKeysBack_layout (σ : Store) (A : Addr) (mk : Rec)
    (l : List (String × JValue)) (hrepr : DictRepr σ A mk l)
    (hnd : (nodeKeys l).Nodup) :
    ∀ (ks1 ks2 : List String) (wfuel : Nat), nodeKeys l = ks1 ++ ks2 →
      ks1.length + 1 ≤ wfuel →
      walkKeysBack wfuel σ A ks1.getLast? = Except.ok ks1.reverse := by
  intro ks1
  induction ks1 using List.reverseRecOn with
  | nil =>
      intro ks2 wfuel hsplit hfe
      obtain ⟨w, rfl⟩ := Nat.exists_eq_add_of_le' hfe
      rfl
  | append_singleton ks1 k ih =>
      intro ks2 wfuel hsplit hfe
      obtain ⟨w, rfl⟩ := Nat.exists_eq_add_of_le' hfe
      have hsplit2 : nodeKeys l = ks1 ++ k :: ks2 := by
        rw [hsplit]
        simp
      have hkmem : k ∈ nodeKeys l := by
        rw [hsplit2]
        exact List.mem_append_right _ (by simp)
      have hknot1 : k ∉ ks1 := by
        intro hk1
        have := hnd
        rw [hsplit2, List.nodup_append] at this
        exact this.2.2 hk1 (by simp)
      have hprev : chainPrev none (nodeKeys l) k = ks1.getLast? := by
        rw [hsplit2, chainPrev_append_right _ none hknot1, chainPrev, if_pos rfl,
            olast_none]
      have hlen1 : (ks1 ++ [k]).length = ks1.length + 1 := by simp
      rw [hlen1] at hfe
      obtain ⟨w2, hw2⟩ : ∃ w2, w + (ks1.length + 1 + 1) = w2 + 1 :=
        ⟨w + ks1.length + 1, by omega⟩
      rw [List.getLast?_concat, hlen1, hw2, walkKeysBack,
          jfetch_eq (by rw [hrepr _ (nodeAddr_kaddr A k "p"),
            dictRecs_get_kp A mk l k hkmem, hprev]),
          ok_bind, asPtr_ptrRec, ok_bind,
          ih (k :: ks2) w2 hsplit2 (by omega)]
      rw [ok_bind]
      simp

theorem dictKeysBack_layout (σ : Store) (A : Addr) (mk : Rec)
    (l : List (String × JValue)) (wfuel : Nat) (hrepr : DictRepr σ A mk l)
    (hnd : (nodeKeys l).Nodup) (hfe : (nodeKeys l).length + 1 ≤ wfuel) :
    dictKeysBack wfuel σ A = Except.ok (nodeKeys l).reverse := by
  rw [dictKeysBack,
      jfetch_eq (by rw [hrepr _ (nodeAddr_paddr A), dictRecs_get_p]),
      ok_bind, asPtr_ptrRec, ok_bind,
      walkKeysBack_layout σ A mk l hrepr hnd (nodeKeys l) [] wfuel (by simp) hfe]

/-! ## Export fuel bounds -/

mutual

def efuelB (v : JValue) : Nat :=
  match v with
  | JValue.obj l => eefB l + l.length + 2
  | JValue.arr xs => eifB xs + xs.length + 2
  | _ => 1
termination_by (sizeOf v, 0)

def eefB (l : List (String × JValue)) : Nat :=
  match l with
  | [] => 0
  | (_, v) :: rest => efuelB v + eefB rest
termination_by (sizeOf l, 1)

def eifB (xs : List JValue) : Nat :=
  match xs with
  | [] => 0
  | v :: rest => efuelB v + eifB rest
termination_by (sizeOf xs, 1)

end

theorem eefB_mem {p : String × JValue} {l : List (String × JValue)} (h : p ∈ l) :
    efuelB p.2 ≤ eefB l := by
  induction l with
  | nil => cases h
  | cons q rest ih =>
      obtain ⟨k2, v2⟩ := q
      rw [eefB]
      rcases List.mem_cons.mp h with rfl | hr
      · have he : ((k2, v2) : String × JValue).2 = v2 := rfl
        rw [he]
        omega
      · have := ih hr
        omega

theorem eifB_mem {v : JValue} {xs : List JValue} (h : v ∈ xs) :
    efuelB v ≤ eifB xs := by
  induction xs with
  | nil => cases h
  | cons q rest ih =>
      rw [eifB]
      rcases List.mem_cons.mp h with rfl | hr
      · omega
      · have := ih hr
        omega

theorem efuelB_pos (v : JValue) : 1 ≤ efuelB v := by
  match v with
  | JValue.obj l => rw [efuelB]; omega
  | JValue.arr xs => rw [efuelB]; omega
  | JValue.null => simp [efuelB]
  | JValue.bool b => simp [efuelB]
  | JValue.num n => simp [efuelB]
  | JValue.str s => simp [efuelB]

/-! ## Export over a well-formed layout -/

/-- The index list `[i, i+1, ..., i+n-1]` as Ints, built structurally. -/
def intsFrom (i : Nat) : Nat → List Int
  | 0 => []
  | n + 1 => Int.ofNat i :: intsFrom (i + 1) n

theorem intsFrom_eq_range (n : Nat) : ∀ i : Nat,
    (List.range' i n).map (fun j => Int.ofNat j) = intsFrom i n := by
  induction n with
  | zero => intro i; rfl
  | succ m ih =>
      intro i
      rw [List.range'_succ, List.map_cons, ih (i + 1)]
      rfl

theorem intRange_natCast (n : Nat) : intRange ((n : Nat) : Int) = intsFrom 0 n := by
  rw [intRange, Int.toNat_natCast, List.range_eq_range', intsFrom_eq_range]

mutual

theorem exportVal_layout (efuel : Nat) (v : JValue) (σ : Store) (A : Addr)
    (hwf : wfB v = true) (hrepr : ReprAt σ A v) (hfe : efuelB v ≤ efuel) :
    exportVal efuel σ A = Except.ok v := by
  match v with
  | JValue.null =>
      obtain ⟨e, rfl⟩ := Nat.exists_eq_add_of_le'
        (le_trans (efuelB_pos JValue.null) hfe)
      have hroot := hrepr A (nodeAddr_root A)
      rw [exportVal, hroot]
      simp [layout, storeGet, recOfScalar]
      rfl
  | JValue.bool b =>
      obtain ⟨e, rfl⟩ := Nat.exists_eq_add_of_le'
        (le_trans (efuelB_pos (JValue.bool b)) hfe)
      have hroot := hrepr A (nodeAddr_root A)
      rw [exportVal, hroot]
      simp [layout, storeGet, recOfScalar]
      rfl
  | JValue.num n =>
      obtain ⟨e, rfl⟩ := Nat.exists_eq_add_of_le'
        (le_trans (efuelB_pos (JValue.num n)) hfe)
      have hroot := hrepr A (nodeAddr_root A)
      rw [exportVal, hroot]
      simp [layout, storeGet, recOfScalar]
      rfl
  | JValue.str s =>
      obtain ⟨e, rfl⟩ := Nat.exists_eq_add_of_le'
        (le_trans (efuelB_pos (JValue.str s)) hfe)
      have hroot := hrepr A (nodeAddr_root A)
      rw [exportVal, hroot]
      simp [layout, storeGet, recOfScalar]
      rfl
  | JValue.obj l =>
      obtain ⟨e, rfl⟩ := Nat.exists_eq_add_of_le'
        (le_trans (efuelB_pos (JValue.obj l)) hfe)
      have hparts : (nodeKeys l).Nodup ∧ wfEntries l = true := by
        have h2 := hwf
        simp only [wfB, Bool.and_eq_true, decide_eq_true_eq] at h2
        exact h2
      have hdrepr : DictRepr σ A Rec.rmapM l := reprAt_obj.mp hrepr
      have hroot2 : storeGet σ A = some Rec.rmapM := by
        rw [hdrepr A (nodeAddr_root A), dictRecs_get_root]
      have hfe2 : eefB l + l.length + 2 ≤ e + 1 := by
        have h3 : efuelB (JValue.obj l) = eefB l + l.length + 2 := by rw [efuelB]
        rw [h3] at hfe
        exact hfe
      have hklen : (nodeKeys l).length = l.length := List.length_map _ _
      rw [exportVal, hroot2,
          dictKeys_layout σ A Rec.rmapM l (e + 1) hdrepr hparts.1
            (by rw [hklen]; omega),
          ok_bind,
          exportEntries_layout e l σ A hparts.2
            (fun p hp => by
              obtain ⟨k2, v2⟩ := p
              exact reprAt_child hdrepr hparts.1 hp)
            (fun p hp => le_trans (eefB_mem hp) (by omega)),
          ok_bind]
  | JValue.arr xs =>
      obtain ⟨e, rfl⟩ := Nat.exists_eq_add_of_le'
        (le_trans (efuelB_pos (JValue.arr xs)) hfe)
      have hwfi : wfItems xs = true := by
        have h2 := hwf
        simp only [wfB] at h2
        exact h2
      have hdrepr : DictRepr σ A Rec.rlistM (arrEntries 0 xs) := reprAt_arr.mp hrepr
      have hroot2 : storeGet σ A = some Rec.rlistM := by
        rw [hdrepr A (nodeAddr_root A), dictRecs_get_root]
      have hfe2 : eifB xs + xs.length + 2 ≤ e + 1 := by
        have h3 : efuelB (JValue.arr xs) = eifB xs + xs.length + 2 := by rw [efuelB]
        rw [h3] at hfe
        exact hfe
      have hklen : (nodeKeys (arrEntries 0 xs)).length = xs.length := by
        rw [nodeKeys, List.length_map, arrEntries_length]
      have hread : readLen σ A = Except.ok ((xs.length : Nat) : Int) := by
        rw [readLen, jfetch_eq (by
          rw [hdrepr _ (nodeAddr_saddr A), dictRecs_get_s, hklen]), ok_bind,
          asSize_rint]
      rw [exportVal, hroot2, hread, ok_bind, intRange_natCast,
          exportItems_layout e xs σ A 0 hwfi
            (fun p hp => by
              obtain ⟨k2, v2⟩ := p
              exact reprAt_child hdrepr (arrEntries_keys_nodup 0 xs) hp)
            (fun v2 hv2 => le_trans (eifB_mem hv2) (by omega)),
          ok_bind]
termination_by (sizeOf v, 0)

theorem exportEntries_layout (efuel : Nat) (l : List (String × JValue)) (σ : Store)
    (A : Addr) (hwf : wfEntries l = true)
    (hchild : ∀ p ∈ l, ReprAt σ (vaddr A p.1) p.2)
    (hfe : ∀ p ∈ l, efuelB p.2 ≤ efuel) :
    exportEntries efuel σ A (nodeKeys l) = Except.ok l := by
  match l with
  | [] =>
      have h0 : nodeKeys ([] : List (String × JValue)) = [] := rfl
      rw [h0, exportEntries]
  | (k, v) :: rest =>
      have hwfp : wfB v = true ∧ wfEntries rest = true := by
        have h2 := hwf
        simp only [wfEntries, Bool.and_eq_true] at h2
        exact h2
      have hhd : nodeKeys ((k, v) :: rest) = k :: nodeKeys rest := rfl
      rw [hhd, exportEntries,
          exportVal_layout efuel v σ (vaddr A k) hwfp.1
            (hchild (k, v) (by simp)) (hfe (k, v) (by simp)),
          ok_bind,
          exportEntries_layout efuel rest σ A hwfp.2
            (fun p hp => hchild p (List.mem_cons_of_mem _ hp))
            (fun p hp => hfe p (List.mem_cons_of_mem _ hp)),
          ok_bind]
termination_by (sizeOf l, 1)

theorem exportItems_layout (efuel : Nat) (zs : List JValue) (σ : Store) (A : Addr)
    (i : Nat) (hwf : wfItems zs = true)
    (hchild : ∀ p ∈ arrEntries i zs, ReprAt σ (vaddr A p.1) p.2)
    (hfe : ∀ v ∈ zs, efuelB v ≤ efuel) :
    exportItems efuel σ A (intsFrom i zs.length) = Except.ok zs := by
  match zs with
  | [] =>
      have h0 : intsFrom i ([] : List JValue).length = [] := rfl
      rw [h0, exportItems]
  | z :: rest =>
      have hwfp : wfB z = true ∧ wfItems rest = true := by
        have h2 := hwf
        simp only [wfItems, Bool.and_eq_true] at h2
        exact h2
      have hr : intsFrom i (z :: rest).length =
          Int.ofNat i :: intsFrom (i + 1) rest.length := rfl
      rw [hr, exportItems,
          exportVal_layout efuel z σ (vaddr A (toString (Int.ofNat i))) hwfp.1
            (hchild (idxKey i, z) (by rw [arrEntries]; simp)) (hfe z (by simp)),
          ok_bind,
          exportItems_layout efuel rest σ A (i + 1) hwfp.2
            (fun p hp => hchild p (by rw [arrEntries]; exact List.mem_cons_of_mem _ hp))
            (fun v2 hv2 => hfe v2 (List.mem_cons_of_mem _ hv2)),
          ok_bind]
termination_by (sizeOf zs, 1)

end

/-! ## The delete cluster over a well-formed layout -/

mutual

/-- Subtree size of a value: the measure of the delete-cluster recursion. -/
def jsize (v : JValue) : Nat :=
  match v with
  | JValue.obj l => esize l + 1
  | JValue.arr xs => isize xs + 1
  | _ => 1
termination_by (sizeOf v, 0)

def esize (l : List (String × JValue)) : Nat :=
  match l with
  | [] => 0
  | (_, w) :: rest => jsize w + esize rest + 1
termination_by (sizeOf l, 1)

def isize (xs : List JValue) : Nat :=
  match xs with
  | [] => 0
  | w :: rest => jsize w + isize rest + 1
termination_by (sizeOf xs, 1)

end

theorem esize_arrEntries (xs : List JValue) : ∀ i : Nat,
    esize (arrEntries i xs) = isize xs := by
  induction xs with
  | nil =>
      intro i
      rw [show arrEntries i [] = [] from rfl]
      rw [esize, isize]
  | cons z rest ih =>
      intro i
      rw [arrEntries]
      rw [show esize ((idxKey i, z) :: arrEntries (i + 1) rest) =
        jsize z + esize (arrEntries (i + 1) rest) + 1 by rw [esize]]
      rw [show isize (z :: rest) = jsize z + isize rest + 1 by rw [isize]]
      rw [ih (i + 1)]

mutual

/-- Fuel bound for JData.__delitem__ at a node holding v. -/
def dfB (v : JValue) : Nat :=
  match v with
  | JValue.obj l => dlB l + 4
  | JValue.arr xs => diB xs + 4
  | _ => 1
termination_by (sizeOf v, 0)

/-- Fuel bound for the clear loop over an entry list. -/
def dlB (l : List (String × JValue)) : Nat :=
  match l with
  | [] => 1
  | (_, w) :: rest => dfB w + dlB rest + 3
termination_by (sizeOf l, 1)

def diB (xs : List JValue) : Nat :=
  match xs with
  | [] => 1
  | w :: rest => dfB w + diB rest + 3
termination_by (sizeOf xs, 1)

end

theorem dfB_pos (v : JValue) : 1 ≤ dfB v := by
  cases v with
  | obj l => rw [show dfB (JValue.obj l) = dlB l + 4 by rw [dfB]]; omega
  | arr xs => rw [show dfB (JValue.arr xs) = diB xs + 4 by rw [dfB]]; omega
  | null => simp [dfB]
  | bool b => simp [dfB]
  | num n => simp [dfB]
  | str s => simp [dfB]

theorem dlB_pos (l : List (String × JValue)) : 1 ≤ dlB l := by
  cases l with
  | nil => simp [dlB]
  | cons p rest =>
      obtain ⟨k, w⟩ := p
      rw [show dlB ((k, w) :: rest) = dfB w + dlB rest + 3 by rw [dlB]]
      omega

theorem dlB_arrEntries (xs : List JValue) : ∀ i : Nat,
    dlB (arrEntries i xs) = diB xs := by
  induction xs with
  | nil =>
      intro i
      rw [show arrEntries i [] = [] from rfl]
      rw [dlB, diB]
  | cons z rest ih =>
      intro i
      rw [arrEntries]
      rw [show dlB ((idxKey i, z) :: arrEntries (i + 1) rest) =
        dfB z + dlB (arrEntries (i + 1) rest) + 3 by rw [dlB]]
      rw [show diB (z :: rest) = dfB z + diB rest + 3 by rw [diB]]
      rw [ih (i + 1)]

theorem not_nodeAddr_of_not_under {B addr : Addr} (h : ¬ B <+: addr) :
    ¬ NodeAddr B addr := fun hn => h (nodeAddr_under hn)

theorem chainPrev_cons_ne (pre : Option String) {h k : String} (t : List String)
    (hne : h ≠ k) : chainPrev pre (h :: t) k = chainPrev (some h) t k := by
  show (if h = k then pre else chainPrev (some h) t k) = _
  rw [if_neg hne]

theorem chainNext_cons_self (k : String) (t : List String) :
    chainNext (k :: t) k = t.head? := by
  show (if k = k then t.head? else _) = _
  rw [if_pos rfl]

theorem chainNext_cons_ne {h k : String} (t : List String) (hne : h ≠ k) :
    chainNext (h :: t) k = chainNext t k := by
  show (if h = k then t.head? else chainNext t k) = _
  rw [if_neg hne]

theorem chainPrev_cons_self (pre : Option String) (k : String) (t : List String) :
    chainPrev pre (k :: t) k = pre := by
  show (if k = k then pre else _) = _
  rw [if_pos rfl]

/-- Decomposition of the no-duplicates hypothesis around a middle element. -/
theorem nodup_middle {ks1 ks2 : List String} {k : String}
    (h : (ks1 ++ k :: ks2).Nodup) :
    ks1.Nodup ∧ ks2.Nodup ∧ k ∉ ks1 ∧ k ∉ ks2 ∧
      (∀ a ∈ ks1, a ∉ ks2) ∧ (ks1 ++ ks2).Nodup := by
  rw [List.nodup_append] at h
  obtain ⟨h1, h2, h3⟩ := h
  rw [List.nodup_cons] at h2
  refine ⟨h1, h2.2, fun hm => h3 hm (by simp), h2.1,
    fun a ha hm => h3 ha (by simp [hm]), ?_⟩
  rw [List.nodup_append]
  exact ⟨h1, h2.2, fun a ha hm => h3 ha (by simp [hm])⟩

/-- JData.__delitem__ on an address holding a non-container record is the
raw store delete. -/
theorem jdataDel_scalar (f : Nat) (σ : Store) (a : Addr) (r : Rec)
    (hf : 1 ≤ f) (hr : storeGet σ a = some r) (hm : r ≠ Rec.rmapM)
    (hl : r ≠ Rec.rlistM) :
    jdataDel f σ a = Except.ok (storeDel σ a) := by
  obtain ⟨f2, rfl⟩ := Nat.exists_eq_add_of_le' hf
  rw [jdataDel]
  cases r with
  | rmapM => exact absurd rfl hm
  | rlistM => exact absurd rfl hl
  | rnull => rw [hr]; simp [rawDel, hr]
  | rbool b => rw [hr]; simp [rawDel, hr]
  | rint n => rw [hr]; simp [rawDel, hr]
  | rstr s2 => rw [hr]; simp [rawDel, hr]

theorem layout_get_root_isSome (B : Addr) (v : JValue) :
    (storeGet (layout B v) B).isSome := by
  cases v with
  | obj l => simp [layout, storeGet]
  | arr xs => simp [layout, storeGet]
  | null => simp [layout, storeGet]
  | bool b => simp [layout, storeGet]
  | num n => simp [layout, storeGet]
  | str s => simp [layout, storeGet]

theorem head?_append_ne {α : Type} {l1 : List α} (l2 : List α) (h : l1 ≠ []) :
    (l1 ++ l2).head? = l1.head? := by
  cases l1 with
  | nil => exact absurd rfl h
  | cons a r => rfl

theorem nextCellAddr_none (A : Addr) : nextCellAddr A none = naddr A := rfl

theorem nextCellAddr_some (A : Addr) (x : String) :
    nextCellAddr A (some x) = kaddr A x "n" := rfl

theorem prevCellAddr_none (A : Addr) : prevCellAddr A none = paddr A := rfl

theorem prevCellAddr_some (A : Addr) (x : String) :
    prevCellAddr A (some x) = kaddr A x "p" := rfl

theorem nextCell_ne_prevCell (A : Addr) (x y : Option String) :
    nextCellAddr A x ≠ prevCellAddr A y := by
  cases x with
  | some lk =>
      cases y with
      | some hk =>
          intro he
          have := kaddr_inj.mp he
          simp at this
      | none => exact kaddr_ne_paddr A lk "n"
  | none =>
      cases y with
      | some hk => exact fun he => kaddr_ne_naddr A hk "p" he.symm
      | none => exact naddr_ne_paddr A

theorem nextCellAddr_ne_kp (A : Addr) (x : Option String) (k2 : String) :
    nextCellAddr A x ≠ kaddr A k2 "p" := by
  intro he
  have := nextCellAddr_eq_kaddr he
  simp at this

theorem prevCellAddr_ne_kn (A : Addr) (x : Option String) (k2 : String) :
    prevCellAddr A x ≠ kaddr A k2 "n" := by
  intro he
  have := prevCellAddr_eq_kaddr he
  simp at this

theorem not_under_vaddr_kp (A : Addr) (k k2 : String) :
    ¬ vaddr A k <+: kaddr A k2 "p" := by
  intro hc
  have := under_vaddr_kaddr hc
  simp at this

theorem not_under_vaddr_kn (A : Addr) (k k2 : String) :
    ¬ vaddr A k <+: kaddr A k2 "n" := by
  intro hc
  have := under_vaddr_kaddr hc
  simp at this

theorem not_under_vaddr_root (A : Addr) (k : String) : ¬ vaddr A k <+: A := by
  intro hc
  have := hc.length_le
  simp [vaddr] at this

theorem not_under_vaddr_paddr (A : Addr) (k : String) :
    ¬ vaddr A k <+: paddr A := by
  intro hc
  have := hc.length_le
  simp [vaddr, paddr] at this

theorem not_under_vaddr_naddr (A : Addr) (k : String) :
    ¬ vaddr A k <+: naddr A := by
  intro hc
  have := hc.length_le
  simp [vaddr, naddr] at this

theorem not_under_vaddr_saddr (A : Addr) (k : String) :
    ¬ vaddr A k <+: saddr A := by
  intro hc
  have := hc.length_le
  simp [vaddr, saddr] at this

theorem wfEntries_arrEntries {xs : List JValue} (hwf : wfItems xs = true) :
    ∀ i : Nat, wfEntries (arrEntries i xs) = true := by
  induction xs with
  | nil =>
      intro i
      rw [show arrEntries i [] = [] from rfl, wfEntries]
  | cons z rest ih =>
      intro i
      have hparts : wfB z = true ∧ wfItems rest = true := by
        simp only [wfItems, Bool.and_eq_true] at hwf
        exact hwf
      rw [arrEntries]
      rw [show wfEntries ((idxKey i, z) :: arrEntries (i + 1) rest) =
        (wfB z && wfEntries (arrEntries (i + 1) rest)) by rw [wfEntries]]
      rw [hparts.1, ih hparts.2 (i + 1)]
      rfl

instance (A addr : Addr) : Decidable (NodeAddr A addr) :=
  decidable_of_iff
    (addr = A ∨ addr = paddr A ∨ addr = naddr A ∨ addr = saddr A ∨
      (A ++ ["k"]) <+: addr) Iff.rfl

/-- A node whose space holds only a scalar at its root is fully emptied by
JData.__delitem__. -/
theorem jdataDel_scalar_node (fuel : Nat) (σ : Store) (A : Addr) (r : Rec)
    (hf : 1 ≤ fuel) (hroot : storeGet σ A = some r) (hm : r ≠ Rec.rmapM)
    (hl : r ≠ Rec.rlistM)
    (hrest : ∀ addr, NodeAddr A addr → addr ≠ A → storeGet σ addr = none) :
    ∃ σ2, jdataDel fuel σ A = Except.ok σ2 ∧
      (∀ addr, NodeAddr A addr → storeGet σ2 addr = none) ∧
      (∀ addr, ¬ NodeAddr A addr → storeGet σ2 addr = storeGet σ addr) := by
  refine ⟨storeDel σ A, jdataDel_scalar fuel σ A r hf hroot hm hl, ?_, ?_⟩
  · intro addr hna
    rw [storeGet_del]
    by_cases hA : A = addr
    · rw [if_pos hA]
    · rw [if_neg hA]
      exact hrest addr hna (fun he => hA he.symm)
  · intro addr hna
    rw [storeGet_del, if_neg (fun he => hna (by rw [← he]; exact nodeAddr_root A))]

mutual

/-- JData.__delitem__ at the root of a well-formed subtree empties the
node's whole address space and touches nothing else. -/
theorem jdataDel_full (fuel : Nat) (σ : Store) (A : Addr) (v : JValue)
    (hf : dfB v ≤ fuel) (hwf : wfB v = true) (hrepr : ReprAt σ A v) :
    ∃ σ2, jdataDel fuel σ A = Except.ok σ2 ∧
      (∀ addr, NodeAddr A addr → storeGet σ2 addr = none) ∧
      (∀ addr, ¬ NodeAddr A addr → storeGet σ2 addr = storeGet σ addr) := by
  match v with
  | JValue.null =>
      refine jdataDel_scalar_node fuel σ A Rec.rnull (le_trans (dfB_pos _) hf)
        ?_ (by simp) (by simp) ?_
      · rw [hrepr A (nodeAddr_root A)]
        simp [layout, storeGet, recOfScalar]
      · intro addr hna hne
        have hA : ¬ A = addr := fun he => hne he.symm
        rw [hrepr addr hna]
        simp [layout, storeGet, recOfScalar, hA]
  | JValue.bool b =>
      refine jdataDel_scalar_node fuel σ A (Rec.rbool b) (le_trans (dfB_pos _) hf)
        ?_ (by simp) (by simp) ?_
      · rw [hrepr A (nodeAddr_root A)]
        simp [layout, storeGet, recOfScalar]
      · intro addr hna hne
        have hA : ¬ A = addr := fun he => hne he.symm
        rw [hrepr addr hna]
        simp [layout, storeGet, recOfScalar, hA]
  | JValue.num n =>
      refine jdataDel_scalar_node fuel σ A (Rec.rint n) (le_trans (dfB_pos _) hf)
        ?_ (by simp) (by simp) ?_
      · rw [hrepr A (nodeAddr_root A)]
        simp [layout, storeGet, recOfScalar]
      · intro addr hna hne
        have hA : ¬ A = addr := fun he => hne he.symm
        rw [hrepr addr hna]
        simp [layout, storeGet, recOfScalar, hA]
  | JValue.str t =>
      refine jdataDel_scalar_node fuel σ A (Rec.rstr t) (le_trans (dfB_pos _) hf)
        ?_ (by simp) (by simp) ?_
      · rw [hrepr A (nodeAddr_root A)]
        simp [layout, storeGet, recOfScalar]
      · intro addr hna hne
        have hA : ¬ A = addr := fun he => hne he.symm
        rw [hrepr addr hna]
        simp [layout, storeGet, recOfScalar, hA]
  | JValue.obj l =>
      have hfB : dlB l + 4 ≤ fuel := by
        have he : dfB (JValue.obj l) = dlB l + 4 := by rw [dfB]
        rw [he] at hf
        exact hf
      obtain ⟨f, rfl⟩ := Nat.exists_eq_add_of_le' (show 1 ≤ fuel by omega)
      have hparts : (nodeKeys l).Nodup ∧ wfEntries l = true := by
        simp only [wfB, Bool.and_eq_true, decide_eq_true_eq] at hwf
        exact hwf
      have hdrepr : DictRepr σ A Rec.rmapM l := reprAt_obj.mp hrepr
      have hσA : storeGet σ A = some Rec.rmapM := by
        rw [hdrepr A (nodeAddr_root A), dictRecs_get_root]
      obtain ⟨σ1, hwd, hone, hroot1, hfrd⟩ := destroyNode_spec f σ A Rec.rmapM l
        (by omega) hparts.1 hparts.2 hdrepr
      refine ⟨storeDel σ1 A, ?_, ?_, ?_⟩
      · rw [jdataDel, hσA]
        show (do
          let σr ← destroyNode f σ A
          rawDel σr A : Except Err Store) = _
        rw [hwd, ok_bind, rawDel, hroot1]
      · intro addr hna
        rw [storeGet_del]
        by_cases hA : A = addr
        · rw [if_pos hA]
        · rw [if_neg hA]
          exact hone addr hna (fun he => hA he.symm)
      · intro addr hna
        rw [storeGet_del, if_neg (fun he => hna (by rw [← he]; exact nodeAddr_root A)),
            hfrd addr hna]
  | JValue.arr xs =>
      have hfB : diB xs + 4 ≤ fuel := by
        have he : dfB (JValue.arr xs) = diB xs + 4 := by rw [dfB]
        rw [he] at hf
        exact hf
      obtain ⟨f, rfl⟩ := Nat.exists_eq_add_of_le' (show 1 ≤ fuel by omega)
      have hwfi : wfItems xs = true := by
        simp only [wfB] at hwf
        exact hwf
      have hdrepr : DictRepr σ A Rec.rlistM (arrEntries 0 xs) := reprAt_arr.mp hrepr
      have hσA : storeGet σ A = some Rec.rlistM := by
        rw [hdrepr A (nodeAddr_root A), dictRecs_get_root]
      obtain ⟨σ1, hwd, hone, hroot1, hfrd⟩ := destroyNode_spec f σ A Rec.rlistM
        (arrEntries 0 xs) (by rw [dlB_arrEntries]; omega)
        (arrEntries_keys_nodup 0 xs) (wfEntries_arrEntries hwfi 0) hdrepr
      refine ⟨storeDel σ1 A, ?_, ?_, ?_⟩
      · rw [jdataDel, hσA]
        show (do
          let σr ← destroyNode f σ A
          rawDel σr A : Except Err Store) = _
        rw [hwd, ok_bind, rawDel, hroot1]
      · intro addr hna
        rw [storeGet_del]
        by_cases hA : A = addr
        · rw [if_pos hA]
        · rw [if_neg hA]
          exact hone addr hna (fun he => hA he.symm)
      · intro addr hna
        rw [storeGet_del, if_neg (fun he => hna (by rw [← he]; exact nodeAddr_root A)),
            hfrd addr hna]
termination_by (jsize v, 0)
decreasing_by
  all_goals simp_wf
  · exact Prod.Lex.left _ _ (by rw [jsize]; omega)
  · exact Prod.Lex.left _ _ (by rw [esize_arrEntries, jsize]; omega)

/-- JDict._destroy empties the node's space apart from its own marker. -/
theorem destroyNode_spec (fuel : Nat) (σ : Store) (A : Addr) (mk : Rec)
    (l : List (String × JValue)) (hf : dlB l + 2 ≤ fuel)
    (hnd : (nodeKeys l).Nodup) (hwfE : wfEntries l = true)
    (hrepr : DictRepr σ A mk l) :
    ∃ σ2, destroyNode fuel σ A = Except.ok σ2 ∧
      (∀ addr, NodeAddr A addr → addr ≠ A → storeGet σ2 addr = none) ∧
      storeGet σ2 A = some mk ∧
      (∀ addr, ¬ NodeAddr A addr → storeGet σ2 addr = storeGet σ addr) := by
  have hd1 := dlB_pos l
  obtain ⟨f, rfl⟩ := Nat.exists_eq_add_of_le' (show 1 ≤ fuel by omega)
  obtain ⟨f2, rfl⟩ := Nat.exists_eq_add_of_le' (show 1 ≤ f by omega)
  obtain ⟨σc, hwc, hreprc, hfrc⟩ := clearLoop_spec f2 σ A mk l (by omega)
    hnd hwfE hrepr
  have hn0 : storeGet σc (naddr A) = some Rec.rnull := by
    rw [hreprc _ (nodeAddr_naddr A), dictRecs_get_n]
    rfl
  have hdeln : jdataDel (f2 + 1) σc (naddr A) =
      Except.ok (storeDel σc (naddr A)) :=
    jdataDel_scalar _ _ _ _ (by omega) hn0 (by simp) (by simp)
  have hp0 : storeGet (storeDel σc (naddr A)) (paddr A) = some Rec.rnull := by
    rw [storeGet_del, if_neg (naddr_ne_paddr A), hreprc _ (nodeAddr_paddr A),
        dictRecs_get_p]
    rfl
  have hdelp : jdataDel (f2 + 1) (storeDel σc (naddr A)) (paddr A) =
      Except.ok (storeDel (storeDel σc (naddr A)) (paddr A)) :=
    jdataDel_scalar _ _ _ _ (by omega) hp0 (by simp) (by simp)
  have hs0 : storeGet (storeDel (storeDel σc (naddr A)) (paddr A)) (saddr A) =
      some (Rec.rint 0) := by
    rw [storeGet_del, if_neg (paddr_ne_saddr A), storeGet_del,
        if_neg (naddr_ne_saddr A), hreprc _ (nodeAddr_saddr A), dictRecs_get_s]
    rfl
  have hdels : jdataDel (f2 + 1) (storeDel (storeDel σc (naddr A)) (paddr A))
      (saddr A) = Except.ok (storeDel (storeDel (storeDel σc (naddr A))
        (paddr A)) (saddr A)) :=
    jdataDel_scalar _ _ _ _ (by omega) hs0 (by simp) (by simp)
  refine ⟨storeDel (storeDel (storeDel σc (naddr A)) (paddr A)) (saddr A),
    ?_, ?_, ?_, ?_⟩
  · have hcn : clearNode (f2 + 1) σ A = Except.ok σc := by
      rw [clearNode, jfetch_eq (show storeGet σ (naddr A) =
            some (ptrRec (nodeKeys l).head?) from by
          rw [hrepr _ (nodeAddr_naddr A), dictRecs_get_n]), ok_bind,
        asPtr_ptrRec, ok_bind, hwc]
    rw [destroyNode, hcn, ok_bind, hdeln, ok_bind, hdelp, ok_bind, hdels]
  · intro addr hna hne
    rw [storeGet_del]
    by_cases h1 : saddr A = addr
    · rw [if_pos h1]
    · rw [if_neg h1, storeGet_del]
      by_cases h2 : paddr A = addr
      · rw [if_pos h2]
      · rw [if_neg h2, storeGet_del]
        by_cases h3 : naddr A = addr
        · rw [if_pos h3]
        · rw [if_neg h3, hreprc addr hna]
          exact dictRecs_get_none A mk [] addr hne (fun he => h2 he.symm)
            (fun he => h3 he.symm) (fun he => h1 he.symm)
            (fun k2 hk2 => absurd hk2 (List.not_mem_nil k2))
  · rw [storeGet_del, if_neg (fun he => root_ne_saddr A he.symm),
        storeGet_del, if_neg (fun he => root_ne_paddr A he.symm),
        storeGet_del, if_neg (fun he => root_ne_naddr A he.symm),
        hreprc A (nodeAddr_root A), dictRecs_get_root]
  · intro addr hna
    rw [storeGet_del, if_neg (fun he => hna (by rw [← he]; exact nodeAddr_saddr A)),
        storeGet_del, if_neg (fun he => hna (by rw [← he]; exact nodeAddr_paddr A)),
        storeGet_del, if_neg (fun he => hna (by rw [← he]; exact nodeAddr_naddr A)),
        hfrc addr hna]
termination_by (esize l, 3)
decreasing_by
  all_goals simp_wf
  · exact Prod.Lex.right _ (by omega)

/-- The loop of JDict.clear walks the pre-read next pointers, deleting
every entry; it ends in the empty map node. -/
theorem clearLoop_spec (fuel : Nat) (σ : Store) (A : Addr) (mk : Rec)
    (l : List (String × JValue)) (hf : dlB l ≤ fuel)
    (hnd : (nodeKeys l).Nodup) (hwfE : wfEntries l = true)
    (hrepr : DictRepr σ A mk l) :
    ∃ σ2, clearLoop fuel σ A (nodeKeys l).head? = Except.ok σ2 ∧
      DictRepr σ2 A mk [] ∧
      (∀ addr, ¬ NodeAddr A addr → storeGet σ2 addr = storeGet σ addr) := by
  match l with
  | [] =>
      obtain ⟨f, rfl⟩ := Nat.exists_eq_add_of_le' (le_trans (dlB_pos []) hf)
      exact ⟨σ, rfl, hrepr, fun _ _ => rfl⟩
  | (k, w) :: rest =>
      have hdl : dlB ((k, w) :: rest) = dfB w + dlB rest + 3 := by rw [dlB]
      rw [hdl] at hf
      have hdf1 := dfB_pos w
      have hdl1 := dlB_pos rest
      obtain ⟨f, rfl⟩ := Nat.exists_eq_add_of_le' (show 1 ≤ fuel by omega)
      have hkeysc : nodeKeys ((k, w) :: rest) = k :: nodeKeys rest := rfl
      have hndc : k ∉ nodeKeys rest ∧ (nodeKeys rest).Nodup := by
        have h2 := hnd
        rw [hkeysc, List.nodup_cons] at h2
        exact h2
      have hwfc : wfB w = true ∧ wfEntries rest = true := by
        simp only [wfEntries, Bool.and_eq_true] at hwfE
        exact hwfE
      have hkmem : k ∈ nodeKeys ((k, w) :: rest) := by rw [hkeysc]; simp
      have hkn : storeGet σ (kaddr A k "n") =
          some (ptrRec (nodeKeys rest).head?) := by
        rw [hrepr _ (nodeAddr_kaddr A k "n"), dictRecs_get_kn A mk _ k hkmem,
            hkeysc, chainNext_cons_self]
      obtain ⟨σ1, hw1, hr1, hfr1⟩ := dictDel_spec f σ A mk k w [] rest
        (by omega) hwfc.1 hnd hrepr
      obtain ⟨σ2, hw2, hr2, hfr2⟩ := clearLoop_spec f σ1 A mk rest (by omega)
        hndc.2 hwfc.2 hr1
      refine ⟨σ2, ?_, hr2, ?_⟩
      · show clearLoop (f + 1) σ A (some k) = _
        rw [clearLoop, jfetch_eq hkn, ok_bind, asPtr_ptrRec, ok_bind, hw1,
            ok_bind, hw2]
      · intro addr hna
        rw [hfr2 addr hna, hfr1 addr hna]
termination_by (esize l, 2)
decreasing_by
  all_goals simp_wf
  · exact Prod.Lex.left _ _ (by rw [esize]; omega)
  · exact Prod.Lex.left _ _ (by rw [esize]; omega)

/-- JDict.__delitem__ on a present key erases exactly that entry (value
subtree included), rewires the neighbour chain, and decrements the size. -/
theorem dictDel_spec (fuel : Nat) (σ : Store) (A : Addr) (mk : Rec) (k : String)
    (w : JValue) (l1 l2 : List (String × JValue))
    (hf : dfB w + 2 ≤ fuel) (hwf : wfB w = true)
    (hnd : (nodeKeys (l1 ++ (k, w) :: l2)).Nodup)
    (hrepr : DictRepr σ A mk (l1 ++ (k, w) :: l2)) :
    ∃ σ2, dictDel fuel σ A k = Except.ok σ2 ∧
      DictRepr σ2 A mk (l1 ++ l2) ∧
      (∀ addr, ¬ NodeAddr A addr → storeGet σ2 addr = storeGet σ addr) := by
  have hdfb1 : 1 ≤ dfB w := dfB_pos w
  obtain ⟨f, rfl⟩ := Nat.exists_eq_add_of_le' (show 1 ≤ fuel by omega)
  have hfd : dfB w ≤ f := by omega
  have hf1 : 1 ≤ f := by omega
  have hf2 : 2 ≤ f := by omega
  have hmem : (k, w) ∈ l1 ++ (k, w) :: l2 := List.mem_append_right _ (by simp)
  have hkeys : nodeKeys (l1 ++ (k, w) :: l2) =
      nodeKeys l1 ++ k :: nodeKeys l2 := by
    rw [nodeKeys_append]
    rfl
  have hndk : (nodeKeys l1 ++ k :: nodeKeys l2).Nodup := by
    rw [← hkeys]
    exact hnd
  obtain ⟨hnd1, hnd2, hk1, hk2, hdisj, hndnew⟩ := nodup_middle hndk
  have hkeysnew : nodeKeys (l1 ++ l2) = nodeKeys l1 ++ nodeKeys l2 :=
    nodeKeys_append _ _
  have hndN : (nodeKeys (l1 ++ l2)).Nodup := by
    rw [hkeysnew]
    exact hndnew
  have hkmem : k ∈ nodeKeys (l1 ++ (k, w) :: l2) := by
    rw [hkeys]
    exact List.mem_append_right _ (by simp)
  have hkNnew : k ∉ nodeKeys (l1 ++ l2) := by
    rw [hkeysnew]
    intro hm
    rcases List.mem_append.mp hm with h | h
    · exact hk1 h
    · exact hk2 h
  have hpval : chainPrev none (nodeKeys (l1 ++ (k, w) :: l2)) k =
      (nodeKeys l1).getLast? := by
    rw [hkeys, chainPrev_append_right _ none hk1, chainPrev_cons_self,
        olast_none]
  have hnval : chainNext (nodeKeys (l1 ++ (k, w) :: l2)) k =
      (nodeKeys l2).head? := by
    rw [hkeys, chainNext_append_right _ hk1, chainNext_cons_self]
  have hkp : storeGet σ (kaddr A k "p") =
      some (ptrRec (nodeKeys l1).getLast?) := by
    rw [hrepr _ (nodeAddr_kaddr A k "p"), dictRecs_get_kp A mk _ k hkmem, hpval]
  have hkn : storeGet σ (kaddr A k "n") =
      some (ptrRec (nodeKeys l2).head?) := by
    rw [hrepr _ (nodeAddr_kaddr A k "n"), dictRecs_get_kn A mk _ k hkmem, hnval]
  have hchild : ReprAt σ (vaddr A k) w := reprAt_child hrepr hnd hmem
  obtain ⟨σ1, hwD, hz1, hfr1⟩ := jdataDel_full f σ (vaddr A k) w hfd hwf hchild
  have hnotP : ¬ NodeAddr (vaddr A k) (kaddr A k "p") :=
    not_nodeAddr_of_not_under (not_under_vaddr_kp A k k)
  have hnotN : ¬ NodeAddr (vaddr A k) (kaddr A k "n") :=
    not_nodeAddr_of_not_under (not_under_vaddr_kn A k k)
  have hkp1 : storeGet σ1 (kaddr A k "p") =
      some (ptrRec (nodeKeys l1).getLast?) := by
    rw [hfr1 _ hnotP, hkp]
  have hdel2 : jdataDel f σ1 (kaddr A k "p") =
      Except.ok (storeDel σ1 (kaddr A k "p")) :=
    jdataDel_scalar f σ1 _ _ hf1 hkp1 (ptrRec_ne_rmapM _) (ptrRec_ne_rlistM _)
  have hknpq : kaddr A k "p" ≠ kaddr A k "n" := fun he => by
    have := kaddr_inj.mp he
    simp at this
  have hkn2 : storeGet (storeDel σ1 (kaddr A k "p")) (kaddr A k "n") =
      some (ptrRec (nodeKeys l2).head?) := by
    rw [storeGet_del, if_neg hknpq, hfr1 _ hnotN, hkn]
  have hdel3 : jdataDel f (storeDel σ1 (kaddr A k "p")) (kaddr A k "n") =
      Except.ok (storeDel (storeDel σ1 (kaddr A k "p")) (kaddr A k "n")) :=
    jdataDel_scalar f _ _ _ hf1 hkn2 (ptrRec_ne_rmapM _) (ptrRec_ne_rlistM _)
  have hg3 : ∀ b,
      storeGet (storeDel (storeDel σ1 (kaddr A k "p")) (kaddr A k "n")) b =
      if kaddr A k "n" = b then none
      else if kaddr A k "p" = b then none
      else if NodeAddr (vaddr A k) b then none
      else storeGet σ b := by
    intro b
    rw [storeGet_del]
    by_cases h1 : kaddr A k "n" = b
    · rw [if_pos h1, if_pos h1]
    · rw [if_neg h1, if_neg h1, storeGet_del]
      by_cases h2 : kaddr A k "p" = b
      · rw [if_pos h2, if_pos h2]
      · rw [if_neg h2, if_neg h2]
        by_cases h3 : NodeAddr (vaddr A k) b
        · rw [if_pos h3]
          exact hz1 b h3
        · rw [if_neg h3]
          exact hfr1 b h3
  have hlkmem : ∀ lk, (nodeKeys l1).getLast? = some lk → lk ∈ nodeKeys l1 :=
    fun lk hh => List.mem_of_mem_getLast? (Option.mem_def.mpr hh)
  have hhkmem : ∀ hk, (nodeKeys l2).head? = some hk → hk ∈ nodeKeys l2 :=
    fun hk hh => List.mem_of_mem_head? (Option.mem_def.mpr hh)
  have hex4 : ∃ x,
      storeGet (storeDel (storeDel σ1 (kaddr A k "p")) (kaddr A k "n"))
        (nextCellAddr A (nodeKeys l1).getLast?) = some (ptrRec x) := by
    rw [hg3]
    cases hL : (nodeKeys l1).getLast? with
    | none =>
        rw [nextCellAddr_none,
            if_neg (fun he => kaddr_ne_naddr A k "n" he),
            if_neg (fun he => kaddr_ne_naddr A k "p" he),
            if_neg (not_nodeAddr_of_not_under (not_under_vaddr_naddr A k))]
        exact ⟨(nodeKeys (l1 ++ (k, w) :: l2)).head?,
          by rw [hrepr _ (nodeAddr_naddr A), dictRecs_get_n]⟩
    | some lk =>
        have hlk1 : lk ∈ nodeKeys l1 := hlkmem lk hL
        have hlkk : lk ≠ k := fun he => hk1 (by rw [← he]; exact hlk1)
        rw [nextCellAddr_some,
            if_neg (fun he => hlkk ((kaddr_inj.mp he).1.symm)),
            if_neg (fun he => by
              have := kaddr_inj.mp he
              simp at this),
            if_neg (not_nodeAddr_of_not_under (not_under_vaddr_kn A k lk))]
        refine ⟨chainNext (nodeKeys (l1 ++ (k, w) :: l2)) lk, ?_⟩
        rw [hrepr _ (nodeAddr_kaddr A lk "n"),
            dictRecs_get_kn A mk _ lk
              (by rw [hkeys]; exact List.mem_append_left _ hlk1)]
  obtain ⟨xn, hxn⟩ := hex4
  obtain ⟨σ4, hw4, hp4⟩ := jdataSetRec_spec f
    (storeDel (storeDel σ1 (kaddr A k "p")) (kaddr A k "n"))
    (nextCellAddr A (nodeKeys l1).getLast?) (ptrRec (nodeKeys l2).head?) hf2
    (Or.inr ⟨ptrRec xn, hxn, ptrRec_ne_rmapM _, ptrRec_ne_rlistM _⟩)
  have hex5 : ∃ x,
      storeGet σ4 (prevCellAddr A (nodeKeys l2).head?) = some (ptrRec x) := by
    rw [hp4, if_neg (nextCell_ne_prevCell A _ _), hg3]
    cases hH : (nodeKeys l2).head? with
    | none =>
        rw [prevCellAddr_none,
            if_neg (fun he => kaddr_ne_paddr A k "n" he),
            if_neg (fun he => kaddr_ne_paddr A k "p" he),
            if_neg (not_nodeAddr_of_not_under (not_under_vaddr_paddr A k))]
        exact ⟨(nodeKeys (l1 ++ (k, w) :: l2)).getLast?,
          by rw [hrepr _ (nodeAddr_paddr A), dictRecs_get_p]⟩
    | some hk =>
        have hhk2 : hk ∈ nodeKeys l2 := hhkmem hk hH
        have hhkk : hk ≠ k := fun he => hk2 (by rw [← he]; exact hhk2)
        rw [prevCellAddr_some,
            if_neg (fun he => by
              have := kaddr_inj.mp he
              simp at this),
            if_neg (fun he => hhkk ((kaddr_inj.mp he).1.symm)),
            if_neg (not_nodeAddr_of_not_under (not_under_vaddr_kp A k hk))]
        refine ⟨chainPrev none (nodeKeys (l1 ++ (k, w) :: l2)) hk, ?_⟩
        rw [hrepr _ (nodeAddr_kaddr A hk "p"),
            dictRecs_get_kp A mk _ hk (by
              rw [hkeys]
              exact List.mem_append_right _ (List.mem_cons_of_mem _ hhk2))]
  obtain ⟨xp, hxp⟩ := hex5
  obtain ⟨σ5, hw5, hp5⟩ := jdataSetRec_spec f σ4
    (prevCellAddr A (nodeKeys l2).head?) (ptrRec (nodeKeys l1).getLast?) hf2
    (Or.inr ⟨ptrRec xp, hxp, ptrRec_ne_rmapM _, ptrRec_ne_rlistM _⟩)
  have hsv : storeGet σ5 (saddr A) =
      some (Rec.rint ((nodeKeys (l1 ++ (k, w) :: l2)).length : Int)) := by
    rw [hp5, if_neg (prevCellAddr_ne_saddr A _), hp4,
        if_neg (nextCellAddr_ne_saddr A _), hg3,
        if_neg (fun he => kaddr_ne_saddr A k "n" he),
        if_neg (fun he => kaddr_ne_saddr A k "p" he),
        if_neg (not_nodeAddr_of_not_under (not_under_vaddr_saddr A k)),
        hrepr _ (nodeAddr_saddr A), dictRecs_get_s]
  obtain ⟨σ6, hw6, hp6⟩ := jdataSetRec_spec f σ5 (saddr A)
    (Rec.rint (((nodeKeys (l1 ++ (k, w) :: l2)).length : Int) - 1)) hf2
    (Or.inr ⟨_, hsv, fun h => Rec.noConfusion h, fun h => Rec.noConfusion h⟩)
  have hfinal : ∀ b, storeGet σ6 b =
      if saddr A = b then
        some (Rec.rint (((nodeKeys (l1 ++ (k, w) :: l2)).length : Int) - 1))
      else if prevCellAddr A (nodeKeys l2).head? = b then
        some (ptrRec (nodeKeys l1).getLast?)
      else if nextCellAddr A (nodeKeys l1).getLast? = b then
        some (ptrRec (nodeKeys l2).head?)
      else if kaddr A k "n" = b then none
      else if kaddr A k "p" = b then none
      else if NodeAddr (vaddr A k) b then none
      else storeGet σ b := by
    intro b
    rw [hp6, hp5, hp4, hg3]
  refine ⟨σ6, ?_, ?_, ?_⟩
  · have hvs : (storeGet σ (vaddr A k)).isSome = true := by
      rw [hrepr _ (under_vaddr_nodeAddr (List.prefix_refl _)),
          dictRecs_get_child A mk _ k w _ hnd hmem (List.prefix_refl _)]
      exact layout_get_root_isSome _ w
    rw [dictDel, if_pos hvs, jfetch_eq hkp, ok_bind, asPtr_ptrRec, ok_bind,
        jfetch_eq hkn, ok_bind, asPtr_ptrRec, ok_bind, hwD, ok_bind, hdel2,
        ok_bind, hdel3, ok_bind, hw4, ok_bind, hw5, ok_bind, jfetch_eq hsv,
        ok_bind, asSize_rint, ok_bind, hw6]
  · intro addr hna
    rcases nodeAddr_classify A addr hna with hcase | hcase | hcase | hcase |
      hcase | hcase | hcase | hcase
    · rw [hcase]
      rw [hfinal A, if_neg (fun he => root_ne_saddr A he.symm),
          if_neg (prevCellAddr_ne_root A _), if_neg (nextCellAddr_ne_root A _),
          if_neg (fun he => root_ne_kaddr A k "n" he.symm),
          if_neg (fun he => root_ne_kaddr A k "p" he.symm),
          if_neg (not_nodeAddr_of_not_under (not_under_vaddr_root A k)),
          hrepr A (nodeAddr_root A), dictRecs_get_root, dictRecs_get_root]
    · rw [hcase]
      rw [hfinal (paddr A), if_neg (saddr_ne_paddr A), dictRecs_get_p]
      cases hH : (nodeKeys l2).head? with
      | none =>
          have hl2e : nodeKeys l2 = [] := List.head?_eq_none_iff.mp hH
          rw [if_pos (show prevCellAddr A none = paddr A from rfl),
              hkeysnew, hl2e, List.append_nil]
      | some hk =>
          have hl2ne : nodeKeys l2 ≠ [] := fun he => by
            rw [he] at hH
            simp at hH
          rw [prevCellAddr_some,
              if_neg (fun he => kaddr_ne_paddr A hk "p" he),
              if_neg (nextCellAddr_ne_paddr A _),
              if_neg (fun he => kaddr_ne_paddr A k "n" he),
              if_neg (fun he => kaddr_ne_paddr A k "p" he),
              if_neg (not_nodeAddr_of_not_under (not_under_vaddr_paddr A k)),
              hrepr _ (nodeAddr_paddr A), dictRecs_get_p]
          have h1 : (nodeKeys l1 ++ k :: nodeKeys l2).getLast? =
              (nodeKeys l2).getLast? := by
            rw [List.getLast?_append_of_ne_nil _ (List.cons_ne_nil k _),
                show k :: nodeKeys l2 = [k] ++ nodeKeys l2 from rfl,
                List.getLast?_append_of_ne_nil _ hl2ne]
          have h2 : (nodeKeys l1 ++ nodeKeys l2).getLast? =
              (nodeKeys l2).getLast? :=
            List.getLast?_append_of_ne_nil _ hl2ne
          rw [hkeys, hkeysnew, h1, h2]
    · rw [hcase]
      rw [hfinal (naddr A), if_neg (saddr_ne_naddr A),
          if_neg (prevCellAddr_ne_naddr A _), dictRecs_get_n]
      cases hL : (nodeKeys l1).getLast? with
      | none =>
          have hl1e : nodeKeys l1 = [] := List.getLast?_eq_none_iff.mp hL
          rw [if_pos (show nextCellAddr A none = naddr A from rfl),
              hkeysnew, hl1e, List.nil_append]
      | some lk =>
          have hl1ne : nodeKeys l1 ≠ [] := fun he => by
            rw [he] at hL
            simp at hL
          rw [nextCellAddr_some,
              if_neg (fun he => kaddr_ne_naddr A lk "n" he),
              if_neg (fun he => kaddr_ne_naddr A k "n" he),
              if_neg (fun he => kaddr_ne_naddr A k "p" he),
              if_neg (not_nodeAddr_of_not_under (not_under_vaddr_naddr A k)),
              hrepr _ (nodeAddr_naddr A), dictRecs_get_n, hkeys, hkeysnew,
              head?_append_ne _ hl1ne, head?_append_ne _ hl1ne]
    · rw [hcase]
      rw [hfinal (saddr A), if_pos (show saddr A = saddr A from rfl),
          dictRecs_get_s]
      have hlen : ((nodeKeys (l1 ++ (k, w) :: l2)).length : Int) - 1 =
          ((nodeKeys (l1 ++ l2)).length : Int) := by
        rw [hkeys, hkeysnew]
        simp only [List.length_append, List.length_cons]
        push_cast
        ring
      rw [hlen]
    · obtain ⟨k2, rfl⟩ := hcase
      rw [hfinal (kaddr A k2 "p"),
          if_neg (fun he => kaddr_ne_saddr A k2 "p" he.symm)]
      by_cases hhead : (nodeKeys l2).head? = some k2
      · have hk2K2 : k2 ∈ nodeKeys l2 := hhkmem _ hhead
        have hk2notK1 : k2 ∉ nodeKeys l1 := fun hm => hdisj k2 hm hk2K2
        have hk2inN : k2 ∈ nodeKeys (l1 ++ l2) := by
          rw [hkeysnew]
          exact List.mem_append_right _ hk2K2
        rw [hhead,
            if_pos (show prevCellAddr A (some k2) = kaddr A k2 "p" from rfl),
            dictRecs_get_kp A mk (l1 ++ l2) k2 hk2inN]
        have hch : chainPrev none (nodeKeys (l1 ++ l2)) k2 =
            (nodeKeys l1).getLast? := by
          rw [hkeysnew, chainPrev_append_right _ none hk2notK1, olast_none]
          cases hK2c : nodeKeys l2 with
          | nil =>
              rw [hK2c] at hk2K2
              cases hk2K2
          | cons hh tt =>
              have hhk2 : hh = k2 := by
                rw [hK2c] at hhead
                simpa using hhead
              subst hhk2
              rw [chainPrev_cons_self]
        rw [hch]
      · rw [if_neg (fun he => hhead (prevCellAddr_eq_kaddr he).1),
            if_neg (nextCellAddr_ne_kp A _ k2),
            if_neg (fun he => by
              have := kaddr_inj.mp he
              simp at this)]
        by_cases hkk : k2 = k
        · subst hkk
          rw [if_pos (show kaddr A k2 "p" = kaddr A k2 "p" from rfl),
              dictRecs_get_kaddr_fresh A mk (l1 ++ l2) k2 "p" hkNnew]
        · rw [if_neg (fun he => hkk ((kaddr_inj.mp he).1.symm)),
              if_neg (not_nodeAddr_of_not_under (not_under_vaddr_kp A k k2))]
          by_cases hin : k2 ∈ nodeKeys (l1 ++ l2)
          · have hin2 : k2 ∈ nodeKeys l1 ++ nodeKeys l2 := by
              rw [← hkeysnew]
              exact hin
            have hinF : k2 ∈ nodeKeys (l1 ++ (k, w) :: l2) := by
              rw [hkeys]
              rcases List.mem_append.mp hin2 with h | h
              · exact List.mem_append_left _ h
              · exact List.mem_append_right _ (List.mem_cons_of_mem _ h)
            rw [hrepr _ (nodeAddr_kaddr A k2 "p"),
                dictRecs_get_kp A mk _ k2 hinF,
                dictRecs_get_kp A mk (l1 ++ l2) k2 hin]
            rcases List.mem_append.mp hin2 with hin1 | hinr
            · rw [hkeys, hkeysnew, chainPrev_append _ none hin1,
                  chainPrev_append _ none hin1]
            · have hnotK1 : k2 ∉ nodeKeys l1 := fun hm => hdisj _ hm hinr
              rw [hkeys, hkeysnew, chainPrev_append_right _ none hnotK1,
                  chainPrev_append_right _ none hnotK1,
                  chainPrev_cons_ne _ _ (fun he => hkk he.symm)]
              cases hK2c : nodeKeys l2 with
              | nil =>
                  rw [hK2c] at hinr
                  cases hinr
              | cons hh tt =>
                  have hne2 : hh ≠ k2 := fun he => hhead (by rw [hK2c]; simp [he])
                  rw [chainPrev_cons_ne _ _ hne2, chainPrev_cons_ne _ _ hne2]
          · rw [hrepr _ (nodeAddr_kaddr A k2 "p"),
                dictRecs_get_kaddr_fresh A mk _ k2 "p" (by
                  rw [hkeys]
                  intro hm
                  rcases List.mem_append.mp hm with h | h
                  · exact hin (by
                      rw [hkeysnew]
                      exact List.mem_append_left _ h)
                  · rcases List.mem_cons.mp h with he | h2
                    · exact hkk he
                    · exact hin (by
                        rw [hkeysnew]
                        exact List.mem_append_right _ h2)),
                dictRecs_get_kaddr_fresh A mk (l1 ++ l2) k2 "p" hin]
    · obtain ⟨k2, rfl⟩ := hcase
      rw [hfinal (kaddr A k2 "n"),
          if_neg (fun he => kaddr_ne_saddr A k2 "n" he.symm),
          if_neg (prevCellAddr_ne_kn A _ k2)]
      by_cases hlast : (nodeKeys l1).getLast? = some k2
      · have hk2K1 : k2 ∈ nodeKeys l1 := hlkmem _ hlast
        have hk2inN : k2 ∈ nodeKeys (l1 ++ l2) := by
          rw [hkeysnew]
          exact List.mem_append_left _ hk2K1
        rw [hlast,
            if_pos (show nextCellAddr A (some k2) = kaddr A k2 "n" from rfl),
            dictRecs_get_kn A mk (l1 ++ l2) k2 hk2inN]
        have hch : chainNext (nodeKeys (l1 ++ l2)) k2 = (nodeKeys l2).head? := by
          rw [hkeysnew, chainNext_append _ hk2K1, chainNext_getLast hnd1 hlast]
        rw [hch]
      · rw [if_neg (fun he => hlast (nextCellAddr_eq_kaddr he).1)]
        by_cases hkk : k2 = k
        · subst hkk
          rw [if_pos (show kaddr A k2 "n" = kaddr A k2 "n" from rfl),
              dictRecs_get_kaddr_fresh A mk (l1 ++ l2) k2 "n" hkNnew]
        · rw [if_neg (fun he => hkk ((kaddr_inj.mp he).1.symm)),
              if_neg (fun he => by
                have := kaddr_inj.mp he
                simp at this),
              if_neg (not_nodeAddr_of_not_under (not_under_vaddr_kn A k k2))]
          by_cases hin : k2 ∈ nodeKeys (l1 ++ l2)
          · have hin2 : k2 ∈ nodeKeys l1 ++ nodeKeys l2 := by
              rw [← hkeysnew]
              exact hin
            have hinF : k2 ∈ nodeKeys (l1 ++ (k, w) :: l2) := by
              rw [hkeys]
              rcases List.mem_append.mp hin2 with h | h
              · exact List.mem_append_left _ h
              · exact List.mem_append_right _ (List.mem_cons_of_mem _ h)
            rw [hrepr _ (nodeAddr_kaddr A k2 "n"),
                dictRecs_get_kn A mk _ k2 hinF,
                dictRecs_get_kn A mk (l1 ++ l2) k2 hin]
            rcases List.mem_append.mp hin2 with hin1 | hinr
            · cases hcn : chainNext (nodeKeys l1) k2 with
              | none => exact absurd (chainNext_none_last hin1 hcn) hlast
              | some x =>
                  rw [hkeys, hkeysnew, chainNext_append _ hin1,
                      chainNext_append _ hin1, hcn]
            · have hnotK1 : k2 ∉ nodeKeys l1 := fun hm => hdisj _ hm hinr
              rw [hkeys, hkeysnew, chainNext_append_right _ hnotK1,
                  chainNext_append_right _ hnotK1,
                  chainNext_cons_ne _ (fun he => hkk he.symm)]
          · rw [hrepr _ (nodeAddr_kaddr A k2 "n"),
                dictRecs_get_kaddr_fresh A mk _ k2 "n" (by
                  rw [hkeys]
                  intro hm
                  rcases List.mem_append.mp hm with h | h
                  · exact hin (by
                      rw [hkeysnew]
                      exact List.mem_append_left _ h)
                  · rcases List.mem_cons.mp h with he | h2
                    · exact hkk he
                    · exact hin (by
                        rw [hkeysnew]
                        exact List.mem_append_right _ h2)),
                dictRecs_get_kaddr_fresh A mk (l1 ++ l2) k2 "n" hin]
    · obtain ⟨k2, hunder⟩ := hcase
      by_cases hkk : k2 = k
      · subst hkk
        rw [hfinal addr,
            if_neg (fun he => not_under_vaddr_saddr A k2 (by
              rw [he]
              exact hunder)),
            if_neg (fun he => prevCellAddr_not_under (by
              rw [he]
              exact hunder)),
            if_neg (fun he => nextCellAddr_not_under (by
              rw [he]
              exact hunder)),
            if_neg (fun he => not_under_vaddr_kn A k2 k2 (by
              rw [he]
              exact hunder)),
            if_neg (fun he => not_under_vaddr_kp A k2 k2 (by
              rw [he]
              exact hunder))]
        by_cases hN : NodeAddr (vaddr A k2) addr
        · rw [if_pos hN,
              dictRecs_get_under_fresh A mk (l1 ++ l2) k2 addr hkNnew hunder]
        · rw [if_neg hN, hrepr addr (under_vaddr_nodeAddr hunder),
              dictRecs_get_child A mk _ k2 w addr hnd hmem hunder,
              layout_get_none_garb (vaddr A k2) w addr hN,
              dictRecs_get_under_fresh A mk (l1 ++ l2) k2 addr hkNnew hunder]
      · have hnotu : ¬ vaddr A k <+: addr :=
          fun hc => hkk (vaddr_collision hunder hc)
        rw [hfinal addr,
            if_neg (fun he => not_under_vaddr_saddr A k2 (by
              rw [he]
              exact hunder)),
            if_neg (fun he => prevCellAddr_not_under (by
              rw [he]
              exact hunder)),
            if_neg (fun he => nextCellAddr_not_under (by
              rw [he]
              exact hunder)),
            if_neg (fun he => not_under_vaddr_kn A k2 k (by
              rw [he]
              exact hunder)),
            if_neg (fun he => not_under_vaddr_kp A k2 k (by
              rw [he]
              exact hunder)),
            if_neg (not_nodeAddr_of_not_under hnotu)]
        by_cases hin : k2 ∈ nodeKeys (l1 ++ l2)
        · obtain ⟨v2, hv2⟩ := mem_nodeKeys.mp hin
          have hv2F : (k2, v2) ∈ l1 ++ (k, w) :: l2 := by
            rcases List.mem_append.mp hv2 with h | h
            · exact List.mem_append_left _ h
            · exact List.mem_append_right _ (List.mem_cons_of_mem _ h)
          rw [hrepr addr (under_vaddr_nodeAddr hunder),
              dictRecs_get_child A mk _ k2 v2 addr hnd hv2F hunder,
              dictRecs_get_child A mk (l1 ++ l2) k2 v2 addr hndN hv2 hunder]
        · rw [hrepr addr (under_vaddr_nodeAddr hunder),
              dictRecs_get_under_fresh A mk _ k2 addr (by
                rw [hkeys]
                intro hm
                rcases List.mem_append.mp hm with h | h
                · exact hin (by
                    rw [hkeysnew]
                    exact List.mem_append_left _ h)
                · rcases List.mem_cons.mp h with he | h2
                  · exact hkk he
                  · exact hin (by
                      rw [hkeysnew]
                      exact List.mem_append_right _ h2)) hunder,
              dictRecs_get_under_fresh A mk (l1 ++ l2) k2 addr hin hunder]
    · have hgarb := hcase
      obtain ⟨⟨hga, hgp, hgn, hgs⟩, hgk⟩ := hcase
      have hgprev : prevCellAddr A (nodeKeys l2).head? ≠ addr := by
        cases hH : (nodeKeys l2).head? with
        | none => exact fun he => hgp he.symm
        | some hk => exact fun he => (hgk hk).1 he.symm
      have hgnext : nextCellAddr A (nodeKeys l1).getLast? ≠ addr := by
        cases hL : (nodeKeys l1).getLast? with
        | none => exact fun he => hgn he.symm
        | some lk => exact fun he => (hgk lk).2.1 he.symm
      rw [hfinal addr, if_neg (fun he => hgs he.symm), if_neg hgprev,
          if_neg hgnext, if_neg (fun he => (hgk k).2.1 he.symm),
          if_neg (fun he => (hgk k).1 he.symm),
          if_neg (not_nodeAddr_of_not_under (hgk k).2.2),
          hrepr addr hna, dictRecs_get_garb A mk _ addr hgarb,
          dictRecs_get_garb A mk (l1 ++ l2) addr hgarb]
  · intro addr hna
    rw [hfinal addr, if_neg (fun he => hna (by rw [← he]; exact nodeAddr_saddr A)),
        if_neg (fun he => hna (by rw [← he]; exact prevCellAddr_nodeAddr A _)),
        if_neg (fun he => hna (by rw [← he]; exact nextCellAddr_nodeAddr A _)),
        if_neg (fun he => hna (by rw [← he]; exact nodeAddr_kaddr A k "n")),
        if_neg (fun he => hna (by rw [← he]; exact nodeAddr_kaddr A k "p")),
        if_neg (fun hc => hna (nodeAddr_child hc))]
termination_by (jsize w, 1)
decreasing_by
  all_goals simp_wf
  · exact Prod.Lex.right _ (by omega)

end

/-! ## Assignment over an existing value (the destroy-then-write path) -/

theorem layout_get_root (B : Addr) (v : JValue) :
    storeGet (layout B v) B = some (recOfScalar v) := by
  cases v with
  | obj l => simp [layout, storeGet, recOfScalar]
  | arr xs => simp [layout, storeGet, recOfScalar]
  | null => simp [layout, storeGet, recOfScalar]
  | bool b => simp [layout, storeGet, recOfScalar]
  | num n => simp [layout, storeGet, recOfScalar]
  | str t => simp [layout, storeGet, recOfScalar]

/-- The overwrite guard commutes with running the rest of the assignment
from the post-destroy store. -/
theorem jdataSetV_switch (fuel : Nat) (σ σ3 : Store) (B : Addr) (v : JValue)
    (hpre : preDel fuel σ B = Except.ok σ3)
    (hpre2 : preDel fuel σ3 B = Except.ok σ3) :
    jdataSetV fuel σ B v = jdataSetV fuel σ3 B v := by
  cases v
  all_goals simp only [jdataSetV]
  all_goals rw [hpre, ok_bind, hpre2, ok_bind]

/-- JData.__setitem__ over a node currently holding w: the old subtree is
destroyed, the new value is laid out exactly, and nothing else changes. -/
theorem jdataSetV_over (fuel : Nat) (σ : Store) (B : Addr) (v w : JValue)
    (hf : 3 ≤ fuel) (hfw : dfB w ≤ fuel) (hwf : wfB v = true)
    (hwfw : wfB w = true) (hrepr : ReprAt σ B w) :
    ∃ σ2, jdataSetV fuel σ B v = Except.ok σ2 ∧ ReprAt σ2 B v ∧
      (∀ addr, ¬ NodeAddr B addr → storeGet σ2 addr = storeGet σ addr) := by
  obtain ⟨σ3, hwD, hz3, hfr3⟩ := jdataDel_full fuel σ B w hfw hwfw hrepr
  have hsome : (storeGet σ B).isSome = true := by
    rw [hrepr B (nodeAddr_root B), layout_get_root]
    rfl
  have hpre : preDel fuel σ B = Except.ok σ3 := by
    rw [preDel, if_pos hsome, hwD]
  have hnone3 : storeGet σ3 B = none := hz3 B (nodeAddr_root B)
  have hpre2 : preDel fuel σ3 B = Except.ok σ3 := by
    rw [preDel, hnone3]
    rfl
  obtain ⟨σ2, hw2, hr2, hfr2⟩ := jdataSetV_fresh fuel σ3 B v hf hwf hz3
  refine ⟨σ2, ?_, hr2, ?_⟩
  · rw [jdataSetV_switch fuel σ σ3 B v hpre hpre2, hw2]
  · intro addr hna
    rw [hfr2 addr hna, hfr3 addr hna]

/-- Replacing the value of one entry leaves every record outside that
entry's child subtree unchanged in the canonical layout. -/
theorem dictRecs_replace_other (A : Addr) (mk : Rec) (l1 l2 : List (String × JValue))
    (k : String) (w v : JValue) (addr : Addr)
    (hnd : (nodeKeys (l1 ++ (k, w) :: l2)).Nodup)
    (hna : NodeAddr A addr) (hnu : ¬ vaddr A k <+: addr) :
    storeGet ((A, mk) :: dictRecs A (l1 ++ (k, v) :: l2)) addr =
      storeGet ((A, mk) :: dictRecs A (l1 ++ (k, w) :: l2)) addr := by
  have hkeq : nodeKeys (l1 ++ (k, v) :: l2) = nodeKeys (l1 ++ (k, w) :: l2) := by
    rw [nodeKeys_append, nodeKeys_append]
    rfl
  have hndv : (nodeKeys (l1 ++ (k, v) :: l2)).Nodup := by
    rw [hkeq]
    exact hnd
  rcases nodeAddr_classify A addr hna with hc | hc | hc | hc | hc | hc | hc | hc
  · rw [hc, dictRecs_get_root, dictRecs_get_root]
  · rw [hc, dictRecs_get_p, dictRecs_get_p, hkeq]
  · rw [hc, dictRecs_get_n, dictRecs_get_n, hkeq]
  · rw [hc, dictRecs_get_s, dictRecs_get_s, hkeq]
  · obtain ⟨k2, rfl⟩ := hc
    by_cases hin : k2 ∈ nodeKeys (l1 ++ (k, w) :: l2)
    · rw [dictRecs_get_kp A mk _ k2 (by rw [hkeq]; exact hin),
          dictRecs_get_kp A mk _ k2 hin, hkeq]
    · rw [dictRecs_get_kaddr_fresh A mk _ k2 "p" (by rw [hkeq]; exact hin),
          dictRecs_get_kaddr_fresh A mk _ k2 "p" hin]
  · obtain ⟨k2, rfl⟩ := hc
    by_cases hin : k2 ∈ nodeKeys (l1 ++ (k, w) :: l2)
    · rw [dictRecs_get_kn A mk _ k2 (by rw [hkeq]; exact hin),
          dictRecs_get_kn A mk _ k2 hin, hkeq]
    · rw [dictRecs_get_kaddr_fresh A mk _ k2 "n" (by rw [hkeq]; exact hin),
          dictRecs_get_kaddr_fresh A mk _ k2 "n" hin]
  · obtain ⟨k2, hunder⟩ := hc
    have hkk : k2 ≠ k := fun he => hnu (by rw [← he]; exact hunder)
    by_cases hin : k2 ∈ nodeKeys (l1 ++ (k, w) :: l2)
    · obtain ⟨v2, hv2⟩ := mem_nodeKeys.mp hin
      have hsplit : (k2, v2) ∈ l1 ∨ (k2, v2) ∈ l2 := by
        rcases List.mem_append.mp hv2 with h | h
        · exact Or.inl h
        · rcases List.mem_cons.mp h with he | h2
          · exact absurd (congrArg Prod.fst he) hkk
          · exact Or.inr h2
      have hv2v : (k2, v2) ∈ l1 ++ (k, v) :: l2 := by
        rcases hsplit with h | h
        · exact List.mem_append_left _ h
        · exact List.mem_append_right _ (List.mem_cons_of_mem _ h)
      rw [dictRecs_get_child A mk _ k2 v2 addr hndv hv2v hunder,
          dictRecs_get_child A mk _ k2 v2 addr hnd hv2 hunder]
    · rw [dictRecs_get_under_fresh A mk _ k2 addr (by rw [hkeq]; exact hin) hunder,
          dictRecs_get_under_fresh A mk _ k2 addr hin hunder]
  · rw [dictRecs_get_garb A mk _ addr hc, dictRecs_get_garb A mk _ addr hc]

/-- JDict.__setitem__ with an already-present key replaces the entry's
value in place, preserving the key order. -/
theorem dictPutCore_over (fuel : Nat) (σ : Store) (A : Addr) (mk : Rec)
    (k : String) (w v : JValue) (l1 l2 : List (String × JValue))
    (hf : 3 ≤ fuel) (hfw : dfB w ≤ fuel) (hwf : wfB v = true)
    (hwfw : wfB w = true)
    (hnd : (nodeKeys (l1 ++ (k, w) :: l2)).Nodup)
    (hrepr : DictRepr σ A mk (l1 ++ (k, w) :: l2)) :
    ∃ σ2, dictPutCore fuel σ A k v = Except.ok σ2 ∧
      DictRepr σ2 A mk (l1 ++ (k, v) :: l2) ∧
      (∀ addr, ¬ NodeAddr A addr → storeGet σ2 addr = storeGet σ addr) := by
  have hmem : (k, w) ∈ l1 ++ (k, w) :: l2 := List.mem_append_right _ (by simp)
  have hmemv : (k, v) ∈ l1 ++ (k, v) :: l2 := List.mem_append_right _ (by simp)
  have hndv : (nodeKeys (l1 ++ (k, v) :: l2)).Nodup := by
    rw [show nodeKeys (l1 ++ (k, v) :: l2) = nodeKeys (l1 ++ (k, w) :: l2) from by
      rw [nodeKeys_append, nodeKeys_append]; rfl]
    exact hnd
  have hchild : ReprAt σ (vaddr A k) w := reprAt_child hrepr hnd hmem
  have hsome : (storeGet σ (vaddr A k)).isSome = true := by
    rw [hchild _ (nodeAddr_root (vaddr A k)), layout_get_root]
    rfl
  obtain ⟨σ2, hw2, hr2, hfr2⟩ := jdataSetV_over fuel σ (vaddr A k) v w hf hfw
    hwf hwfw hchild
  refine ⟨σ2, ?_, ?_, ?_⟩
  · rw [dictPutCore, if_pos hsome, ok_bind]
    exact hw2
  · intro addr hna
    by_cases hunder : vaddr A k <+: addr
    · by_cases hN : NodeAddr (vaddr A k) addr
      · rw [hr2 addr hN, dictRecs_get_child A mk _ k v addr hndv hmemv hunder]
      · rw [hfr2 addr hN, hrepr addr hna,
            dictRecs_get_child A mk _ k w addr hnd hmem hunder,
            layout_get_none_garb (vaddr A k) w addr hN,
            dictRecs_get_child A mk _ k v addr hndv hmemv hunder,
            layout_get_none_garb (vaddr A k) v addr hN]
    · have hN : ¬ NodeAddr (vaddr A k) addr := not_nodeAddr_of_not_under hunder
      rw [hfr2 addr hN, hrepr addr hna,
          dictRecs_replace_other A mk l1 l2 k w v addr hnd hna hunder]
  · intro addr hna
    exact (hfr2 addr (fun hc => hna (nodeAddr_child hc))).trans rfl

/-! ## Specs of the remaining map operations -/

/-- JDict.clear on a represented node empties the entry list. -/
theorem clearNode_spec (fuel : Nat) (σ : Store) (A : Addr) (mk : Rec)
    (l : List (String × JValue)) (hf : dlB l + 1 ≤ fuel)
    (hnd : (nodeKeys l).Nodup) (hwfE : wfEntries l = true)
    (hrepr : DictRepr σ A mk l) :
    ∃ σ2, clearNode fuel σ A = Except.ok σ2 ∧ DictRepr σ2 A mk [] ∧
      (∀ addr, ¬ NodeAddr A addr → storeGet σ2 addr = storeGet σ addr) := by
  have hd1 := dlB_pos l
  obtain ⟨f, rfl⟩ := Nat.exists_eq_add_of_le' (show 1 ≤ fuel by omega)
  obtain ⟨σ2, hw2, hr2, hfr2⟩ := clearLoop_spec f σ A mk l (by omega) hnd hwfE hrepr
  refine ⟨σ2, ?_, hr2, hfr2⟩
  rw [clearNode, jfetch_eq (show storeGet σ (naddr A) =
        some (ptrRec (nodeKeys l).head?) from by
      rw [hrepr _ (nodeAddr_naddr A), dictRecs_get_n]), ok_bind,
    asPtr_ptrRec, ok_bind, hw2]

/-- JDict.pop on a present key returns the exported snapshot of the value
and deletes the entry. -/
theorem dictPop_spec (fuel efuel : Nat) (σ : Store) (A : Addr) (mk : Rec)
    (k : String) (w : JValue) (l1 l2 : List (String × JValue))
    (dflt : Option JValue)
    (hf : dfB w + 2 ≤ fuel) (hef : efuelB w ≤ efuel) (hwf : wfB w = true)
    (hnd : (nodeKeys (l1 ++ (k, w) :: l2)).Nodup)
    (hrepr : DictRepr σ A mk (l1 ++ (k, w) :: l2)) :
    ∃ σ2, dictPop fuel efuel σ A k dflt = Except.ok (w, σ2) ∧
      DictRepr σ2 A mk (l1 ++ l2) ∧
      (∀ addr, ¬ NodeAddr A addr → storeGet σ2 addr = storeGet σ addr) := by
  have hmem : (k, w) ∈ l1 ++ (k, w) :: l2 := List.mem_append_right _ (by simp)
  have hchild : ReprAt σ (vaddr A k) w := reprAt_child hrepr hnd hmem
  have hroot : storeGet σ (vaddr A k) = some (recOfScalar w) := by
    rw [hchild _ (nodeAddr_root _), layout_get_root]
  have hsome : (storeGet σ (vaddr A k)).isSome = true := by
    rw [hroot]
    rfl
  obtain ⟨σ2, hw2, hr2, hfr2⟩ := dictDel_spec fuel σ A mk k w l1 l2 hf hwf hnd hrepr
  refine ⟨σ2, ?_, hr2, hfr2⟩
  unfold dictPop
  rw [if_pos hsome, jdataGet, hroot]
  cases w with
  | obj l =>
      show (do
        let v ← fetchedExport efuel σ (Fetched.dictH (vaddr A k))
        let σ1 ← dictDel fuel σ A k
        Except.ok (v, σ1) : Except Err (JValue × Store)) = _
      rw [show fetchedExport efuel σ (Fetched.dictH (vaddr A k)) =
            exportVal efuel σ (vaddr A k) from rfl,
          exportVal_layout efuel (JValue.obj l) σ (vaddr A k) hwf hchild hef,
          ok_bind, hw2, ok_bind]
  | arr xs =>
      show (do
        let v ← fetchedExport efuel σ (Fetched.listH (vaddr A k))
        let σ1 ← dictDel fuel σ A k
        Except.ok (v, σ1) : Except Err (JValue × Store)) = _
      rw [show fetchedExport efuel σ (Fetched.listH (vaddr A k)) =
            exportVal efuel σ (vaddr A k) from rfl,
          exportVal_layout efuel (JValue.arr xs) σ (vaddr A k) hwf hchild hef,
          ok_bind, hw2, ok_bind]
  | null =>
      show (do
        let v ← fetchedExport efuel σ (Fetched.scal Rec.rnull)
        let σ1 ← dictDel fuel σ A k
        Except.ok (v, σ1) : Except Err (JValue × Store)) = _
      rw [show fetchedExport efuel σ (Fetched.scal Rec.rnull) =
            Except.ok JValue.null from rfl, ok_bind, hw2, ok_bind]
  | bool b =>
      show (do
        let v ← fetchedExport efuel σ (Fetched.scal (Rec.rbool b))
        let σ1 ← dictDel fuel σ A k
        Except.ok (v, σ1) : Except Err (JValue × Store)) = _
      rw [show fetchedExport efuel σ (Fetched.scal (Rec.rbool b)) =
            Except.ok (JValue.bool b) from rfl, ok_bind, hw2, ok_bind]
  | num n =>
      show (do
        let v ← fetchedExport efuel σ (Fetched.scal (Rec.rint n))
        let σ1 ← dictDel fuel σ A k
        Except.ok (v, σ1) : Except Err (JValue × Store)) = _
      rw [show fetchedExport efuel σ (Fetched.scal (Rec.rint n)) =
            Except.ok (JValue.num n) from rfl, ok_bind, hw2, ok_bind]
  | str t =>
      show (do
        let v ← fetchedExport efuel σ (Fetched.scal (Rec.rstr t))
        let σ1 ← dictDel fuel σ A k
        Except.ok (v, σ1) : Except Err (JValue × Store)) = _
      rw [show fetchedExport efuel σ (Fetched.scal (Rec.rstr t)) =
            Except.ok (JValue.str t) from rfl, ok_bind, hw2, ok_bind]

/-- JDict.pop on an absent key returns the default or raises KeyError. -/
theorem dictPop_absent (fuel efuel : Nat) (σ : Store) (A : Addr) (mk : Rec)
    (k : String) (l : List (String × JValue)) (dflt : Option JValue)
    (hnk : k ∉ nodeKeys l) (hrepr : DictRepr σ A mk l) :
    dictPop fuel efuel σ A k dflt =
      match dflt with
      | some d => Except.ok (d, σ)
      | none => Except.error (Err.keyError k) := by
  have hnone : storeGet σ (vaddr A k) = none := by
    rw [vaddr_def, hrepr _ (nodeAddr_kaddr A k "v"),
        dictRecs_get_kaddr_fresh A mk l k "v" hnk]
  unfold dictPop
  rw [hnone]
  rfl

/-! ## Entry-list effect of each map mutation -/

/-- Replace the value at the first occurrence of k, or append a new entry. -/
def putEntry : List (String × JValue) → String → JValue → List (String × JValue)
  | [], k, v => [(k, v)]
  | (k2, w) :: rest, k, v =>
      if k2 = k then (k, v) :: rest else (k2, w) :: putEntry rest k v

/-- Remove the first occurrence of k. -/
def dropEntry : List (String × JValue) → String → List (String × JValue)
  | [], _ => []
  | (k2, w) :: rest, k => if k2 = k then rest else (k2, w) :: dropEntry rest k

theorem exists_middle_of_mem {l : List (String × JValue)} {k : String}
    (hk : k ∈ nodeKeys l) :
    ∃ l1 w l2, l = l1 ++ (k, w) :: l2 ∧ k ∉ nodeKeys l1 := by
  induction l with
  | nil => cases hk
  | cons p rest ih =>
      obtain ⟨k2, w2⟩ := p
      by_cases he : k2 = k
      · subst he
        exact ⟨[], w2, rest, rfl, by simp [nodeKeys]⟩
      · have hk2 : k ∈ nodeKeys rest := by
          have hm : k ∈ k2 :: nodeKeys rest := hk
          exact (List.mem_cons.mp hm).resolve_left (fun h2 => he h2.symm)
        obtain ⟨l1, w, l2, heq, hnk⟩ := ih hk2
        refine ⟨(k2, w2) :: l1, w, l2, by rw [List.cons_append, ← heq], ?_⟩
        intro hm
        have hm2 : k ∈ k2 :: nodeKeys l1 := hm
        rcases List.mem_cons.mp hm2 with h2 | h2
        · exact he h2.symm
        · exact hnk h2

theorem putEntry_of_middle (l1 l2 : List (String × JValue)) (k : String)
    (w v : JValue) (hnk : k ∉ nodeKeys l1) :
    putEntry (l1 ++ (k, w) :: l2) k v = l1 ++ (k, v) :: l2 := by
  induction l1 with
  | nil =>
      rw [List.nil_append, List.nil_append, putEntry, if_pos rfl]
  | cons p rest ih =>
      obtain ⟨k2, w2⟩ := p
      have hne : k2 ≠ k := fun he => hnk (by rw [he]; simp [nodeKeys])
      rw [List.cons_append, putEntry, if_neg hne,
          ih (fun hm => hnk (List.mem_cons_of_mem _ hm)), List.cons_append]

theorem putEntry_fresh (l : List (String × JValue)) (k : String) (v : JValue)
    (hnk : k ∉ nodeKeys l) : putEntry l k v = l ++ [(k, v)] := by
  induction l with
  | nil => rfl
  | cons p rest ih =>
      obtain ⟨k2, w2⟩ := p
      have hne : k2 ≠ k := fun he => hnk (by rw [he]; simp [nodeKeys])
      rw [putEntry, if_neg hne, ih (fun hm => hnk (List.mem_cons_of_mem _ hm)),
          List.cons_append]

theorem dropEntry_of_middle (l1 l2 : List (String × JValue)) (k : String)
    (w : JValue) (hnk : k ∉ nodeKeys l1) :
    dropEntry (l1 ++ (k, w) :: l2) k = l1 ++ l2 := by
  induction l1 with
  | nil => rw [List.nil_append, dropEntry, if_pos rfl, List.nil_append]
  | cons p rest ih =>
      obtain ⟨k2, w2⟩ := p
      have hne : k2 ≠ k := fun he => hnk (by rw [he]; simp [nodeKeys])
      rw [List.cons_append, dropEntry, if_neg hne,
          ih (fun hm => hnk (List.mem_cons_of_mem _ hm)), List.cons_append]

theorem wfEntries_append (a b : List (String × JValue)) :
    wfEntries (a ++ b) = (wfEntries a && wfEntries b) := by
  induction a with
  | nil =>
      rw [List.nil_append,
          show wfEntries ([] : List (String × JValue)) = true from by rw [wfEntries],
          Bool.true_and]
  | cons p rest ih =>
      obtain ⟨k2, w2⟩ := p
      rw [List.cons_append]
      rw [show wfEntries ((k2, w2) :: (rest ++ b)) =
        (wfB w2 && wfEntries (rest ++ b)) from by rw [wfEntries]]
      rw [show wfEntries ((k2, w2) :: rest) = (wfB w2 && wfEntries rest) from by
        rw [wfEntries]]
      rw [ih, Bool.and_assoc]

theorem wfEntries_cons (k : String) (v : JValue) (l : List (String × JValue)) :
    wfEntries ((k, v) :: l) = (wfB v && wfEntries l) := by
  rw [wfEntries]

/-! ## Fuel-bound bookkeeping for the mutation ops -/

theorem dlB_cons (k : String) (v : JValue) (l : List (String × JValue)) :
    dlB ((k, v) :: l) = dfB v + dlB l + 3 := by
  rw [dlB]

theorem eefB_cons (k : String) (v : JValue) (l : List (String × JValue)) :
    eefB ((k, v) :: l) = efuelB v + eefB l := by
  rw [eefB]

theorem dlB_append_plus (a b : List (String × JValue)) :
    dlB (a ++ b) + 1 = dlB a + dlB b := by
  induction a with
  | nil =>
      rw [List.nil_append,
          show dlB ([] : List (String × JValue)) = 1 from by rw [dlB]]
      omega
  | cons p rest ih =>
      obtain ⟨k2, w2⟩ := p
      rw [List.cons_append, dlB_cons, dlB_cons]
      omega

theorem eefB_append (a b : List (String × JValue)) :
    eefB (a ++ b) = eefB a + eefB b := by
  induction a with
  | nil =>
      rw [List.nil_append,
          show eefB ([] : List (String × JValue)) = 0 from by rw [eefB]]
      omega
  | cons p rest ih =>
      obtain ⟨k2, w2⟩ := p
      rw [List.cons_append, eefB_cons, eefB_cons]
      omega

theorem dfB_mem {p : String × JValue} {l : List (String × JValue)} (h : p ∈ l) :
    dfB p.2 ≤ dlB l := by
  induction l with
  | nil => cases h
  | cons q rest ih =>
      obtain ⟨k2, v2⟩ := q
      rw [dlB_cons]
      rcases List.mem_cons.mp h with rfl | hr
      · have he : ((k2, v2) : String × JValue).2 = v2 := rfl
        rw [he]
        omega
      · have := ih hr
        omega

theorem dlB_putEntry_le (l : List (String × JValue)) (k : String) (v : JValue) :
    dlB (putEntry l k v) ≤ dlB l + dfB v + 3 := by
  induction l with
  | nil =>
      rw [show putEntry [] k v = [(k, v)] from rfl, dlB_cons]
      omega
  | cons p rest ih =>
      obtain ⟨k2, w2⟩ := p
      rw [putEntry]
      by_cases he : k2 = k
      · rw [if_pos he, dlB_cons, dlB_cons]
        have := dfB_pos w2
        omega
      · rw [if_neg he, dlB_cons, dlB_cons]
        omega

theorem eefB_putEntry_le (l : List (String × JValue)) (k : String) (v : JValue) :
    eefB (putEntry l k v) ≤ eefB l + efuelB v := by
  induction l with
  | nil =>
      rw [show putEntry [] k v = [(k, v)] from rfl, eefB_cons]
      rw [show eefB ([] : List (String × JValue)) = 0 from by rw [eefB]]
      omega
  | cons p rest ih =>
      obtain ⟨k2, w2⟩ := p
      rw [putEntry]
      by_cases he : k2 = k
      · rw [if_pos he, eefB_cons, eefB_cons]
        have := efuelB_pos w2
        omega
      · rw [if_neg he, eefB_cons, eefB_cons]
        omega

theorem length_putEntry (l : List (String × JValue)) (k : String) (v : JValue) :
    (putEntry l k v).length = if k ∈ nodeKeys l then l.length else l.length + 1 := by
  induction l with
  | nil => simp [putEntry, nodeKeys]
  | cons p rest ih =>
      obtain ⟨k2, w2⟩ := p
      rw [putEntry]
      by_cases he : k2 = k
      · subst he
        rw [if_pos rfl]
        simp [nodeKeys]
      · rw [if_neg he, List.length_cons, ih]
        by_cases hm : k ∈ nodeKeys rest
        · rw [if_pos hm,
              if_pos (show k ∈ nodeKeys ((k2, w2) :: rest) from
                List.mem_cons_of_mem _ hm),
              List.length_cons]
        · rw [if_neg hm,
              if_neg (show k ∉ nodeKeys ((k2, w2) :: rest) from by
                intro hc
                rcases List.mem_cons.mp hc with h | h
                · exact he h.symm
                · exact hm h),
              List.length_cons]

theorem nodeKeys_putEntry (l : List (String × JValue)) (k : String) (v : JValue) :
    nodeKeys (putEntry l k v) =
      if k ∈ nodeKeys l then nodeKeys l else nodeKeys l ++ [k] := by
  induction l with
  | nil => simp [putEntry, nodeKeys]
  | cons p rest ih =>
      obtain ⟨k2, w2⟩ := p
      rw [putEntry]
      by_cases he : k2 = k
      · subst he
        rw [if_pos rfl]
        have : k2 ∈ nodeKeys ((k2, w2) :: rest) := by simp [nodeKeys]
        rw [if_pos this]
        rfl
      · rw [if_neg he]
        have hck : nodeKeys ((k2, w2) :: putEntry rest k v) =
            k2 :: nodeKeys (putEntry rest k v) := rfl
        have hck2 : nodeKeys ((k2, w2) :: rest) = k2 :: nodeKeys rest := rfl
        rw [hck, ih, hck2]
        by_cases hm : k ∈ nodeKeys rest
        · rw [if_pos hm,
              if_pos (show k ∈ k2 :: nodeKeys rest from List.mem_cons_of_mem _ hm)]
        · rw [if_neg hm,
              if_neg (show k ∉ k2 :: nodeKeys rest from by
                intro hc
                rcases List.mem_cons.mp hc with h | h
                · exact he h.symm
                · exact hm h),
              List.cons_append]

theorem wfEntries_putEntry (l : List (String × JValue)) (k : String) (v : JValue)
    (hwl : wfEntries l = true) (hwv : wfB v = true) :
    wfEntries (putEntry l k v) = true := by
  induction l with
  | nil =>
      rw [show putEntry [] k v = [(k, v)] from rfl, wfEntries_cons, hwv, hwl]
      rfl
  | cons p rest ih =>
      obtain ⟨k2, w2⟩ := p
      rw [wfEntries_cons, Bool.and_eq_true] at hwl
      rw [putEntry]
      by_cases he : k2 = k
      · rw [if_pos he, wfEntries_cons, hwv, hwl.2]
        rfl
      · rw [if_neg he, wfEntries_cons, hwl.1, ih hwl.2]
        rfl

theorem nodup_putEntry (l : List (String × JValue)) (k : String) (v : JValue)
    (hnd : (nodeKeys l).Nodup) : (nodeKeys (putEntry l k v)).Nodup := by
  rw [nodeKeys_putEntry]
  by_cases hm : k ∈ nodeKeys l
  · rw [if_pos hm]
    exact hnd
  · rw [if_neg hm]
    simp [List.nodup_append, hnd, hm]

/-- The entry list after a sequence of puts. -/
def specPuts : List (String × JValue) → List (String × JValue) → List (String × JValue)
  | l, [] => l
  | l, (k, v) :: rest => specPuts (putEntry l k v) rest

theorem dlB_specPuts_le (kvs : List (String × JValue)) :
    ∀ l, dlB (specPuts l kvs) ≤ dlB l + dlB kvs := by
  induction kvs with
  | nil =>
      intro l
      rw [show specPuts l [] = l from rfl,
          show dlB ([] : List (String × JValue)) = 1 from by rw [dlB]]
      omega
  | cons p rest ih =>
      obtain ⟨k, v⟩ := p
      intro l
      rw [show specPuts l ((k, v) :: rest) = specPuts (putEntry l k v) rest from rfl,
          dlB_cons]
      have h1 := ih (putEntry l k v)
      have h2 := dlB_putEntry_le l k v
      omega

theorem eefB_specPuts_le (kvs : List (String × JValue)) :
    ∀ l, eefB (specPuts l kvs) ≤ eefB l + eefB kvs := by
  induction kvs with
  | nil =>
      intro l
      rw [show specPuts l [] = l from rfl,
          show eefB ([] : List (String × JValue)) = 0 from by rw [eefB]]
      omega
  | cons p rest ih =>
      obtain ⟨k, v⟩ := p
      intro l
      rw [show specPuts l ((k, v) :: rest) = specPuts (putEntry l k v) rest from rfl,
          eefB_cons]
      have h1 := ih (putEntry l k v)
      have h2 := eefB_putEntry_le l k v
      omega

theorem jdataGet_ok_of_some {σ : Store} {a : Addr} {r : Rec}
    (h : storeGet σ a = some r) : ∃ f, jdataGet σ a = Except.ok f := by
  unfold jdataGet
  rw [h]
  cases r with
  | rnull => exact ⟨_, rfl⟩
  | rbool b => exact ⟨_, rfl⟩
  | rint n => exact ⟨_, rfl⟩
  | rstr t => exact ⟨_, rfl⟩
  | rmapM => exact ⟨_, rfl⟩
  | rlistM => exact ⟨_, rfl⟩

theorem wf_middle {l1 l2 : List (String × JValue)} {k : String} {w : JValue}
    (h : wfEntries (l1 ++ (k, w) :: l2) = true) :
    wfEntries l1 = true ∧ wfB w = true ∧ wfEntries l2 = true ∧
      wfEntries (l1 ++ l2) = true := by
  rw [wfEntries_append, wfEntries_cons] at h
  rw [Bool.and_eq_true, Bool.and_eq_true] at h
  refine ⟨h.1, h.2.1, h.2.2, ?_⟩
  rw [wfEntries_append, h.1, h.2.2]
  rfl

theorem nodup_keys_middle {l1 l2 : List (String × JValue)} {k : String}
    {w : JValue} (hnd : (nodeKeys (l1 ++ (k, w) :: l2)).Nodup) :
    (nodeKeys (l1 ++ l2)).Nodup := by
  have h2 : (nodeKeys l1 ++ k :: nodeKeys l2).Nodup := by
    rw [show nodeKeys (l1 ++ (k, w) :: l2) = nodeKeys l1 ++ k :: nodeKeys l2
      from by rw [nodeKeys_append]; rfl] at hnd
    exact hnd
  rw [nodeKeys_append]
  exact (nodup_middle h2).2.2.2.2.2

/-- JDict.update (a run of JDict.__setitem__ per pair) over any represented
node: each put replaces in place or appends. -/
theorem dictPutList_any (fuel : Nat) (kvs : List (String × JValue)) (σ : Store)
    (A : Addr) (mk : Rec) (l : List (String × JValue))
    (hf : dlB l + dlB kvs + 3 ≤ fuel)
    (hwfl : wfEntries l = true) (hwfk : wfEntries kvs = true)
    (hnd : (nodeKeys l).Nodup) (hrepr : DictRepr σ A mk l) :
    ∃ σ2, dictPutList fuel σ A kvs = Except.ok σ2 ∧
      DictRepr σ2 A mk (specPuts l kvs) ∧
      wfEntries (specPuts l kvs) = true ∧ (nodeKeys (specPuts l kvs)).Nodup ∧
      (∀ addr, ¬ NodeAddr A addr → storeGet σ2 addr = storeGet σ addr) := by
  induction kvs generalizing σ l with
  | nil => exact ⟨σ, by simp [dictPutList], hrepr, hwfl, hnd, fun _ _ => rfl⟩
  | cons p rest ih =>
      obtain ⟨k, v⟩ := p
      have hwfp : wfB v = true ∧ wfEntries rest = true := by
        rw [wfEntries_cons, Bool.and_eq_true] at hwfk
        exact hwfk
      have hkv1 := dlB_pos rest
      have hput : ∃ σ1, dictPutCore fuel σ A k v = Except.ok σ1 ∧
          DictRepr σ1 A mk (putEntry l k v) ∧
          (∀ addr, ¬ NodeAddr A addr → storeGet σ1 addr = storeGet σ addr) := by
        by_cases hm : k ∈ nodeKeys l
        · obtain ⟨l1, w, l2, heq, hnk1⟩ := exists_middle_of_mem hm
          subst heq
          have hwm := wf_middle hwfl
          have hfw : dfB w ≤ fuel := by
            have h1 : dfB (((k, w) : String × JValue).2) ≤
                dlB (l1 ++ (k, w) :: l2) :=
              dfB_mem (List.mem_append_right _ (by simp))
            have h2 : ((k, w) : String × JValue).2 = w := rfl
            rw [h2] at h1
            omega
          obtain ⟨σ1, hw1, hr1, hfr1⟩ := dictPutCore_over fuel σ A mk k w v l1 l2
            (by omega) hfw hwfp.1 hwm.2.1 hnd hrepr
          rw [putEntry_of_middle l1 l2 k w v hnk1]
          exact ⟨σ1, hw1, hr1, hfr1⟩
        · obtain ⟨σ1, hw1, hr1, hfr1⟩ := dictPutCore_fresh fuel v σ A mk l k
            (by omega) hwfp.1 hnd hm hrepr
          rw [putEntry_fresh l k v hm]
          exact ⟨σ1, hw1, hr1, hfr1⟩
      obtain ⟨σ1, hw1, hr1, hfr1⟩ := hput
      have hwf1 : wfEntries (putEntry l k v) = true :=
        wfEntries_putEntry l k v hwfl hwfp.1
      have hnd1 : (nodeKeys (putEntry l k v)).Nodup := nodup_putEntry l k v hnd
      have hfr : dlB (putEntry l k v) + dlB rest + 3 ≤ fuel := by
        have h1 := dlB_putEntry_le l k v
        rw [dlB_cons] at hf
        omega
      obtain ⟨σ2, hw2, hr2, hwf2, hnd2, hfr2⟩ := ih σ1 (putEntry l k v) hfr
        hwf1 hwfp.2 hnd1 hr1
      refine ⟨σ2, ?_, hr2, hwf2, hnd2, ?_⟩
      · rw [dictPutList, hw1, ok_bind, hw2]
      · intro addr hna
        rw [hfr2 addr hna, hfr1 addr hna]

/-! ## Effect and fuel accounting of one mutation -/

/-- The entries an op may introduce (for fuel accounting). -/
def newEnts : MapOp → List (String × JValue)
  | MapOp.put k v => [(k, v)]
  | MapOp.setdefault k v => [(k, v)]
  | MapOp.update kvs => kvs
  | _ => []

/-- Well-formedness of the native arguments of an op. -/
def opWF : MapOp → Bool
  | MapOp.put _ v => wfB v
  | MapOp.setdefault _ v => wfB v
  | MapOp.update kvs => wfEntries kvs
  | _ => true

/-- The entry list after one completed op (none: the op raises). -/
def specOp (l : List (String × JValue)) : MapOp → Option (List (String × JValue))
  | MapOp.put k v => some (putEntry l k v)
  | MapOp.drop k => if k ∈ nodeKeys l then some (dropEntry l k) else none
  | MapOp.clear => some []
  | MapOp.pop k dflt =>
      if k ∈ nodeKeys l then some (dropEntry l k)
      else if dflt.isSome then some l else none
  | MapOp.popitem =>
      match l with
      | [] => none
      | _ :: rest => some rest
  | MapOp.setdefault k v =>
      if k ∈ nodeKeys l then some l else some (l ++ [(k, v)])
  | MapOp.update kvs => some (specPuts l kvs)

/-- One completed mutation matches its entry-list effect and keeps the
node exactly represented. -/
theorem applyOp_spec (fuel efuel : Nat) (σ : Store) (A : Addr) (mk : Rec)
    (op : MapOp) (l l2 : List (String × JValue))
    (hfu : dlB l + dlB (newEnts op) + 9 ≤ fuel)
    (hef : eefB l + 2 ≤ efuel)
    (hwfl : wfEntries l = true) (hnd : (nodeKeys l).Nodup)
    (hwfop : opWF op = true) (hspec : specOp l op = some l2)
    (hrepr : DictRepr σ A mk l) :
    ∃ σ2, applyOp fuel efuel σ A op = Except.ok σ2 ∧ DictRepr σ2 A mk l2 ∧
      wfEntries l2 = true ∧ (nodeKeys l2).Nodup ∧
      (∀ addr, ¬ NodeAddr A addr → storeGet σ2 addr = storeGet σ addr) := by
  match op with
  | MapOp.put k v =>
      have hl2 : l2 = putEntry l k v := by
        rw [show specOp l (MapOp.put k v) = some (putEntry l k v) from rfl] at hspec
        exact (Option.some.inj hspec).symm
      subst hl2
      have hwv : wfB v = true := hwfop
      have hput : ∃ σ1, dictPutCore fuel σ A k v = Except.ok σ1 ∧
          DictRepr σ1 A mk (putEntry l k v) ∧
          (∀ addr, ¬ NodeAddr A addr → storeGet σ1 addr = storeGet σ addr) := by
        by_cases hm : k ∈ nodeKeys l
        · obtain ⟨l1, w, l2x, heq, hnk1⟩ := exists_middle_of_mem hm
          subst heq
          have hwm := wf_middle hwfl
          have hfw : dfB w ≤ fuel := by
            have h1 : dfB (((k, w) : String × JValue).2) ≤
                dlB (l1 ++ (k, w) :: l2x) :=
              dfB_mem (List.mem_append_right _ (by simp))
            have h2 : ((k, w) : String × JValue).2 = w := rfl
            rw [h2] at h1
            omega
          obtain ⟨σ1, hw1, hr1, hfr1⟩ := dictPutCore_over fuel σ A mk k w v l1 l2x
            (by omega) hfw hwv hwm.2.1 hnd hrepr
          rw [putEntry_of_middle l1 l2x k w v hnk1]
          exact ⟨σ1, hw1, hr1, hfr1⟩
        · obtain ⟨σ1, hw1, hr1, hfr1⟩ := dictPutCore_fresh fuel v σ A mk l k
            (by omega) hwv hnd hm hrepr
          rw [putEntry_fresh l k v hm]
          exact ⟨σ1, hw1, hr1, hfr1⟩
      obtain ⟨σ1, hw1, hr1, hfr1⟩ := hput
      exact ⟨σ1, hw1, hr1, wfEntries_putEntry l k v hwfl hwv,
        nodup_putEntry l k v hnd, hfr1⟩
  | MapOp.drop k =>
      have hspec2 := hspec
      rw [show specOp l (MapOp.drop k) =
        (if k ∈ nodeKeys l then some (dropEntry l k) else none) from rfl] at hspec2
      by_cases hm : k ∈ nodeKeys l
      · rw [if_pos hm] at hspec2
        have hl2 : l2 = dropEntry l k := (Option.some.inj hspec2).symm
        subst hl2
        obtain ⟨l1, w, l2x, heq, hnk1⟩ := exists_middle_of_mem hm
        subst heq
        have hwm := wf_middle hwfl
        have hfw : dfB w + 2 ≤ fuel := by
          have h1 : dfB (((k, w) : String × JValue).2) ≤
              dlB (l1 ++ (k, w) :: l2x) :=
            dfB_mem (List.mem_append_right _ (by simp))
          have h2 : ((k, w) : String × JValue).2 = w := rfl
          rw [h2] at h1
          omega
        obtain ⟨σ1, hw1, hr1, hfr1⟩ := dictDel_spec fuel σ A mk k w l1 l2x
          hfw hwm.2.1 hnd hrepr
        rw [dropEntry_of_middle l1 l2x k w hnk1]
        exact ⟨σ1, hw1, hr1, hwm.2.2.2, nodup_keys_middle hnd, hfr1⟩
      · rw [if_neg hm] at hspec2
        cases hspec2
  | MapOp.clear =>
      have hl2 : l2 = [] := by
        rw [show specOp l MapOp.clear = some [] from rfl] at hspec
        exact (Option.some.inj hspec).symm
      subst hl2
      obtain ⟨σ1, hw1, hr1, hfr1⟩ := clearNode_spec fuel σ A mk l (by omega)
        hnd hwfl hrepr
      exact ⟨σ1, hw1, hr1, by rw [wfEntries], by simp [nodeKeys], hfr1⟩
  | MapOp.pop k dflt =>
      have hspec2 := hspec
      rw [show specOp l (MapOp.pop k dflt) =
        (if k ∈ nodeKeys l then some (dropEntry l k)
         else if dflt.isSome then some l else none) from rfl] at hspec2
      by_cases hm : k ∈ nodeKeys l
      · rw [if_pos hm] at hspec2
        have hl2 : l2 = dropEntry l k := (Option.some.inj hspec2).symm
        subst hl2
        obtain ⟨l1, w, l2x, heq, hnk1⟩ := exists_middle_of_mem hm
        subst heq
        have hwm := wf_middle hwfl
        have hfw : dfB w + 2 ≤ fuel := by
          have h1 : dfB (((k, w) : String × JValue).2) ≤
              dlB (l1 ++ (k, w) :: l2x) :=
            dfB_mem (List.mem_append_right _ (by simp))
          have h2 : ((k, w) : String × JValue).2 = w := rfl
          rw [h2] at h1
          omega
        have hew : efuelB w ≤ efuel := by
          have h1 : efuelB (((k, w) : String × JValue).2) ≤
              eefB (l1 ++ (k, w) :: l2x) :=
            eefB_mem (List.mem_append_right _ (by simp))
          have h2 : ((k, w) : String × JValue).2 = w := rfl
          rw [h2] at h1
          omega
        obtain ⟨σ1, hw1, hr1, hfr1⟩ := dictPop_spec fuel efuel σ A mk k w l1 l2x
          dflt hfw hew hwm.2.1 hnd hrepr
        refine ⟨σ1, ?_, by rw [dropEntry_of_middle l1 l2x k w hnk1]; exact hr1,
          by rw [dropEntry_of_middle l1 l2x k w hnk1]; exact hwm.2.2.2,
          by rw [dropEntry_of_middle l1 l2x k w hnk1]; exact nodup_keys_middle hnd,
          hfr1⟩
        show (do
          let p ← dictPop fuel efuel σ A k dflt
          Except.ok p.2 : Except Err Store) = _
        rw [hw1, ok_bind]
      · rw [if_neg hm] at hspec2
        cases hdf : dflt with
        | none =>
            rw [hdf] at hspec2
            simp at hspec2
        | some d =>
            rw [hdf] at hspec2
            simp at hspec2
            have hl2 : l2 = l := hspec2.symm
            rw [hl2]
            refine ⟨σ, ?_, hrepr, hwfl, hnd, fun _ _ => rfl⟩
            show (do
              let p ← dictPop fuel efuel σ A k (some d)
              Except.ok p.2 : Except Err Store) = _
            rw [dictPop_absent fuel efuel σ A mk k l (some d) hm hrepr]
            rfl
  | MapOp.popitem =>
      match l with
      | [] =>
          rw [show specOp [] MapOp.popitem = none from rfl] at hspec
          cases hspec
      | (k, w) :: rest =>
          have hl2 : l2 = rest := by
            rw [show specOp ((k, w) :: rest) MapOp.popitem = some rest from rfl]
              at hspec
            exact (Option.some.inj hspec).symm
          rw [hl2]
          have hkeysc : nodeKeys ((k, w) :: rest) = k :: nodeKeys rest := rfl
          have hndc : k ∉ nodeKeys rest ∧ (nodeKeys rest).Nodup := by
            have h2 := hnd
            rw [hkeysc, List.nodup_cons] at h2
            exact h2
          have hwm : wfB w = true ∧ wfEntries rest = true := by
            rw [wfEntries_cons, Bool.and_eq_true] at hwfl
            exact hwfl
          have hlen : readLen σ A =
              Except.ok (((nodeKeys ((k, w) :: rest)).length : Nat) : Int) := by
            rw [readLen, jfetch_eq (by
              rw [hrepr _ (nodeAddr_saddr A), dictRecs_get_s]), ok_bind, asSize_rint]
          have hn0 : ¬ (((nodeKeys ((k, w) :: rest)).length : Nat) : Int) = 0 := by
            rw [hkeysc, List.length_cons]
            push_cast
            omega
          have hhead : storeGet σ (naddr A) = some (ptrRec (some k)) := by
            rw [hrepr _ (nodeAddr_naddr A), dictRecs_get_n, hkeysc]
            rfl
          have hkn : storeGet σ (kaddr A k "n") =
              some (ptrRec (nodeKeys rest).head?) := by
            rw [hrepr _ (nodeAddr_kaddr A k "n"),
                dictRecs_get_kn A mk _ k (by rw [hkeysc]; simp), hkeysc,
                chainNext_cons_self]
          have hfw : dfB w + 2 ≤ fuel := by
            rw [dlB_cons] at hfu
            omega
          have hew : efuelB w ≤ efuel := by
            rw [eefB_cons] at hef
            omega
          obtain ⟨σ1, hw1, hr1, hfr1⟩ := dictPop_spec fuel efuel σ A mk k w []
            rest none hfw hew hwm.1 hnd hrepr
          refine ⟨σ1, ?_, hr1, hwm.2, hndc.2, hfr1⟩
          show (do
            let p ← dictPopitem fuel efuel σ A
            Except.ok p.2 : Except Err Store) = _
          rw [dictPopitem, hlen, ok_bind, if_neg hn0, jfetch_eq hhead, ok_bind,
              asPtr_ptrRec, ok_bind]
          show (do
            let p ← (do
              let nr ← jfetch σ (kaddr A k "n")
              let _ ← asPtr nr
              let p ← dictPop fuel efuel σ A k none
              Except.ok ((k, p.1), p.2) :
                Except Err ((String × JValue) × Store))
            Except.ok p.2 : Except Err Store) = _
          rw [jfetch_eq hkn, ok_bind, asPtr_ptrRec, ok_bind, hw1, ok_bind]
          rfl
  | MapOp.setdefault k v =>
      have hwv : wfB v = true := hwfop
      have hspec2 := hspec
      rw [show specOp l (MapOp.setdefault k v) =
        (if k ∈ nodeKeys l then some l else some (l ++ [(k, v)])) from rfl]
        at hspec2
      by_cases hm : k ∈ nodeKeys l
      · rw [if_pos hm] at hspec2
        have hl2 : l2 = l := (Option.some.inj hspec2).symm
        rw [hl2]
        obtain ⟨l1, w, l2x, heq, hnk1⟩ := exists_middle_of_mem hm
        have hroot : storeGet σ (vaddr A k) = some (recOfScalar w) := by
          have hrepr2 : DictRepr σ A mk (l1 ++ (k, w) :: l2x) := by
            rw [← heq]
            exact hrepr
          have hnd2 : (nodeKeys (l1 ++ (k, w) :: l2x)).Nodup := by
            rw [← heq]
            exact hnd
          rw [(reprAt_child hrepr2 hnd2
              (List.mem_append_right _ (List.mem_cons_self _ _)))
              _ (nodeAddr_root _),
            layout_get_root]
        have hcont : dictContains σ A k = true := by
          rw [dictContains, hroot]
          rfl
        obtain ⟨f, hfeq⟩ := jdataGet_ok_of_some hroot
        refine ⟨σ, ?_, hrepr, hwfl, hnd, fun _ _ => rfl⟩
        rw [show applyOp fuel efuel σ A (MapOp.setdefault k v) =
          dictSetdefault fuel σ A k v from rfl, dictSetdefault, hcont]
        show (do
          let σ1 ← Except.ok σ
          let _ ← jdataGet σ1 (vaddr A k)
          Except.ok σ1 : Except Err Store) = _
        rw [ok_bind, hfeq, ok_bind]
      · rw [if_neg hm] at hspec2
        have hl2 : l2 = l ++ [(k, v)] := (Option.some.inj hspec2).symm
        subst hl2
        have hcont : dictContains σ A k = false := by
          rw [dictContains, vaddr_def, hrepr _ (nodeAddr_kaddr A k "v"),
              dictRecs_get_kaddr_fresh A mk l k "v" hm]
          rfl
        obtain ⟨σ1, hw1, hr1, hfr1⟩ := dictPutCore_fresh fuel v σ A mk l k
          (by omega) hwv hnd hm hrepr
        have hndcat : (nodeKeys (l ++ [(k, v)])).Nodup := by
          rw [nodeKeys_concat]
          simp [List.nodup_append, hnd, hm]
        have hroot1 : storeGet σ1 (vaddr A k) = some (recOfScalar v) := by
          rw [(reprAt_child hr1 hndcat
              (List.mem_append_right _ (List.mem_cons_self _ _)))
              _ (nodeAddr_root _),
            layout_get_root]
        obtain ⟨f, hfeq⟩ := jdataGet_ok_of_some hroot1
        refine ⟨σ1, ?_, hr1, ?_, ?_, hfr1⟩
        · rw [show applyOp fuel efuel σ A (MapOp.setdefault k v) =
            dictSetdefault fuel σ A k v from rfl, dictSetdefault, hcont]
          show (do
            let σ1 ← dictPutCore fuel σ A k v
            let _ ← jdataGet σ1 (vaddr A k)
            Except.ok σ1 : Except Err Store) = _
          rw [hw1, ok_bind, hfeq, ok_bind]
        · rw [wfEntries_append, hwfl, wfEntries_cons, hwv,
              show wfEntries ([] : List (String × JValue)) = true from by
                rw [wfEntries]]
          rfl
        · exact hndcat
  | MapOp.update kvs =>
      have hl2 : l2 = specPuts l kvs := by
        rw [show specOp l (MapOp.update kvs) = some (specPuts l kvs) from rfl]
          at hspec
        exact (Option.some.inj hspec).symm
      subst hl2
      have hne : newEnts (MapOp.update kvs) = kvs := rfl
      rw [hne] at hfu
      obtain ⟨σ1, hw1, hr1, hwf1, hnd1, hfr1⟩ := dictPutList_any fuel kvs σ A mk l
        (by omega) hwfl hwfop hnd hrepr
      exact ⟨σ1, hw1, hr1, hwf1, hnd1, hfr1⟩

/-- The entry list after a sequence of completed ops. -/
def specFold : List (String × JValue) → List MapOp → Option (List (String × JValue))
  | l, [] => some l
  | l, op :: rest =>
      match specOp l op with
      | some l2 => specFold l2 rest
      | none => none

/-- A sufficient fuel budget for a sequence of ops. -/
def opsB : List (String × JValue) → List MapOp → Nat
  | _, [] => 0
  | l, op :: rest =>
      dlB l + dlB (newEnts op) + 9 +
        (match specOp l op with
         | some l2 => opsB l2 rest
         | none => 0)

/-- A sufficient export-fuel budget for a sequence of ops. -/
def opsEB : List (String × JValue) → List MapOp → Nat
  | _, [] => 0
  | l, op :: rest =>
      eefB l + eefB (newEnts op) + 2 +
        (match specOp l op with
         | some l2 => opsEB l2 rest
         | none => 0)

/-- A sequence of completed mutations folds its entry-list effects and
keeps the node exactly represented. -/
theorem applyOps_spec (fuel efuel : Nat) (σ : Store) (A : Addr) (mk : Rec)
    (ops : List MapOp) (l lfin : List (String × JValue))
    (hfu : opsB l ops ≤ fuel) (hef : opsEB l ops ≤ efuel)
    (hwfl : wfEntries l = true) (hnd : (nodeKeys l).Nodup)
    (hwfops : ∀ op ∈ ops, opWF op = true)
    (hspec : specFold l ops = some lfin)
    (hrepr : DictRepr σ A mk l) :
    ∃ σ2, applyOps fuel efuel σ A ops = Except.ok σ2 ∧ DictRepr σ2 A mk lfin ∧
      wfEntries lfin = true ∧ (nodeKeys lfin).Nodup ∧
      (∀ addr, ¬ NodeAddr A addr → storeGet σ2 addr = storeGet σ addr) := by
  induction ops generalizing σ l with
  | nil =>
      have hl : lfin = l := by
        rw [show specFold l [] = some l from rfl] at hspec
        exact (Option.some.inj hspec).symm
      rw [hl]
      exact ⟨σ, rfl, hrepr, hwfl, hnd, fun _ _ => rfl⟩
  | cons op rest ih =>
      cases hso : specOp l op with
      | none =>
          rw [show specFold l (op :: rest) =
            (match specOp l op with
             | some l2 => specFold l2 rest
             | none => none) from rfl, hso] at hspec
          cases hspec
      | some l2 =>
          rw [show specFold l (op :: rest) =
            (match specOp l op with
             | some l2 => specFold l2 rest
             | none => none) from rfl, hso] at hspec
          have hfu2 : dlB l + dlB (newEnts op) + 9 + opsB l2 rest ≤ fuel := by
            rw [show opsB l (op :: rest) = dlB l + dlB (newEnts op) + 9 +
              (match specOp l op with
               | some l2 => opsB l2 rest
               | none => 0) from rfl, hso] at hfu
            exact hfu
          have hef2 : eefB l + eefB (newEnts op) + 2 + opsEB l2 rest ≤ efuel := by
            rw [show opsEB l (op :: rest) = eefB l + eefB (newEnts op) + 2 +
              (match specOp l op with
               | some l2 => opsEB l2 rest
               | none => 0) from rfl, hso] at hef
            exact hef
          obtain ⟨σ1, hw1, hr1, hwf1, hnd1, hfr1⟩ := applyOp_spec fuel efuel σ A mk
            op l l2 (by omega) (by omega) hwfl hnd (hwfops op (by simp)) hso hrepr
          obtain ⟨σ2, hw2, hr2, hwf2, hnd2, hfr2⟩ := ih σ1 l2 (by omega) (by omega)
            hwf1 hnd1 (fun o ho => hwfops o (List.mem_cons_of_mem _ ho)) hspec hr1
          refine ⟨σ2, ?_, hr2, hwf2, hnd2, ?_⟩
          · rw [show applyOps fuel efuel σ A (op :: rest) = (do
              let σx ← applyOp fuel efuel σ A op
              applyOps fuel efuel σx A rest : Except Err Store) from rfl,
              hw1, ok_bind, hw2]
          · intro addr hna
            rw [hfr2 addr hna, hfr1 addr hna]

/-! ## The session: init, open, export -/

theorem jdataSetV_str (fuel : Nat) (σ : Store) (a : Addr) (t : String) :
    jdataSetV fuel σ a (JValue.str t) = (do
      let σ1 ← preDel fuel σ a
      Except.ok (storeSet σ1 a (Rec.rstr t)) : Except Err Store) := by
  simp only [jdataSetV]
  rfl

theorem jdataSetV_num (fuel : Nat) (σ : Store) (a : Addr) (n : Int) :
    jdataSetV fuel σ a (JValue.num n) = (do
      let σ1 ← preDel fuel σ a
      Except.ok (storeSet σ1 a (Rec.rint n)) : Except Err Store) := by
  simp only [jdataSetV]
  rfl

/-- A value a JDict or JList handle wraps (the isinstance checks of the
module). -/
def isContainer : JValue → Bool
  | JValue.obj _ => true
  | JValue.arr _ => true
  | _ => false

/-- JSOP.init writes the three metadata records and lays out the root
value at address (). -/
theorem jsopInit_spec (fuel : Nat) (v : JValue) (hf : 3 ≤ fuel)
    (hwf : wfB v = true) :
    ∃ σ, jsopInit fuel v = Except.ok σ ∧ ReprAt σ [] v ∧
      storeGet σ ["m", "format-name"] = some (Rec.rstr "JSOP") ∧
      storeGet σ ["m", "format-version-major"] = some (Rec.rint 1) ∧
      storeGet σ ["m", "format-version-minor"] = some (Rec.rint 0) := by
  have h1 : jdataSetV fuel [] ["m", "format-name"] (JValue.str "JSOP") =
      Except.ok [(["m", "format-name"], Rec.rstr "JSOP")] := by
    rw [jdataSetV_str,
        show preDel fuel [] ["m", "format-name"] = Except.ok [] from by
          simp [preDel, storeGet], ok_bind]
    rfl
  have h2 : jdataSetV fuel [(["m", "format-name"], Rec.rstr "JSOP")]
      ["m", "format-version-major"] (JValue.num 1) =
      Except.ok [(["m", "format-version-major"], Rec.rint 1),
        (["m", "format-name"], Rec.rstr "JSOP")] := by
    rw [jdataSetV_num,
        show preDel fuel [(["m", "format-name"], Rec.rstr "JSOP")]
          ["m", "format-version-major"] =
          Except.ok [(["m", "format-name"], Rec.rstr "JSOP")] from by
            simp [preDel, storeGet], ok_bind]
    rfl
  have h3 : jdataSetV fuel
      [(["m", "format-version-major"], Rec.rint 1),
       (["m", "format-name"], Rec.rstr "JSOP")]
      ["m", "format-version-minor"] (JValue.num 0) =
      Except.ok [(["m", "format-version-minor"], Rec.rint 0),
        (["m", "format-version-major"], Rec.rint 1),
        (["m", "format-name"], Rec.rstr "JSOP")] := by
    rw [jdataSetV_num,
        show preDel fuel
          [(["m", "format-version-major"], Rec.rint 1),
           (["m", "format-name"], Rec.rstr "JSOP")]
          ["m", "format-version-minor"] =
          Except.ok [(["m", "format-version-major"], Rec.rint 1),
            (["m", "format-name"], Rec.rstr "JSOP")] from by
            simp [preDel, storeGet], ok_bind]
    rfl
  have hempty : ∀ addr, NodeAddr [] addr →
      storeGet [(["m", "format-version-minor"], Rec.rint 0),
        (["m", "format-version-major"], Rec.rint 1),
        (["m", "format-name"], Rec.rstr "JSOP")] addr = none := by
    intro addr hna
    rcases hna with rfl | rfl | rfl | rfl | h5
    · rfl
    · rfl
    · rfl
    · rfl
    · obtain ⟨t, rfl⟩ := h5
      simp [storeGet]
  obtain ⟨σ4, hw4, hr4, hfr4⟩ := jdataSetV_fresh fuel
    [(["m", "format-version-minor"], Rec.rint 0),
     (["m", "format-version-major"], Rec.rint 1),
     (["m", "format-name"], Rec.rstr "JSOP")] [] v hf hwf hempty
  refine ⟨σ4, ?_, hr4, ?_, ?_, ?_⟩
  · rw [jsopInit, h1, ok_bind, h2, ok_bind, h3, ok_bind, hw4]
  · rw [hfr4 _ (by decide)]
    simp [storeGet]
  · rw [hfr4 _ (by decide)]
    simp [storeGet]
  · rw [hfr4 _ (by decide)]
    rfl

/-- JSOP.__enter__ with valid metadata hands back the root of the data
space. -/
theorem jsopOpen_valid (σ : Store)
    (hfn : storeGet σ ["m", "format-name"] = some (Rec.rstr "JSOP"))
    (hma : storeGet σ ["m", "format-version-major"] = some (Rec.rint 1))
    (hmi : storeGet σ ["m", "format-version-minor"] = some (Rec.rint 0)) :
    jsopOpen σ = jdataGet σ [] := by
  have h1 : jdataGet σ ["m", "format-name"] =
      Except.ok (Fetched.scal (Rec.rstr "JSOP")) := by
    unfold jdataGet
    rw [hfn]
  have h2 : jdataGet σ ["m", "format-version-major"] =
      Except.ok (Fetched.scal (Rec.rint 1)) := by
    unfold jdataGet
    rw [hma]
  have h3 : jdataGet σ ["m", "format-version-minor"] =
      Except.ok (Fetched.scal (Rec.rint 0)) := by
    unfold jdataGet
    rw [hmi]
  unfold jsopOpen
  rw [h1, ok_bind, h2, ok_bind, h3, ok_bind]
  rfl

/-- JSOP.__enter__ fails Corrupt when a metadata record cannot be read. -/
theorem jsopOpen_corrupt (σ : Store)
    (h : storeGet σ ["m", "format-name"] = none ∨
      storeGet σ ["m", "format-version-major"] = none ∨
      storeGet σ ["m", "format-version-minor"] = none) :
    jsopOpen σ = Except.error Err.corrupt := by
  unfold jsopOpen
  by_cases hfn : storeGet σ ["m", "format-name"] = none
  · rw [show jdataGet σ ["m", "format-name"] =
      Except.error (Err.refError ["m", "format-name"]) from by
        unfold jdataGet; rw [hfn]]
    rfl
  · obtain ⟨rf, hrf⟩ := Option.ne_none_iff_exists'.mp hfn
    obtain ⟨f1, hf1⟩ := jdataGet_ok_of_some hrf
    rw [hf1, ok_bind]
    by_cases hma : storeGet σ ["m", "format-version-major"] = none
    · rw [show jdataGet σ ["m", "format-version-major"] =
        Except.error (Err.refError ["m", "format-version-major"]) from by
          unfold jdataGet; rw [hma]]
      rfl
    · obtain ⟨rma, hrma⟩ := Option.ne_none_iff_exists'.mp hma
      obtain ⟨f2, hf2⟩ := jdataGet_ok_of_some hrma
      rw [hf2, ok_bind]
      have hmi : storeGet σ ["m", "format-version-minor"] = none := by
        rcases h with h | h | h
        · exact absurd h hfn
        · exact absurd h hma
        · exact h
      rw [show jdataGet σ ["m", "format-version-minor"] =
        Except.error (Err.refError ["m", "format-version-minor"]) from by
          unfold jdataGet; rw [hmi]]
      rfl

/-- JSOP.__enter__ fails UnsupportedFormat on readable but invalid
metadata. -/
theorem jsopOpen_unsupported (σ : Store) (s : String) (a b : Int)
    (hfn : storeGet σ ["m", "format-name"] = some (Rec.rstr s))
    (hma : storeGet σ ["m", "format-version-major"] = some (Rec.rint a))
    (hmi : storeGet σ ["m", "format-version-minor"] = some (Rec.rint b))
    (hbad : s ≠ "JSOP" ∨ a ≠ 1 ∨ 0 < b) :
    jsopOpen σ = Except.error Err.unsupported := by
  have h1 : jdataGet σ ["m", "format-name"] =
      Except.ok (Fetched.scal (Rec.rstr s)) := by
    unfold jdataGet
    rw [hfn]
  have h2 : jdataGet σ ["m", "format-version-major"] =
      Except.ok (Fetched.scal (Rec.rint a)) := by
    unfold jdataGet
    rw [hma]
  have h3 : jdataGet σ ["m", "format-version-minor"] =
      Except.ok (Fetched.scal (Rec.rint b)) := by
    unfold jdataGet
    rw [hmi]
  unfold jsopOpen
  rw [h1, ok_bind, h2, ok_bind, h3, ok_bind]
  show (do
    let ok3 ← leIntF (Fetched.scal (Rec.rint b)) 0
    if eqStrF (Fetched.scal (Rec.rstr s)) "JSOP" &&
        eqIntF (Fetched.scal (Rec.rint a)) 1 && ok3 then jdataGet σ []
    else Except.error Err.unsupported : Except Err Fetched) = _
  rw [show leIntF (Fetched.scal (Rec.rint b)) 0 =
    Except.ok (decide (b ≤ 0)) from rfl, ok_bind]
  have hcond : (eqStrF (Fetched.scal (Rec.rstr s)) "JSOP" &&
      eqIntF (Fetched.scal (Rec.rint a)) 1 && decide (b ≤ 0)) = false := by
    rcases hbad with hb | hb | hb
    · rw [show eqStrF (Fetched.scal (Rec.rstr s)) "JSOP" = decide (s = "JSOP")
        from rfl]
      simp [hb]
    · rw [show eqIntF (Fetched.scal (Rec.rint a)) 1 = decide (a = 1) from rfl]
      simp [hb]
    · have : decide (b ≤ 0) = false := by simp; omega
      rw [this]
      simp
  rw [hcond]
  rfl

/-! ## Lists: indexing helpers -/

/-- What JData.__getitem__ hands back for a child holding v. -/
def fetchOf (a : Addr) : JValue → Fetched
  | JValue.obj _ => Fetched.dictH a
  | JValue.arr _ => Fetched.listH a
  | v => Fetched.scal (recOfScalar v)

theorem jdataGet_child {σ : Store} {b : Addr} {v : JValue}
    (h : storeGet σ b = some (recOfScalar v)) :
    jdataGet σ b = Except.ok (fetchOf b v) := by
  unfold jdataGet
  rw [h]
  cases v with
  | obj l => rfl
  | arr xs => rfl
  | null => rfl
  | bool bo => rfl
  | num n => rfl
  | str t => rfl

/-- The argument JData.__setitem__ receives for a fetched child resolves to
the child's native value. -/
theorem jdataSetA_fetch (fuel efuel : Nat) (σ : Store) (B C : Addr) (v : JValue)
    (hwf : wfB v = true) (hrepr : ReprAt σ C v) (hef : efuelB v ≤ efuel) :
    jdataSetA fuel efuel σ B (avalOfFetched (fetchOf C v)) =
      jdataSetV fuel σ B v := by
  cases v with
  | obj l =>
      show (do
        let u ← exportVal efuel σ C
        jdataSetV fuel σ B u : Except Err Store) = _
      rw [exportVal_layout efuel (JValue.obj l) σ C hwf hrepr hef, ok_bind]
  | arr xs =>
      show (do
        let u ← exportVal efuel σ C
        jdataSetV fuel σ B u : Except Err Store) = _
      rw [exportVal_layout efuel (JValue.arr xs) σ C hwf hrepr hef, ok_bind]
  | null => rfl
  | bool bo => rfl
  | num n => rfl
  | str t => rfl

theorem wfItems_append (a b : List JValue) :
    wfItems (a ++ b) = (wfItems a && wfItems b) := by
  induction a with
  | nil =>
      rw [List.nil_append,
          show wfItems ([] : List JValue) = true from by rw [wfItems],
          Bool.true_and]
  | cons z rest ih =>
      rw [List.cons_append,
          show wfItems (z :: (rest ++ b)) = (wfB z && wfItems (rest ++ b)) from by
            rw [wfItems],
          show wfItems (z :: rest) = (wfB z && wfItems rest) from by rw [wfItems],
          ih, Bool.and_assoc]

theorem wfItems_mem {v : JValue} {xs : List JValue} (hv : v ∈ xs)
    (h : wfItems xs = true) : wfB v = true := by
  induction xs with
  | nil => cases hv
  | cons z rest ih =>
      rw [show wfItems (z :: rest) = (wfB z && wfItems rest) from by rw [wfItems],
          Bool.and_eq_true] at h
      rcases List.mem_cons.mp hv with rfl | hr
      · exact h.1
      · exact ih hr h.2

theorem diB_mem {v : JValue} {xs : List JValue} (h : v ∈ xs) :
    dfB v ≤ diB xs := by
  induction xs with
  | nil => cases h
  | cons z rest ih =>
      rw [show diB (z :: rest) = dfB z + diB rest + 3 from by rw [diB]]
      rcases List.mem_cons.mp h with rfl | hr
      · omega
      · have := ih hr
        omega

/-- The entry list of an array node split at one index. -/
theorem arrEntries_middle (ys : List JValue) (j : Nat) (hj : j < ys.length) :
    arrEntries 0 ys = arrEntries 0 (ys.take j) ++
      (idxKey j, ys.get ⟨j, hj⟩) :: arrEntries (j + 1) (ys.drop (j + 1)) := by
  have hsplit : ys = ys.take j ++ ys.drop j := (List.take_append_drop j ys).symm
  have hdrop : ys.drop j = ys.get ⟨j, hj⟩ :: ys.drop (j + 1) := by
    rw [List.drop_eq_getElem_cons hj]
    rfl
  have hlen : (ys.take j).length = j := by
    rw [List.length_take]
    omega
  calc arrEntries 0 ys
      = arrEntries 0 (ys.take j ++ ys.drop j) := by rw [← hsplit]
    _ = arrEntries 0 (ys.take j) ++ arrEntries (0 + (ys.take j).length) (ys.drop j) := by
        rw [arrEntries_append]
    _ = arrEntries 0 (ys.take j) ++
        (idxKey j, ys.get ⟨j, hj⟩) :: arrEntries (j + 1) (ys.drop (j + 1)) := by
        rw [hlen, hdrop]
        rw [show (0 + j) = j from by omega]
        rfl

theorem intRangeFromTo_empty {a b : Int} (h : b ≤ a) : intRangeFromTo a b = [] := by
  unfold intRangeFromTo
  rw [show (b - a).toNat = 0 from by omega]
  rfl

theorem intRangeFromTo_cons {a b : Int} (h : a < b) :
    intRangeFromTo a b = a :: intRangeFromTo (a + 1) b := by
  unfold intRangeFromTo
  rw [show (b - a).toNat = (b - (a + 1)).toNat + 1 from by omega,
      List.range_succ_eq_map, List.map_cons, List.map_map]
  congr 1
  · rw [show Int.ofNat 0 = 0 from rfl]
    omega
  · apply List.map_congr_left
    intro j _
    show a + Int.ofNat (j + 1) = a + 1 + Int.ofNat j
    rw [show Int.ofNat (j + 1) = Int.ofNat j + 1 from rfl]
    ring

theorem nodeKeys_length (l : List (String × JValue)) :
    (nodeKeys l).length = l.length := List.length_map _ _

/-- len(self) on a represented array node. -/
theorem readLen_arr {σ : Store} {A : Addr} {ys : List JValue}
    (hrepr : ReprAt σ A (JValue.arr ys)) :
    readLen σ A = Except.ok ((ys.length : Int)) := by
  have hd := reprAt_arr.mp hrepr
  have hs := hd (saddr A) (nodeAddr_saddr A)
  rw [dictRecs_get_s, nodeKeys_length, arrEntries_length] at hs
  rw [readLen, jfetch_eq hs, ok_bind]
  rfl

theorem arrEntries_set (ys : List JValue) (j : Nat) (v : JValue)
    (hj : j < ys.length) :
    arrEntries 0 (ys.set j v) = arrEntries 0 (ys.take j) ++
      (idxKey j, v) :: arrEntries (j + 1) (ys.drop (j + 1)) := by
  rw [List.set_eq_take_cons_drop v hj, arrEntries_append]
  rw [show (ys.take j).length = j from by rw [List.length_take]; omega]
  rw [show (0 + j) = j from by omega]
  rfl

/-- JList.__getitem__ at a nonnegative in-range index on a represented
array fetches the child at the decimal key. -/
theorem jlistGet_nonneg {σ : Store} {A : Addr} {ys : List JValue} (j : Nat)
    (hj : j < ys.length) (hrepr : ReprAt σ A (JValue.arr ys)) :
    jlistGet σ A (Int.ofNat j) =
      Except.ok (fetchOf (vaddr A (idxKey j)) (ys.get ⟨j, hj⟩)) := by
  have hlen := readLen_arr hrepr
  have hd := reprAt_arr.mp hrepr
  have hmem : (idxKey j, ys.get ⟨j, hj⟩) ∈ arrEntries 0 ys := by
    rw [arrEntries_middle ys j hj]
    exact List.mem_append_right _ (List.mem_cons_self _ _)
  have hchild : ReprAt σ (vaddr A (idxKey j)) (ys.get ⟨j, hj⟩) :=
    reprAt_child hd (arrEntries_keys_nodup 0 ys) hmem
  have hroot : storeGet σ (vaddr A (idxKey j)) =
      some (recOfScalar (ys.get ⟨j, hj⟩)) := by
    rw [hchild _ (nodeAddr_root _), layout_get_root]
  rw [jlistGet, hlen, ok_bind,
      dif_neg (show ¬(Int.ofNat j < -((ys.length : Nat) : Int) ∨
        ((ys.length : Nat) : Int) ≤ Int.ofNat j) from by rw [Int.ofNat_eq_coe]; omega),
      dif_neg (show ¬(Int.ofNat j < 0) from by rw [Int.ofNat_eq_coe]; omega)]
  exact jdataGet_child hroot

/-- JDict.__setitem__ with a possibly-handle argument, on a present key. -/
theorem dictPutA_over (fuel efuel : Nat) (σ : Store) (A : Addr) (mk : Rec)
    (k : String) (w v : JValue) (l1 l2 : List (String × JValue)) (a : AValue)
    (hf : 3 ≤ fuel) (hfw : dfB w ≤ fuel) (hwf : wfB v = true)
    (hwfw : wfB w = true)
    (hnd : (nodeKeys (l1 ++ (k, w) :: l2)).Nodup)
    (hrepr : DictRepr σ A mk (l1 ++ (k, w) :: l2))
    (ha : jdataSetA fuel efuel σ (vaddr A k) a =
      jdataSetV fuel σ (vaddr A k) v) :
    ∃ σ2, dictPutA fuel efuel σ A k a = Except.ok σ2 ∧
      DictRepr σ2 A mk (l1 ++ (k, v) :: l2) ∧
      (∀ addr, ¬ NodeAddr A addr → storeGet σ2 addr = storeGet σ addr) := by
  obtain ⟨σ2, hw2, hr2, hfr2⟩ := dictPutCore_over fuel σ A mk k w v l1 l2
    hf hfw hwf hwfw hnd hrepr
  have hmem : (k, w) ∈ l1 ++ (k, w) :: l2 := List.mem_append_right _ (by simp)
  have hchild : ReprAt σ (vaddr A k) w := reprAt_child hrepr hnd hmem
  have hsome : (storeGet σ (vaddr A k)).isSome = true := by
    rw [hchild _ (nodeAddr_root (vaddr A k)), layout_get_root]
    rfl
  refine ⟨σ2, ?_, hr2, hfr2⟩
  rw [dictPutCore, if_pos hsome, ok_bind] at hw2
  rw [dictPutA, if_pos hsome, ok_bind]
  show jdataSetA fuel efuel σ (vaddr A k) a = Except.ok σ2
  rw [ha]
  exact hw2

/-- JList.__setitem__ at a nonnegative in-range index overwrites the child
at the decimal key. -/
theorem jlistSetA_over (fuel efuel : Nat) (σ : Store) (A : Addr)
    (ys : List JValue) (j : Nat) (v : JValue) (a : AValue) (hj : j < ys.length)
    (hf : 3 ≤ fuel) (hfw : dfB (ys.get ⟨j, hj⟩) ≤ fuel) (hwf : wfB v = true)
    (hwfys : wfItems ys = true)
    (hrepr : ReprAt σ A (JValue.arr ys))
    (ha : jdataSetA fuel efuel σ (vaddr A (idxKey j)) a =
      jdataSetV fuel σ (vaddr A (idxKey j)) v) :
    ∃ σ2, jlistSetA fuel efuel σ A (Int.ofNat j) a = Except.ok σ2 ∧
      ReprAt σ2 A (JValue.arr (ys.set j v)) ∧
      (∀ addr, ¬ NodeAddr A addr → storeGet σ2 addr = storeGet σ addr) := by
  have hd := reprAt_arr.mp hrepr
  have hmid := arrEntries_middle ys j hj
  have hwfw : wfB (ys.get ⟨j, hj⟩) = true :=
    wfItems_mem (List.get_mem ys j hj) hwfys
  have hnd : (nodeKeys (arrEntries 0 ys)).Nodup := arrEntries_keys_nodup 0 ys
  rw [hmid] at hd hnd
  obtain ⟨σ2, hw2, hr2, hfr2⟩ := dictPutA_over fuel efuel σ A Rec.rlistM
    (idxKey j) (ys.get ⟨j, hj⟩) v (arrEntries 0 (ys.take j))
    (arrEntries (j + 1) (ys.drop (j + 1))) a hf hfw hwf hwfw hnd hd ha
  refine ⟨σ2, ?_, ?_, hfr2⟩
  · rw [jlistSetA, readLen_arr hrepr, ok_bind,
        dif_neg (show ¬(Int.ofNat j < -((ys.length : Nat) : Int) ∨
          ((ys.length : Nat) : Int) ≤ Int.ofNat j) from by rw [Int.ofNat_eq_coe]; omega),
        dif_neg (show ¬(Int.ofNat j < 0) from by rw [Int.ofNat_eq_coe]; omega), ok_bind]
    exact hw2
  · rw [reprAt_arr, arrEntries_set ys j v hj]
    exact hr2

theorem take_set_succ {α : Type} (ys : List α) (j : Nat) (y : α)
    (hj : j < ys.length) :
    (ys.set j y).take (j + 1) = ys.take j ++ [y] := by
  induction ys generalizing j with
  | nil => simp at hj
  | cons z rest ih =>
      cases j with
      | zero => rfl
      | succ j2 =>
          show z :: (rest.set j2 y).take (j2 + 1) = z :: (rest.take j2 ++ [y])
          rw [ih j2 (by simpa using hj)]

theorem wfItems_iff_forall (xs : List JValue) :
    wfItems xs = true ↔ ∀ v ∈ xs, wfB v = true := by
  induction xs with
  | nil =>
      constructor
      · intro _ v hv
        cases hv
      · intro _
        rw [wfItems]
  | cons z rest ih =>
      rw [show wfItems (z :: rest) = (wfB z && wfItems rest) from by rw [wfItems],
          Bool.and_eq_true, ih]
      constructor
      · rintro ⟨h1, h2⟩ v hv
        rcases List.mem_cons.mp hv with rfl | hr
        · exact h1
        · exact h2 v hr
      · intro h
        exact ⟨h z (List.mem_cons_self _ _), fun v hv => h v (List.mem_cons.mpr (Or.inr hv))⟩

/-- One pass of the shift loop of JList.__delitem__ starting at slot j:
every slot from j on takes its successor's value, so the final slot keeps a
duplicate of the old last element. -/
theorem jlistShift_spec (m : Nat) : ∀ (fuel efuel : Nat) (σ : Store) (A : Addr)
    (ys : List JValue) (j : Nat), j + m = ys.length → 1 ≤ m →
    (∀ v ∈ ys, dfB v ≤ fuel) → 3 ≤ fuel →
    (∀ v ∈ ys, efuelB v ≤ efuel) →
    wfItems ys = true →
    ReprAt σ A (JValue.arr ys) →
    ∃ σ2, jlistShift fuel efuel σ A
        (intRangeFromTo (Int.ofNat j) ((ys.length : Int) - 1)) = Except.ok σ2 ∧
      ReprAt σ2 A (JValue.arr (ys.take j ++ ys.drop (j + 1) ++ ys.getLast?.toList)) ∧
      (∀ addr, ¬ NodeAddr A addr → storeGet σ2 addr = storeGet σ addr) := by
  induction m with
  | zero =>
      intro fuel efuel σ A ys j hj h1 _ _ _ _ _
      omega
  | succ m ih =>
      intro fuel efuel σ A ys j hj h1 hfu hf3 hef hwf hrepr
      by_cases hm : m = 0
      · subst hm
        have hlen : j + 1 = ys.length := by omega
        have hne : ys ≠ [] := by
          intro h
          rw [h] at hlen
          simp at hlen
        have hempty : intRangeFromTo (Int.ofNat j) ((ys.length : Int) - 1) = [] :=
          intRangeFromTo_empty (by rw [Int.ofNat_eq_coe]; omega)
        refine ⟨σ, ?_, ?_, fun addr _ => rfl⟩
        · rw [hempty]
          rfl
        · have hykey : ys.take j ++ ys.drop (j + 1) ++ ys.getLast?.toList = ys := by
            rw [List.drop_eq_nil_of_le (by omega), List.append_nil,
                List.getLast?_eq_getLast ys hne]
            show ys.take j ++ [ys.getLast hne] = ys
            rw [show ys.take j = ys.dropLast from by
              rw [List.dropLast_eq_take]
              congr 1
              omega]
            exact List.dropLast_concat_getLast hne
          rw [hykey]
          exact hrepr
      · have hm1 : 1 ≤ m := by omega
        have hj1 : j + 1 < ys.length := by omega
        have hjlt : j < ys.length := by omega
        have hymem : ys.get ⟨j + 1, hj1⟩ ∈ ys := List.get_mem ys (j + 1) hj1
        have hget := jlistGet_nonneg (j + 1) hj1 hrepr
        have hd := reprAt_arr.mp hrepr
        have hmem1 : (idxKey (j + 1), ys.get ⟨j + 1, hj1⟩) ∈ arrEntries 0 ys := by
          rw [arrEntries_middle ys (j + 1) hj1]
          exact List.mem_append_right _ (List.mem_cons_self _ _)
        have hchild : ReprAt σ (vaddr A (idxKey (j + 1))) (ys.get ⟨j + 1, hj1⟩) :=
          reprAt_child hd (arrEntries_keys_nodup 0 ys) hmem1
        have hwfy : wfB (ys.get ⟨j + 1, hj1⟩) = true := wfItems_mem hymem hwf
        have ha := jdataSetA_fetch fuel efuel σ (vaddr A (idxKey j))
          (vaddr A (idxKey (j + 1))) (ys.get ⟨j + 1, hj1⟩) hwfy hchild
          (hef _ hymem)
        obtain ⟨σ1, hw1, hr1, hfr1⟩ := jlistSetA_over fuel efuel σ A ys j
          (ys.get ⟨j + 1, hj1⟩)
          (avalOfFetched (fetchOf (vaddr A (idxKey (j + 1))) (ys.get ⟨j + 1, hj1⟩)))
          hjlt hf3 (hfu _ (List.get_mem ys j hjlt)) hwfy hwf hrepr ha
        have hlen' : (ys.set j (ys.get ⟨j + 1, hj1⟩)).length = ys.length :=
          List.length_set ys j _
        have hwf' : wfItems (ys.set j (ys.get ⟨j + 1, hj1⟩)) = true := by
          rw [wfItems_iff_forall]
          intro v hv
          rcases List.mem_or_eq_of_mem_set hv with hv2 | rfl
          · exact wfItems_mem hv2 hwf
          · exact hwfy
        have hfu' : ∀ v ∈ ys.set j (ys.get ⟨j + 1, hj1⟩), dfB v ≤ fuel := by
          intro v hv
          rcases List.mem_or_eq_of_mem_set hv with hv2 | rfl
          · exact hfu v hv2
          · exact hfu _ hymem
        have hef' : ∀ v ∈ ys.set j (ys.get ⟨j + 1, hj1⟩), efuelB v ≤ efuel := by
          intro v hv
          rcases List.mem_or_eq_of_mem_set hv with hv2 | rfl
          · exact hef v hv2
          · exact hef _ hymem
        obtain ⟨σ2, hw2, hr2, hfr2⟩ := ih fuel efuel σ1 A
          (ys.set j (ys.get ⟨j + 1, hj1⟩)) (j + 1)
          (by rw [hlen']; omega) hm1 hfu' hf3 hef' hwf' hr1
        refine ⟨σ2, ?_, ?_, fun addr hna => (hfr2 addr hna).trans (hfr1 addr hna)⟩
        · rw [intRangeFromTo_cons
            (show (Int.ofNat j : Int) < (ys.length : Int) - 1 from by
              rw [Int.ofNat_eq_coe]; omega)]
          show (do
            let f ← jlistGet σ A (Int.ofNat j + 1)
            let σ1 ← jlistSetA fuel efuel σ A (Int.ofNat j) (avalOfFetched f)
            jlistShift fuel efuel σ1 A
              (intRangeFromTo (Int.ofNat j + 1) ((ys.length : Int) - 1))) =
            Except.ok σ2
          rw [show (Int.ofNat j + 1 : Int) = Int.ofNat (j + 1) from by
            rw [Int.ofNat_eq_coe, Int.ofNat_eq_coe]
            omega]
          rw [hget, ok_bind, hw1, ok_bind]
          rw [show (((ys.set j (ys.get ⟨j + 1, hj1⟩)).length : Nat) : Int) =
            ((ys.length : Nat) : Int) from by rw [hlen']] at hw2
          exact hw2
        · have hsets : ys.set j (ys.get ⟨j + 1, hj1⟩) =
              ys.take j ++ ys.get ⟨j + 1, hj1⟩ :: ys.drop (j + 1) :=
            List.set_eq_take_cons_drop _ hjlt
          have hT1 : (ys.set j (ys.get ⟨j + 1, hj1⟩)).take (j + 1) =
              ys.take j ++ [ys.get ⟨j + 1, hj1⟩] :=
            take_set_succ ys j _ hjlt
          have hT2 : (ys.set j (ys.get ⟨j + 1, hj1⟩)).drop (j + 1 + 1) =
              ys.drop (j + 1 + 1) := by
            rw [List.drop_set, if_pos (by omega)]
          have hT3 : (ys.set j (ys.get ⟨j + 1, hj1⟩)).getLast? = ys.getLast? := by
            rw [List.getLast?_eq_getElem?, List.getLast?_eq_getElem?,
                List.length_set]
            exact List.getElem?_set_ne (by omega)
          have hdropc : ys.drop (j + 1) =
              ys.get ⟨j + 1, hj1⟩ :: ys.drop (j + 1 + 1) := by
            rw [List.drop_eq_getElem_cons hj1]
            rfl
          have hbig : (ys.set j (ys.get ⟨j + 1, hj1⟩)).take (j + 1) ++
              (ys.set j (ys.get ⟨j + 1, hj1⟩)).drop (j + 1 + 1) ++
              (ys.set j (ys.get ⟨j + 1, hj1⟩)).getLast?.toList =
              ys.take j ++ ys.drop (j + 1) ++ ys.getLast?.toList := by
            rw [hT1, hT2, hT3, hdropc]
            simp [List.append_assoc]
          rw [hbig] at hr2
          exact hr2

/-- JList.pop on a represented nonempty array removes the last element and
returns its snapshot. -/
theorem jlistPop_spec (fuel efuel : Nat) (σ : Store) (A : Addr)
    (ys : List JValue) (hne : ys ≠ [])
    (hf : dfB (ys.getLast hne) + 2 ≤ fuel)
    (hef : efuelB (ys.getLast hne) ≤ efuel)
    (hwf : wfItems ys = true)
    (hrepr : ReprAt σ A (JValue.arr ys)) :
    ∃ σ2, jlistPop fuel efuel σ A = Except.ok (ys.getLast hne, σ2) ∧
      ReprAt σ2 A (JValue.arr ys.dropLast) ∧
      (∀ addr, ¬ NodeAddr A addr → storeGet σ2 addr = storeGet σ addr) := by
  have hpos : 1 ≤ ys.length := by
    cases ys with
    | nil => exact absurd rfl hne
    | cons z rest => simp
  have hj : ys.length - 1 < ys.length := by omega
  have hglast : ys.get ⟨ys.length - 1, hj⟩ = ys.getLast hne := by
    have h1 := List.getLast?_eq_getLast ys hne
    have h2 := List.getLast?_eq_getElem? ys
    rw [h1] at h2
    have h3 : ys[ys.length - 1]? = some (ys.get ⟨ys.length - 1, hj⟩) := by
      rw [List.getElem?_eq_getElem hj]
      rfl
    rw [h3] at h2
    exact (Option.some.inj h2).symm
  have hdropn : ys.drop (ys.length - 1 + 1) = [] :=
    List.drop_eq_nil_of_le (by omega)
  have hmid := arrEntries_middle ys (ys.length - 1) hj
  rw [hdropn, hglast] at hmid
  rw [show arrEntries (ys.length - 1 + 1) ([] : List JValue) = [] from rfl] at hmid
  have hd := reprAt_arr.mp hrepr
  have hnd : (nodeKeys (arrEntries 0 ys)).Nodup := arrEntries_keys_nodup 0 ys
  rw [hmid] at hd hnd
  have hwfl : wfB (ys.getLast hne) = true :=
    wfItems_mem (List.getLast_mem hne) hwf
  obtain ⟨σ2, hw2, hr2, hfr2⟩ := dictPop_spec fuel efuel σ A Rec.rlistM
    (idxKey (ys.length - 1)) (ys.getLast hne)
    (arrEntries 0 (ys.take (ys.length - 1))) [] none hf hef hwfl hnd hd
  refine ⟨σ2, ?_, ?_, hfr2⟩
  · rw [jlistPop, readLen_arr hrepr, ok_bind,
        if_neg (show ¬(((ys.length : Nat) : Int) = 0) from by omega),
        ok_bind,
        show toString (((ys.length : Nat) : Int) - 1) = idxKey (ys.length - 1) from by
          rw [idxKey]
          congr 1
          rw [Int.ofNat_eq_coe]
          omega]
    rw [hw2]
  · rw [reprAt_arr]
    rw [List.append_nil] at hr2
    rw [show ys.dropLast = ys.take (ys.length - 1) from List.dropLast_eq_take ys]
    exact hr2

/-- JList.__delitem__ at a nonnegative in-range index: shift left from i,
then pop the duplicated last slot; the result is the dense removal. -/
theorem jlistDel_nonneg (fuel efuel : Nat) (σ : Store) (A : Addr)
    (ys : List JValue) (j : Nat) (hj : j < ys.length)
    (hfu : ∀ v ∈ ys, dfB v + 2 ≤ fuel) (hf3 : 3 ≤ fuel)
    (hef : ∀ v ∈ ys, efuelB v ≤ efuel)
    (hwf : wfItems ys = true)
    (hrepr : ReprAt σ A (JValue.arr ys)) :
    ∃ σ2, jlistDel fuel efuel σ A (Int.ofNat j) = Except.ok σ2 ∧
      ReprAt σ2 A (JValue.arr (ys.eraseIdx j)) ∧
      (∀ addr, ¬ NodeAddr A addr → storeGet σ2 addr = storeGet σ addr) := by
  have hne : ys ≠ [] := by
    intro h
    rw [h] at hj
    simp at hj
  obtain ⟨σ1, hw1, hr1, hfr1⟩ := jlistShift_spec (ys.length - j) fuel efuel σ A ys j
    (by omega) (by omega) (fun v hv => by have := hfu v hv; omega) hf3 hef hwf hrepr
  have hlast := List.getLast?_eq_getLast ys hne
  have hys2 : ys.take j ++ ys.drop (j + 1) ++ ys.getLast?.toList =
      (ys.take j ++ ys.drop (j + 1)) ++ [ys.getLast hne] := by
    rw [hlast]
    rfl
  rw [hys2] at hr1
  have hne2 : (ys.take j ++ ys.drop (j + 1)) ++ [ys.getLast hne] ≠ [] := by
    intro h
    have := congrArg List.length h
    simp at this
  have hglast2 : ((ys.take j ++ ys.drop (j + 1)) ++ [ys.getLast hne]).getLast hne2 =
      ys.getLast hne := by
    have h1 := List.getLast?_eq_getLast _ hne2
    rw [List.getLast?_concat] at h1
    exact (Option.some.inj h1).symm
  have hmemsub : ∀ v ∈ (ys.take j ++ ys.drop (j + 1)) ++ [ys.getLast hne], v ∈ ys := by
    intro v hv
    rcases List.mem_append.mp hv with hv1 | hv2
    · rcases List.mem_append.mp hv1 with hv3 | hv4
      · exact List.take_subset _ _ hv3
      · exact List.drop_subset _ _ hv4
    · rw [List.mem_singleton.mp hv2]
      exact List.getLast_mem hne
  have hwf2 : wfItems ((ys.take j ++ ys.drop (j + 1)) ++ [ys.getLast hne]) = true := by
    rw [wfItems_iff_forall]
    intro v hv
    exact wfItems_mem (hmemsub v hv) hwf
  obtain ⟨σ2, hw2, hr2, hfr2⟩ := jlistPop_spec fuel efuel σ1 A
    ((ys.take j ++ ys.drop (j + 1)) ++ [ys.getLast hne]) hne2
    (by rw [hglast2]; exact hfu _ (List.getLast_mem hne))
    (by rw [hglast2]; exact hef _ (List.getLast_mem hne)) hwf2 hr1
  refine ⟨σ2, ?_, ?_, fun addr hna => (hfr2 addr hna).trans (hfr1 addr hna)⟩
  · rw [jlistDel, readLen_arr hrepr, ok_bind,
        dif_neg (show ¬(((ys.length : Nat) : Int) ≤ Int.ofNat j ∨
          Int.ofNat j < -((ys.length : Nat) : Int)) from by
            rw [Int.ofNat_eq_coe]; omega),
        dif_neg (show ¬(Int.ofNat j < 0) from by rw [Int.ofNat_eq_coe]; omega),
        ok_bind, hw1, ok_bind, hw2, ok_bind]
  · rw [List.dropLast_concat] at hr2
    rw [show ys.eraseIdx j = ys.take j ++ ys.drop (j + 1) from
      List.eraseIdx_eq_take_drop_succ ys j]
    exact hr2

/-- JList.__delitem__ at a negative in-range index recurses once on i+n. -/
theorem jlistDel_neg (fuel efuel : Nat) (σ : Store) (A : Addr)
    (ys : List JValue) (i : Int) (hio : -(ys.length : Int) ≤ i) (hineg : i < 0)
    (hrepr : ReprAt σ A (JValue.arr ys)) :
    jlistDel fuel efuel σ A i = jlistDel fuel efuel σ A (i + (ys.length : Int)) := by
  rw [jlistDel, readLen_arr hrepr, ok_bind,
      dif_neg (show ¬(((ys.length : Nat) : Int) ≤ i ∨
        i < -((ys.length : Nat) : Int)) from by omega),
      dif_pos hineg]

/-- JList.__delitem__ out of range raises IndexError. -/
theorem jlistDel_oob (fuel efuel : Nat) (σ : Store) (A : Addr)
    (ys : List JValue) (i : Int)
    (hio : (ys.length : Int) ≤ i ∨ i < -(ys.length : Int))
    (hrepr : ReprAt σ A (JValue.arr ys)) :
    jlistDel fuel efuel σ A i = Except.error Err.indexError := by
  rw [jlistDel, readLen_arr hrepr, ok_bind, dif_pos hio]

/-! ## The session cache -/

/-- Every key the code ever inserts into the cache is a tuple key, so the
byte-string probe of __getitem__ never finds anything. -/
theorem cacheFind_tup_only (c : List (CacheKey × Rec)) (key : Addr)
    (h : ∀ p ∈ c, ∃ a, p.1 = CacheKey.tup a) :
    cacheFind c (CacheKey.bkey key) = none := by
  induction c with
  | nil => rfl
  | cons q rest ih =>
      obtain ⟨k2, r⟩ := q
      obtain ⟨a, hk⟩ := h _ (List.mem_cons_self _ _)
      rw [cacheFind, if_neg (by
        rw [show ((k2, r) : CacheKey × Rec).1 = k2 from rfl] at hk
        rw [hk]
        intro hc
        cases hc)]
      exact ih (fun p hp => h p (List.mem_cons.mpr (Or.inr hp)))

/-- DBMWrapper.__getitem__ on a tuple-only cache always reads the dbm. -/
theorem dbmwGet_read (st : DBMState) (key : Addr) (r : Rec)
    (htup : ∀ p ∈ st.cache, ∃ a, p.1 = CacheKey.tup a)
    (hr : storeGet st.dbm key = some r) :
    dbmwGet st key = Except.ok
      (r, { st with cache := (CacheKey.tup key, r) :: st.cache }, true) := by
  rw [dbmwGet, cacheFind_tup_only st.cache key htup]
  rw [if_neg (by intro hc; cases hc), hr]

/-! ## Cells -/

/-- cells() on a represented array yields the entry keys in index order. -/
theorem cells_layout {σ : Store} {A : Addr} {xs : List JValue}
    (hrepr : ReprAt σ A (JValue.arr xs)) :
    cells σ A = Except.ok (nodeKeys (arrEntries 0 xs)) := by
  rw [cells, readLen_arr hrepr, ok_bind]
  congr 1
  rw [intRange, show ((xs.length : Nat) : Int).toNat = xs.length from by omega,
      List.map_map, arrEntries_keys]
  apply List.map_congr_left
  intro j _
  show toString (Int.ofNat j) = idxKey (0 + j)
  rw [show 0 + j = j from by omega]
  rfl

/-- cell.value() reads the map entry at the cell's frozen key. -/
theorem cellValue_layout {σ : Store} {A : Addr} {mk : Rec}
    {l : List (String × JValue)} {k : String} {v : JValue}
    (hrepr : DictRepr σ A mk l) (hnd : (nodeKeys l).Nodup)
    (hmem : (k, v) ∈ l) :
    cellValue σ A k = Except.ok (fetchOf (vaddr A k) v) := by
  have hchild := reprAt_child hrepr hnd hmem
  have hroot : storeGet σ (vaddr A k) = some (recOfScalar v) := by
    rw [hchild _ (nodeAddr_root _), layout_get_root]
  exact jdataGet_child hroot

theorem arrEntries_get_mem (zs : List JValue) : ∀ (i j : Nat) (h : j < zs.length),
    (idxKey (i + j), zs.get ⟨j, h⟩) ∈ arrEntries i zs := by
  induction zs with
  | nil =>
      intro i j h
      simp at h
  | cons z rest ih =>
      intro i j h
      cases j with
      | zero =>
          rw [show i + 0 = i from by omega]
          exact List.mem_cons_self _ _
      | succ j2 =>
          have hmem := ih (i + 1) j2 (by simpa using h)
          rw [show i + (j2 + 1) = i + 1 + j2 from by omega]
          exact List.mem_cons.mpr (Or.inr hmem)

/-- Removing the cell at an earlier index leaves the entry of a later cell
in place: its frozen key still reads the same element. -/
theorem cellRemove_later (fuel : Nat) (σ : Store) (A : Addr) (xs : List JValue)
    (i1 i2 : Nat) (h12 : i1 < i2) (hi2 : i2 < xs.length)
    (hfu : dfB (xs.get ⟨i1, lt_trans h12 hi2⟩) + 2 ≤ fuel)
    (hwf : wfItems xs = true)
    (hrepr : ReprAt σ A (JValue.arr xs)) :
    ∃ σ2, cellRemove fuel σ A (idxKey i1) = Except.ok σ2 ∧
      cellValue σ2 A (idxKey i2) =
        Except.ok (fetchOf (vaddr A (idxKey i2)) (xs.get ⟨i2, hi2⟩)) := by
  have hi1 : i1 < xs.length := lt_trans h12 hi2
  have hmid := arrEntries_middle xs i1 hi1
  have hd := reprAt_arr.mp hrepr
  have hnd : (nodeKeys (arrEntries 0 xs)).Nodup := arrEntries_keys_nodup 0 xs
  rw [hmid] at hd hnd
  have hwfw : wfB (xs.get ⟨i1, hi1⟩) = true :=
    wfItems_mem (List.get_mem xs i1 hi1) hwf
  obtain ⟨σ2, hw2, hr2, hfr2⟩ := dictDel_spec fuel σ A Rec.rlistM (idxKey i1)
    (xs.get ⟨i1, hi1⟩) (arrEntries 0 (xs.take i1))
    (arrEntries (i1 + 1) (xs.drop (i1 + 1))) hfu hwfw hnd hd
  have hnd2 : (nodeKeys (arrEntries 0 (xs.take i1) ++
      arrEntries (i1 + 1) (xs.drop (i1 + 1)))).Nodup := by
    rw [nodeKeys_append]
    rw [nodeKeys_append] at hnd
    exact (nodup_middle hnd).2.2.2.2.2
  have hj2 : i2 - i1 - 1 < (xs.drop (i1 + 1)).length := by
    rw [List.length_drop]
    omega
  have hmem2 : (idxKey i2, xs.get ⟨i2, hi2⟩) ∈
      arrEntries 0 (xs.take i1) ++ arrEntries (i1 + 1) (xs.drop (i1 + 1)) := by
    have hmm := arrEntries_get_mem (xs.drop (i1 + 1)) (i1 + 1) (i2 - i1 - 1) hj2
    rw [show i1 + 1 + (i2 - i1 - 1) = i2 from by omega] at hmm
    have hel : (xs.drop (i1 + 1)).get ⟨i2 - i1 - 1, hj2⟩ = xs.get ⟨i2, hi2⟩ := by
      show (xs.drop (i1 + 1))[i2 - i1 - 1] = xs[i2]
      rw [List.getElem_drop]
      congr 1
      omega
    rw [hel] at hmm
    exact List.mem_append_right _ hmm
  refine ⟨σ2, ?_, cellValue_layout hr2 hnd2 hmem2⟩
  show dictDel fuel σ A (idxKey i1) = Except.ok σ2
  exact hw2

/-! ## Round trips through init and export -/

/-- init; export round-trips any well-formed container value. -/
theorem jsopRoundtrip (fuel efuel : Nat) (v : JValue) (hf : 3 ≤ fuel)
    (hef : efuelB v ≤ efuel) (hwf : wfB v = true)
    (hc : isContainer v = true) :
    ∃ σ, jsopInit fuel v = Except.ok σ ∧ jsopExport efuel σ = Except.ok v := by
  obtain ⟨σ, hrun, hrepr, hm1, hm2, hm3⟩ := jsopInit_spec fuel v hf hwf
  refine ⟨σ, hrun, ?_⟩
  have hopen := jsopOpen_valid σ hm1 hm2 hm3
  have hroot : storeGet σ [] = some (recOfScalar v) := by
    rw [hrepr [] (nodeAddr_root []), layout_get_root]
  cases v with
  | obj l =>
      rw [jsopExport, hopen, jdataGet, hroot]
      show exportVal efuel σ [] = Except.ok (JValue.obj l)
      exact exportVal_layout efuel (JValue.obj l) σ [] hwf hrepr hef
  | arr xs =>
      rw [jsopExport, hopen, jdataGet, hroot]
      show exportVal efuel σ [] = Except.ok (JValue.arr xs)
      exact exportVal_layout efuel (JValue.arr xs) σ [] hwf hrepr hef
  | null => cases hc
  | bool b => cases hc
  | num n => cases hc
  | str t => cases hc

/-- init; export on a primitive root opens fine but export raises
AttributeError: the round trip claim fails for non-container roots. -/
theorem jsopRoundtrip_scalar_fails (fuel efuel : Nat) (v : JValue)
    (hf : 3 ≤ fuel) (hwf : wfB v = true) (hc : isContainer v = false) :
    ∃ σ, jsopInit fuel v = Except.ok σ ∧
      jsopExport efuel σ = Except.error Err.attrError := by
  obtain ⟨σ, hrun, hrepr, hm1, hm2, hm3⟩ := jsopInit_spec fuel v hf hwf
  refine ⟨σ, hrun, ?_⟩
  have hopen := jsopOpen_valid σ hm1 hm2 hm3
  have hroot : storeGet σ [] = some (recOfScalar v) := by
    rw [hrepr [] (nodeAddr_root []), layout_get_root]
  cases v with
  | obj l => cases hc
  | arr xs => cases hc
  | null =>
      rw [jsopExport, hopen, jdataGet, hroot]
      rfl
  | bool b =>
      rw [jsopExport, hopen, jdataGet, hroot]
      rfl
  | num n =>
      rw [jsopExport, hopen, jdataGet, hroot]
      rfl
  | str t =>
      rw [jsopExport, hopen, jdataGet, hroot]
      rfl

theorem wfB_scalar (v : JValue) (hc : isContainer v = false) : wfB v = true := by
  cases v with
  | obj l => cases hc
  | arr xs => cases hc
  | null => simp [wfB]
  | bool b => simp [wfB]
  | num n => simp [wfB]
  | str t => simp [wfB]

/-- The layout of a primitive value is the single scalar record. -/
theorem layout_scalar_get {A : Addr} {v : JValue} (hc : isContainer v = false)
    (addr : Addr) (hne : addr ≠ A) : storeGet (layout A v) addr = none := by
  have hget : ∀ r : Rec, storeGet [(A, r)] addr = none := by
    intro r
    rw [storeGet_cons, if_neg (fun he => hne he.symm)]
    rfl
  cases v with
  | obj l => cases hc
  | arr xs => cases hc
  | null =>
      rw [show layout A JValue.null = [(A, recOfScalar JValue.null)] from by
        rw [layout]
        all_goals intro x h
        all_goals cases h]
      exact hget _
  | bool b =>
      rw [show layout A (JValue.bool b) = [(A, recOfScalar (JValue.bool b))] from by
        rw [layout]
        all_goals intro x h
        all_goals cases h]
      exact hget _
  | num n =>
      rw [show layout A (JValue.num n) = [(A, recOfScalar (JValue.num n))] from by
        rw [layout]
        all_goals intro x h
        all_goals cases h]
      exact hget _
  | str t =>
      rw [show layout A (JValue.str t) = [(A, recOfScalar (JValue.str t))] from by
        rw [layout]
        all_goals intro x h
        all_goals cases h]
      exact hget _

/-- Putting a sequence of fresh, pairwise distinct keys appends them in
order. -/
theorem specPuts_fresh : ∀ (kvs l : List (String × JValue)),
    (nodeKeys kvs).Nodup → (∀ k ∈ nodeKeys kvs, k ∉ nodeKeys l) →
    specPuts l kvs = l ++ kvs := by
  intro kvs
  induction kvs with
  | nil =>
      intro l _ _
      rw [show specPuts l [] = l from by rw [specPuts], List.append_nil]
  | cons p rest ih =>
      obtain ⟨k, v⟩ := p
      intro l hnd hfr
      have hkeys : nodeKeys ((k, v) :: rest) = k :: nodeKeys rest := rfl
      rw [hkeys] at hnd hfr
      have hk : k ∉ nodeKeys l := hfr k (List.mem_cons_self _ _)
      rw [show specPuts l ((k, v) :: rest) = specPuts (putEntry l k v) rest from by
        rw [specPuts], putEntry_fresh l k v hk]
      have hnd2 : (nodeKeys rest).Nodup := (List.nodup_cons.mp hnd).2
      have hfr2 : ∀ k2 ∈ nodeKeys rest, k2 ∉ nodeKeys (l ++ [(k, v)]) := by
        intro k2 hk2
        rw [nodeKeys_append]
        intro hmem
        rcases List.mem_append.mp hmem with hm1 | hm2
        · exact hfr k2 (List.mem_cons.mpr (Or.inr hk2)) hm1
        · have : k2 = k := by
            rcases List.mem_cons.mp hm2 with he | hf
            · exact he
            · cases hf
          exact (List.nodup_cons.mp hnd).1 (this ▸ hk2)
      rw [ih (l ++ [(k, v)]) hnd2 hfr2, List.append_assoc]
      rfl

/-- JDict.__setitem__ with a plain native value is independent of the
possible-handle wrapping. -/
theorem dictPutA_native (fuel efuel : Nat) (σ : Store) (A : Addr) (k : String)
    (v : JValue) :
    dictPutA fuel efuel σ A k (AValue.native v) = dictPutCore fuel σ A k v := by
  rw [dictPutA, dictPutCore]
  rfl

/-- The fall-through of JList.__setitem__ on a negative index: l[-1] = 99
on the list [10, 20] overwrites slot 1 AND appends a new map entry under
the key "-1", leaving three linked keys and size 3. -/
theorem jlistSetA_neg_fallthrough :
    ∃ σ2, jlistSetA 9 9 (layout [] (JValue.arr [JValue.num 10, JValue.num 20]))
        [] (-1) (AValue.native (JValue.num 99)) = Except.ok σ2 ∧
      DictRepr σ2 [] Rec.rlistM
        (arrEntries 0 [JValue.num 10, JValue.num 99] ++ [("-1", JValue.num 99)]) ∧
      readLen σ2 [] = Except.ok 3 ∧
      dictKeys 9 σ2 [] = Except.ok ["0", "1", "-1"] := by
  have hrepr : ReprAt (layout [] (JValue.arr [JValue.num 10, JValue.num 20])) []
      (JValue.arr [JValue.num 10, JValue.num 20]) := fun addr _ => rfl
  have hj : (1 : Nat) < ([JValue.num 10, JValue.num 20] : List JValue).length := by
    decide
  have hwfys : wfItems [JValue.num 10, JValue.num 20] = true := by
    rw [wfItems_iff_forall]
    intro v hv
    rcases List.mem_cons.mp hv with rfl | hv2
    · simp [wfB]
    · rcases List.mem_cons.mp hv2 with rfl | hv3
      · simp [wfB]
      · cases hv3
  obtain ⟨σ1, hw1, hr1, hfr1⟩ := jlistSetA_over 9 9
    (layout [] (JValue.arr [JValue.num 10, JValue.num 20])) []
    [JValue.num 10, JValue.num 20] 1 (JValue.num 99)
    (AValue.native (JValue.num 99)) hj (by omega)
    (by simp [dfB]) (by simp [wfB]) hwfys hrepr rfl
  have hsetlit : [JValue.num 10, JValue.num 20].set 1 (JValue.num 99) =
      [JValue.num 10, JValue.num 99] := rfl
  rw [hsetlit] at hr1
  have hd1 : DictRepr σ1 [] Rec.rlistM (arrEntries 0 [JValue.num 10, JValue.num 99]) :=
    reprAt_arr.mp hr1
  have hfresh : "-1" ∉ nodeKeys (arrEntries 0 [JValue.num 10, JValue.num 99]) := by
    decide
  obtain ⟨σ2, hw2, hr2, hfr2⟩ := dictPutCore_fresh 9 (JValue.num 99) σ1 []
    Rec.rlistM (arrEntries 0 [JValue.num 10, JValue.num 99]) "-1"
    (by omega) (by simp [wfB]) (arrEntries_keys_nodup 0 _) hfresh hd1
  have hndL : (nodeKeys (arrEntries 0 [JValue.num 10, JValue.num 99] ++
      [("-1", JValue.num 99)])).Nodup := by decide
  refine ⟨σ2, ?_, hr2, ?_, ?_⟩
  · rw [jlistSetA, readLen_arr hrepr, ok_bind,
        dif_neg (show ¬((-1 : Int) <
            -((([JValue.num 10, JValue.num 20] : List JValue).length : Nat) : Int) ∨
            ((([JValue.num 10, JValue.num 20] : List JValue).length : Nat) : Int) ≤
              (-1 : Int)) from by decide),
        dif_pos (show (-1 : Int) < 0 from by decide),
        show ((-1 : Int) +
            ((([JValue.num 10, JValue.num 20] : List JValue).length : Nat) : Int)) =
          Int.ofNat 1 from by decide,
        hw1, ok_bind,
        show toString (-1 : Int) = "-1" from by decide]
    show dictPutA 9 9 σ1 [] "-1" (AValue.native (JValue.num 99)) = Except.ok σ2
    rw [dictPutA_native]
    exact hw2
  · rw [readLen, jfetch_eq (show storeGet σ2 (saddr []) = some (Rec.rint 3) from by
        rw [hr2 _ (nodeAddr_saddr []), dictRecs_get_s,
            show ((nodeKeys (arrEntries 0 [JValue.num 10, JValue.num 99] ++
              [("-1", JValue.num 99)])).length : Int) = (3 : Int) from by decide]),
      ok_bind]
    rfl
  · rw [dictKeys_layout σ2 [] Rec.rlistM
        (arrEntries 0 [JValue.num 10, JValue.num 99] ++ [("-1", JValue.num 99)]) 9
        hr2 hndL (by decide),
      show nodeKeys (arrEntries 0 [JValue.num 10, JValue.num 99] ++
        [("-1", JValue.num 99)]) = ["0", "1", "-1"] from by decide]

theorem nodeAddr_of_under_vaddr {A : Addr} {k : String} {addr : Addr}
    (h : vaddr A k <+: addr) : NodeAddr A addr := by
  have h2 : (A ++ ["k"]) <+: vaddr A k := by
    refine ⟨[k, "v"], ?_⟩
    rw [vaddr, List.append_assoc]
    rfl
  exact Or.inr (Or.inr (Or.inr (Or.inr (h2.trans h))))

/-- JSOP.__enter__ with a valid name, major 1 and any supported minor. -/
theorem jsopOpen_valid_le (σ : Store) (b : Int)
    (hfn : storeGet σ ["m", "format-name"] = some (Rec.rstr "JSOP"))
    (hma : storeGet σ ["m", "format-version-major"] = some (Rec.rint 1))
    (hmi : storeGet σ ["m", "format-version-minor"] = some (Rec.rint b))
    (hb : b ≤ 0) :
    jsopOpen σ = jdataGet σ [] := by
  have h1 : jdataGet σ ["m", "format-name"] =
      Except.ok (Fetched.scal (Rec.rstr "JSOP")) := by
    unfold jdataGet
    rw [hfn]
  have h2 : jdataGet σ ["m", "format-version-major"] =
      Except.ok (Fetched.scal (Rec.rint 1)) := by
    unfold jdataGet
    rw [hma]
  have h3 : jdataGet σ ["m", "format-version-minor"] =
      Except.ok (Fetched.scal (Rec.rint b)) := by
    unfold jdataGet
    rw [hmi]
  unfold jsopOpen
  rw [h1, ok_bind, h2, ok_bind, h3, ok_bind]
  show (do
    let ok3 ← leIntF (Fetched.scal (Rec.rint b)) 0
    if eqStrF (Fetched.scal (Rec.rstr "JSOP")) "JSOP" &&
        eqIntF (Fetched.scal (Rec.rint 1)) 1 && ok3 then jdataGet σ []
    else Except.error Err.unsupported : Except Err Fetched) = _
  rw [show leIntF (Fetched.scal (Rec.rint b)) 0 =
    Except.ok (decide (b ≤ 0)) from rfl, ok_bind, decide_eq_true hb,
    show eqStrF (Fetched.scal (Rec.rstr "JSOP")) "JSOP" = true from by decide,
    show eqIntF (Fetched.scal (Rec.rint 1)) 1 = true from by decide]
  rfl

theorem eifB_append (a b : List JValue) : eifB (a ++ b) = eifB a + eifB b := by
  induction a with
  | nil =>
      rw [List.nil_append, show eifB ([] : List JValue) = 0 from by rw [eifB]]
      omega
  | cons z rest ih =>
      rw [List.cons_append,
          show eifB (z :: (rest ++ b)) = efuelB z + eifB (rest ++ b) from by
            rw [eifB],
          show eifB (z :: rest) = efuelB z + eifB rest from by rw [eifB],
          ih]
      omega

theorem efuelB_arr (xs : List JValue) :
    efuelB (JValue.arr xs) = eifB xs + xs.length + 2 := by
  rw [efuelB]

theorem wfB_arr (xs : List JValue) : wfB (JValue.arr xs) = wfItems xs := by
  rw [wfB]

theorem efuelB_eraseIdx_le (xs : List JValue) (j : Nat) (hj : j < xs.length) :
    efuelB (JValue.arr (xs.eraseIdx j)) ≤ efuelB (JValue.arr xs) := by
  rw [efuelB_arr, efuelB_arr, List.eraseIdx_eq_take_drop_succ, eifB_append]
  have hsplit : eifB (xs.take j) + eifB (xs.drop j) = eifB xs := by
    have h := eifB_append (xs.take j) (xs.drop j)
    rw [List.take_append_drop] at h
    omega
  have hdropsplit : eifB (xs.drop j) = efuelB xs[j] + eifB (xs.drop (j + 1)) := by
    rw [List.drop_eq_getElem_cons hj,
        show eifB (xs[j] :: xs.drop (j + 1)) =
          efuelB xs[j] + eifB (xs.drop (j + 1)) from by rw [eifB]]
  have hlen : (xs.take j ++ xs.drop (j + 1)).length = xs.length - 1 := by
    rw [List.length_append, List.length_take, List.length_drop]
    omega
  have hpos := efuelB_pos xs[j]
  omega

theorem wfItems_eraseIdx (xs : List JValue) (j : Nat)
    (hwf : wfItems xs = true) : wfItems (xs.eraseIdx j) = true := by
  rw [List.eraseIdx_eq_take_drop_succ, wfItems_iff_forall]
  intro v hv
  rcases List.mem_append.mp hv with h1 | h2
  · exact wfItems_mem (List.take_subset _ _ h1) hwf
  · exact wfItems_mem (List.drop_subset _ _ h2) hwf

/-- cell.put(v) on a represented array overwrites the element at the
cell's index. -/
theorem cellPut_set (fuel : Nat) (σ : Store) (A : Addr) (xs : List JValue)
    (i : Nat) (v : JValue) (hi : i < xs.length) (hf : 3 ≤ fuel)
    (hfw : dfB (xs.get ⟨i, hi⟩) ≤ fuel) (hwfv : wfB v = true)
    (hwf : wfItems xs = true) (hrepr : ReprAt σ A (JValue.arr xs)) :
    ∃ σ2, cellPut fuel σ A (idxKey i) v = Except.ok σ2 ∧
      ReprAt σ2 A (JValue.arr (xs.set i v)) := by
  have hd := reprAt_arr.mp hrepr
  have hmid := arrEntries_middle xs i hi
  have hnd : (nodeKeys (arrEntries 0 xs)).Nodup := arrEntries_keys_nodup 0 xs
  rw [hmid] at hd hnd
  have hwfw : wfB (xs.get ⟨i, hi⟩) = true :=
    wfItems_mem (List.get_mem xs i hi) hwf
  obtain ⟨σ2, hw2, hr2, hfr2⟩ := dictPutCore_over fuel σ A Rec.rlistM (idxKey i)
    (xs.get ⟨i, hi⟩) v (arrEntries 0 (xs.take i))
    (arrEntries (i + 1) (xs.drop (i + 1))) hf hfw hwfv hwfw hnd hd
  refine ⟨σ2, hw2, ?_⟩
  rw [reprAt_arr, arrEntries_set xs i v hi]
  exact hr2

theorem eifB_cons (v : JValue) (rest : List JValue) :
    eifB (v :: rest) = efuelB v + eifB rest := by
  rw [eifB]

theorem dfB_scalar (v : JValue) (hc : isContainer v = false) : dfB v = 1 := by
  cases v with
  | obj l => cases hc
  | arr xs => cases hc
  | null => simp [dfB]
  | bool b => simp [dfB]
  | num n => simp [dfB]
  | str t => simp [dfB]

theorem efuelB_scalar (v : JValue) (hc : isContainer v = false) : efuelB v = 1 := by
  cases v with
  | obj l => cases hc
  | arr xs => cases hc
  | null => simp [efuelB]
  | bool b => simp [efuelB]
  | num n => simp [efuelB]
  | str t => simp [efuelB]

theorem dfB_obj_nil : dfB (JValue.obj []) = 5 := by
  rw [show dfB (JValue.obj []) = dlB [] + 4 from by rw [dfB],
      show dlB ([] : List (String × JValue)) = 1 from by rw [dlB]]

theorem efuelB_obj_nil : efuelB (JValue.obj []) = 2 := by
  rw [show efuelB (JValue.obj []) =
      eefB [] + ([] : List (String × JValue)).length + 2 from by rw [efuelB],
    show eefB ([] : List (String × JValue)) = 0 from by rw [eefB]]
  rfl

theorem wfB_obj_nil : wfB (JValue.obj []) = true := by
  rw [show wfB (JValue.obj []) =
      (decide (nodeKeys ([] : List (String × JValue))).Nodup && wfEntries [])
      from by rw [wfB],
    show wfEntries ([] : List (String × JValue)) = true from by rw [wfEntries]]
  rfl

/-! ## The claims -/

/-- Claim C1 (amended): the round trip init(X); export() returns a value
deeply equal to X for every well-formed CONTAINER value X (map or list).
For a primitive root the claim fails: init succeeds but export raises
AttributeError, see the counterexample. -/
theorem C1_round_trip (fuel efuel : Nat) (v : JValue) (hf : 3 ≤ fuel)
    (hef : efuelB v ≤ efuel) (hwf : wfB v = true)
    (hc : isContainer v = true) :
    ∃ σ, jsopInit fuel v = Except.ok σ ∧ jsopExport efuel σ = Except.ok v :=
  jsopRoundtrip fuel efuel v hf hef hwf hc

theorem C1_round_trip_witness :
    (3 ≤ 9 ∧ efuelB (JValue.obj []) ≤ 9 ∧ wfB (JValue.obj []) = true ∧
      isContainer (JValue.obj []) = true) ∧
    (∃ σ, jsopInit 9 (JValue.obj []) = Except.ok σ ∧
      jsopExport 9 σ = Except.ok (JValue.obj [])) :=
  ⟨⟨by omega, by rw [efuelB_obj_nil]; omega, wfB_obj_nil, rfl⟩,
   C1_round_trip 9 9 (JValue.obj []) (by omega)
     (by rw [efuelB_obj_nil]; omega) wfB_obj_nil rfl⟩

/-- Claim C1 counterexample: for the JSON-encodable primitive X = 7,
init(X) succeeds but export() fails with AttributeError, so the
unrestricted round-trip claim is false. -/
theorem C1_round_trip_counterexample :
    ∃ σ, jsopInit 9 (JValue.num 7) = Except.ok σ ∧
      jsopExport 9 σ = Except.error Err.attrError :=
  jsopRoundtrip_scalar_fails 9 9 (JValue.num 7) (by omega)
    (wfB_scalar (JValue.num 7) rfl) rfl

/-- Claim C2 (refuted, code bug): on the two-element list [10, 20], the
put l[-1] = 99 does replace slot 1, but then falls through and ALSO
executes self._dict[str(-1)] = 99: afterwards the map holds the extra key
"-1" as a third linked entry and the size record reads 3, contradicting
the claimed unchanged length 2 and key set {"0", "1"}. -/
theorem C2_negative_put_bug :
    ∃ σ2, jlistSetA 9 9 (layout [] (JValue.arr [JValue.num 10, JValue.num 20]))
        [] (-1) (AValue.native (JValue.num 99)) = Except.ok σ2 ∧
      DictRepr σ2 [] Rec.rlistM
        (arrEntries 0 [JValue.num 10, JValue.num 99] ++ [("-1", JValue.num 99)]) ∧
      readLen σ2 [] = Except.ok 3 ∧
      dictKeys 9 σ2 [] = Except.ok ["0", "1", "-1"] :=
  jlistSetA_neg_fallthrough

/-- Claim C3: assigning any value v over an address A that holds a
container first destroys the old subtree: afterwards the node space of A
holds exactly the fresh layout of v; in particular when v is primitive no
record under A⋅⟨"k",*⟩ and none of A⋅⟨"p"⟩, A⋅⟨"n"⟩, A⋅⟨"s"⟩ remains. -/
theorem C3_container_overwrite_destroys (fuel : Nat) (σ : Store) (A : Addr)
    (v w : JValue) (hf : 3 ≤ fuel) (hfw : dfB w ≤ fuel) (hwf : wfB v = true)
    (hwfw : wfB w = true) (hcw : isContainer w = true)
    (hrepr : ReprAt σ A w) :
    ∃ σ2, jdataSetV fuel σ A v = Except.ok σ2 ∧
      (∀ addr, NodeAddr A addr →
        storeGet σ2 addr = storeGet (layout A v) addr) ∧
      (isContainer v = false → ∀ addr, NodeAddr A addr → addr ≠ A →
        storeGet σ2 addr = none) ∧
      (∀ addr, ¬ NodeAddr A addr → storeGet σ2 addr = storeGet σ addr) := by
  obtain ⟨σ2, hw2, hr2, hfr2⟩ := jdataSetV_over fuel σ A v w hf hfw hwf hwfw hrepr
  exact ⟨σ2, hw2, hr2,
    fun hcv addr hna hne => by rw [hr2 addr hna, layout_scalar_get hcv addr hne],
    hfr2⟩

theorem C3_container_overwrite_destroys_witness :
    (3 ≤ 9 ∧ dfB (JValue.obj []) ≤ 9 ∧ wfB (JValue.num 5) = true ∧
      wfB (JValue.obj []) = true ∧ isContainer (JValue.obj []) = true) ∧
    (∃ σ2, jdataSetV 9 (layout [] (JValue.obj [])) [] (JValue.num 5) =
        Except.ok σ2 ∧
      (∀ addr, NodeAddr [] addr →
        storeGet σ2 addr = storeGet (layout [] (JValue.num 5)) addr) ∧
      (isContainer (JValue.num 5) = false → ∀ addr, NodeAddr [] addr →
        addr ≠ [] → storeGet σ2 addr = none) ∧
      (∀ addr, ¬ NodeAddr [] addr →
        storeGet σ2 addr = storeGet (layout [] (JValue.obj [])) addr)) :=
  ⟨⟨by omega, by rw [dfB_obj_nil]; omega, wfB_scalar (JValue.num 5) rfl,
     wfB_obj_nil, rfl⟩,
   C3_container_overwrite_destroys 9 (layout [] (JValue.obj [])) []
     (JValue.num 5) (JValue.obj []) (by omega) (by rw [dfB_obj_nil]; omega)
     (wfB_scalar (JValue.num 5) rfl) wfB_obj_nil rfl (fun addr _ => rfl)⟩

/-- Claim C4: after any sequence of completed map mutations on a
represented map node, walking the next links from head yields exactly the
final entry keys (distinct, size-many, ending at the tail), walking the
prev links from tail yields their reverse, and head is null iff tail is
null iff size is 0. -/
theorem C4_linkage_invariant (fuel efuel wfuel : Nat) (σ : Store) (A : Addr)
    (mk : Rec) (ops : List MapOp) (l lfin : List (String × JValue))
    (hfu : opsB l ops ≤ fuel) (hef : opsEB l ops ≤ efuel)
    (hwfl : wfEntries l = true) (hnd : (nodeKeys l).Nodup)
    (hwfops : ∀ op ∈ ops, opWF op = true)
    (hspec : specFold l ops = some lfin)
    (hwfuel : (nodeKeys lfin).length + 1 ≤ wfuel)
    (hrepr : DictRepr σ A mk l) :
    ∃ σ2, applyOps fuel efuel σ A ops = Except.ok σ2 ∧
      dictKeys wfuel σ2 A = Except.ok (nodeKeys lfin) ∧
      dictKeysBack wfuel σ2 A = Except.ok (nodeKeys lfin).reverse ∧
      (nodeKeys lfin).Nodup ∧
      storeGet σ2 (saddr A) = some (Rec.rint ((nodeKeys lfin).length : Int)) ∧
      storeGet σ2 (naddr A) = some (ptrRec (nodeKeys lfin).head?) ∧
      storeGet σ2 (paddr A) = some (ptrRec (nodeKeys lfin).getLast?) ∧
      ((nodeKeys lfin).head? = none ↔ (nodeKeys lfin).getLast? = none) ∧
      ((nodeKeys lfin).head? = none ↔ (nodeKeys lfin).length = 0) := by
  obtain ⟨σ2, hw2, hr2, hwf2, hnd2, hfr2⟩ := applyOps_spec fuel efuel σ A mk
    ops l lfin hfu hef hwfl hnd hwfops hspec hrepr
  refine ⟨σ2, hw2,
    dictKeys_layout σ2 A mk lfin wfuel hr2 hnd2 hwfuel,
    dictKeysBack_layout σ2 A mk lfin wfuel hr2 hnd2 hwfuel,
    hnd2, ?_, ?_, ?_, ?_, ?_⟩
  · rw [hr2 _ (nodeAddr_saddr A), dictRecs_get_s]
  · rw [hr2 _ (nodeAddr_naddr A), dictRecs_get_n]
  · rw [hr2 _ (nodeAddr_paddr A), dictRecs_get_p]
  · rw [List.head?_eq_none_iff, List.getLast?_eq_none_iff]
  · rw [List.head?_eq_none_iff, List.length_eq_zero]

theorem C4_linkage_invariant_witness :
    (opsB [] [MapOp.clear] ≤ 99 ∧ opsEB [] [MapOp.clear] ≤ 99 ∧
      wfEntries ([] : List (String × JValue)) = true ∧
      (nodeKeys ([] : List (String × JValue))).Nodup ∧
      (∀ op ∈ [MapOp.clear], opWF op = true) ∧
      specFold [] [MapOp.clear] = some [] ∧
      (nodeKeys ([] : List (String × JValue))).length + 1 ≤ 9) ∧
    (∃ σ2, applyOps 99 99 (([], Rec.rmapM) :: dictRecs [] []) [] [MapOp.clear] =
        Except.ok σ2 ∧
      dictKeys 9 σ2 [] = Except.ok (nodeKeys ([] : List (String × JValue))) ∧
      dictKeysBack 9 σ2 [] =
        Except.ok (nodeKeys ([] : List (String × JValue))).reverse ∧
      (nodeKeys ([] : List (String × JValue))).Nodup ∧
      storeGet σ2 (saddr []) =
        some (Rec.rint ((nodeKeys ([] : List (String × JValue))).length : Int)) ∧
      storeGet σ2 (naddr []) =
        some (ptrRec (nodeKeys ([] : List (String × JValue))).head?) ∧
      storeGet σ2 (paddr []) =
        some (ptrRec (nodeKeys ([] : List (String × JValue))).getLast?) ∧
      ((nodeKeys ([] : List (String × JValue))).head? = none ↔
        (nodeKeys ([] : List (String × JValue))).getLast? = none) ∧
      ((nodeKeys ([] : List (String × JValue))).head? = none ↔
        (nodeKeys ([] : List (String × JValue))).length = 0)) := by
  have hfu : opsB [] [MapOp.clear] ≤ 99 := by
    rw [show opsB [] [MapOp.clear] = dlB [] + dlB [] + 9 + 0 from rfl,
        show dlB ([] : List (String × JValue)) = 1 from by rw [dlB]]
    omega
  have hef : opsEB [] [MapOp.clear] ≤ 99 := by
    rw [show opsEB [] [MapOp.clear] = eefB [] + eefB [] + 2 + 0 from rfl,
        show eefB ([] : List (String × JValue)) = 0 from by rw [eefB]]
    omega
  have hwfl : wfEntries ([] : List (String × JValue)) = true := by rw [wfEntries]
  have hops : ∀ op ∈ [MapOp.clear], opWF op = true := by
    intro op hop
    rcases List.mem_cons.mp hop with rfl | h
    · rfl
    · cases h
  exact ⟨⟨hfu, hef, hwfl, List.nodup_nil, hops, rfl, by simp [nodeKeys]⟩,
    C4_linkage_invariant 99 99 9 (([], Rec.rmapM) :: dictRecs [] []) []
      Rec.rmapM [MapOp.clear] [] [] hfu hef hwfl List.nodup_nil hops rfl
      (by simp [nodeKeys]) (fun addr _ => rfl)⟩

/-- Claim C5: starting from an empty map, a sequence of puts with pairwise
distinct keys makes keys() return exactly those keys in insertion order;
and a put whose key is already present leaves the key order unchanged. -/
theorem C5_insertion_order (fuel wfuel : Nat) (σ σb : Store) (A : Addr)
    (mk : Rec) (kvs : List (String × JValue))
    (k : String) (w v : JValue) (l1 l2 : List (String × JValue))
    (hnd : (nodeKeys kvs).Nodup) (hwfk : wfEntries kvs = true)
    (hfu : dlB kvs + 4 ≤ fuel)
    (hw : (nodeKeys kvs).length + 1 ≤ wfuel)
    (hrepr : DictRepr σ A mk [])
    (hfb : 3 ≤ fuel) (hfwb : dfB w ≤ fuel)
    (hwfv : wfB v = true) (hwfw : wfB w = true)
    (hndb : (nodeKeys (l1 ++ (k, w) :: l2)).Nodup)
    (hwb : (nodeKeys (l1 ++ (k, w) :: l2)).length + 1 ≤ wfuel)
    (hreprb : DictRepr σb A mk (l1 ++ (k, w) :: l2)) :
    (∃ σ2, dictPutList fuel σ A kvs = Except.ok σ2 ∧
      dictKeys wfuel σ2 A = Except.ok (nodeKeys kvs)) ∧
    (∃ σ3, dictPutCore fuel σb A k v = Except.ok σ3 ∧
      dictKeys wfuel σ3 A = Except.ok (nodeKeys (l1 ++ (k, w) :: l2))) := by
  constructor
  · obtain ⟨σ2, hw2, hr2, hwf2, hnd2, hfr2⟩ := dictPutList_any fuel kvs σ A mk []
      (by rw [show dlB ([] : List (String × JValue)) = 1 from by rw [dlB]]
          omega)
      (by rw [wfEntries]) hwfk List.nodup_nil hrepr
    have hsp : specPuts [] kvs = kvs := by
      rw [specPuts_fresh kvs [] hnd (fun k2 _ h => by cases h)]
      rfl
    rw [hsp] at hr2 hnd2
    exact ⟨σ2, hw2, dictKeys_layout σ2 A mk kvs wfuel hr2 hnd2 hw⟩
  · obtain ⟨σ3, hw3, hr3, hfr3⟩ := dictPutCore_over fuel σb A mk k w v l1 l2
      hfb hfwb hwfv hwfw hndb hreprb
    have hkeq : nodeKeys (l1 ++ (k, v) :: l2) = nodeKeys (l1 ++ (k, w) :: l2) := by
      rw [nodeKeys_append, nodeKeys_append]
      rfl
    have hnd3 : (nodeKeys (l1 ++ (k, v) :: l2)).Nodup := by
      rw [hkeq]
      exact hndb
    have hwb3 : (nodeKeys (l1 ++ (k, v) :: l2)).length + 1 ≤ wfuel := by
      rw [hkeq]
      exact hwb
    refine ⟨σ3, hw3, ?_⟩
    rw [dictKeys_layout σ3 A mk (l1 ++ (k, v) :: l2) wfuel hr3 hnd3 hwb3, hkeq]

theorem C5_insertion_order_witness :
    ((nodeKeys [("a", JValue.num 1), ("b", JValue.num 2)]).Nodup ∧
      wfEntries [("a", JValue.num 1), ("b", JValue.num 2)] = true ∧
      dlB [("a", JValue.num 1), ("b", JValue.num 2)] + 4 ≤ 20 ∧
      (nodeKeys [("a", JValue.num 1), ("b", JValue.num 2)]).length + 1 ≤ 9 ∧
      3 ≤ 20 ∧ dfB (JValue.num 7) ≤ 20 ∧ wfB (JValue.num 8) = true ∧
      wfB (JValue.num 7) = true ∧
      (nodeKeys ([] ++ ("a", JValue.num 7) :: [])).Nodup ∧
      (nodeKeys ([] ++ ("a", JValue.num 7) :: [])).length + 1 ≤ 9) ∧
    ((∃ σ2, dictPutList 20 (([], Rec.rmapM) :: dictRecs [] []) []
        [("a", JValue.num 1), ("b", JValue.num 2)] = Except.ok σ2 ∧
      dictKeys 9 σ2 [] =
        Except.ok (nodeKeys [("a", JValue.num 1), ("b", JValue.num 2)])) ∧
    (∃ σ3, dictPutCore 20 (([], Rec.rmapM) :: dictRecs [] [("a", JValue.num 7)])
        [] "a" (JValue.num 8) = Except.ok σ3 ∧
      dictKeys 9 σ3 [] =
        Except.ok (nodeKeys ([] ++ ("a", JValue.num 7) :: [])))) := by
  have hnd : (nodeKeys [("a", JValue.num 1), ("b", JValue.num 2)]).Nodup := by
    decide
  have hwfk : wfEntries [("a", JValue.num 1), ("b", JValue.num 2)] = true := by
    rw [wfEntries_cons, wfEntries_cons,
      show wfEntries ([] : List (String × JValue)) = true from by rw [wfEntries],
      wfB_scalar (JValue.num 1) rfl, wfB_scalar (JValue.num 2) rfl]
    rfl
  have hfu : dlB [("a", JValue.num 1), ("b", JValue.num 2)] + 4 ≤ 20 := by
    rw [dlB_cons, dlB_cons,
      show dlB ([] : List (String × JValue)) = 1 from by rw [dlB],
      dfB_scalar (JValue.num 1) rfl, dfB_scalar (JValue.num 2) rfl]
    omega
  refine ⟨⟨hnd, hwfk, hfu, by decide, by omega,
    by rw [dfB_scalar (JValue.num 7) rfl]; omega,
    wfB_scalar (JValue.num 8) rfl, wfB_scalar (JValue.num 7) rfl,
    by decide, by decide⟩, ?_⟩
  exact C5_insertion_order 20 9 (([], Rec.rmapM) :: dictRecs [] [])
    (([], Rec.rmapM) :: dictRecs [] [("a", JValue.num 7)]) [] Rec.rmapM
    [("a", JValue.num 1), ("b", JValue.num 2)] "a" (JValue.num 7)
    (JValue.num 8) [] [] hnd hwfk hfu (by decide) (fun addr _ => rfl)
    (by omega) (by rw [dfB_scalar (JValue.num 7) rfl]; omega)
    (wfB_scalar (JValue.num 8) rfl) (wfB_scalar (JValue.num 7) rfl)
    (by decide) (by decide) (fun addr _ => rfl)

/-- Claim C6: opening fails Corrupt when any of the three metadata records
cannot be read; with all three readable it fails UnsupportedFormat when the
name differs from "JSOP", the major differs from 1, or the minor exceeds
the supported 0; otherwise it returns the root handle for address (). -/
theorem C6_open_validation (σ : Store) :
    ((storeGet σ ["m", "format-name"] = none ∨
      storeGet σ ["m", "format-version-major"] = none ∨
      storeGet σ ["m", "format-version-minor"] = none) →
      jsopOpen σ = Except.error Err.corrupt) ∧
    (∀ (s : String) (a b : Int),
      storeGet σ ["m", "format-name"] = some (Rec.rstr s) →
      storeGet σ ["m", "format-version-major"] = some (Rec.rint a) →
      storeGet σ ["m", "format-version-minor"] = some (Rec.rint b) →
      (s ≠ "JSOP" ∨ a ≠ 1 ∨ 0 < b) →
      jsopOpen σ = Except.error Err.unsupported) ∧
    (∀ b : Int,
      storeGet σ ["m", "format-name"] = some (Rec.rstr "JSOP") →
      storeGet σ ["m", "format-version-major"] = some (Rec.rint 1) →
      storeGet σ ["m", "format-version-minor"] = some (Rec.rint b) →
      b ≤ 0 →
      jsopOpen σ = jdataGet σ []) :=
  ⟨jsopOpen_corrupt σ,
   fun s a b h1 h2 h3 h4 => jsopOpen_unsupported σ s a b h1 h2 h3 h4,
   fun b h1 h2 h3 hb => jsopOpen_valid_le σ b h1 h2 h3 hb⟩

theorem C6_open_validation_witness :
    jsopOpen [(["m", "format-name"], Rec.rstr "BAD"),
      (["m", "format-version-major"], Rec.rint 1),
      (["m", "format-version-minor"], Rec.rint 0)] =
      Except.error Err.unsupported :=
  (C6_open_validation [(["m", "format-name"], Rec.rstr "BAD"),
      (["m", "format-version-major"], Rec.rint 1),
      (["m", "format-version-minor"], Rec.rint 0)]).2.1
    "BAD" 1 0 rfl rfl rfl (Or.inl (by decide))

/-- Claim C7: on a represented list of length n, delete(i) for 0 ≤ i < n
yields the dense removal (length n-1, later elements shifted down, export
equal to the old export without element i); a negative in-range index is
first normalised to i+n; an index outside [-n, n) fails IndexError. -/
theorem C7_list_delete (fuel efuel : Nat) (σ : Store) (A : Addr)
    (ys : List JValue)
    (hfu : ∀ v ∈ ys, dfB v + 2 ≤ fuel) (hf3 : 3 ≤ fuel)
    (hef : ∀ v ∈ ys, efuelB v ≤ efuel)
    (hefA : efuelB (JValue.arr ys) ≤ efuel)
    (hwf : wfItems ys = true)
    (hrepr : ReprAt σ A (JValue.arr ys)) :
    (∀ j : Nat, j < ys.length →
      ∃ σ2, jlistDel fuel efuel σ A (Int.ofNat j) = Except.ok σ2 ∧
        ReprAt σ2 A (JValue.arr (ys.eraseIdx j)) ∧
        (ys.eraseIdx j).length = ys.length - 1 ∧
        exportVal efuel σ2 A = Except.ok (JValue.arr (ys.eraseIdx j))) ∧
    (∀ i : Int, -(ys.length : Int) ≤ i → i < 0 →
      jlistDel fuel efuel σ A i =
        jlistDel fuel efuel σ A (i + (ys.length : Int))) ∧
    (∀ i : Int, (ys.length : Int) ≤ i ∨ i < -(ys.length : Int) →
      jlistDel fuel efuel σ A i = Except.error Err.indexError) := by
  refine ⟨?_, fun i h1 h2 => jlistDel_neg fuel efuel σ A ys i h1 h2 hrepr,
    fun i h => jlistDel_oob fuel efuel σ A ys i h hrepr⟩
  intro j hj
  obtain ⟨σ2, hw2, hr2, hfr2⟩ := jlistDel_nonneg fuel efuel σ A ys j hj
    hfu hf3 hef hwf hrepr
  refine ⟨σ2, hw2, hr2, ?_, ?_⟩
  · rw [List.eraseIdx_eq_take_drop_succ, List.length_append, List.length_take,
      List.length_drop]
    omega
  · exact exportVal_layout efuel (JValue.arr (ys.eraseIdx j)) σ2 A
      (by rw [wfB_arr]; exact wfItems_eraseIdx ys j hwf) hr2
      (le_trans (efuelB_eraseIdx_le ys j hj) hefA)

theorem C7_list_delete_witness :
    ((∀ v ∈ [JValue.num 1, JValue.num 2], dfB v + 2 ≤ 20) ∧ 3 ≤ 20 ∧
      (∀ v ∈ [JValue.num 1, JValue.num 2], efuelB v ≤ 20) ∧
      efuelB (JValue.arr [JValue.num 1, JValue.num 2]) ≤ 20 ∧
      wfItems [JValue.num 1, JValue.num 2] = true) ∧
    (∃ σ2, jlistDel 20 20 (layout [] (JValue.arr [JValue.num 1, JValue.num 2]))
        [] (Int.ofNat 0) = Except.ok σ2 ∧
      ReprAt σ2 [] (JValue.arr ([JValue.num 1, JValue.num 2].eraseIdx 0)) ∧
      ([JValue.num 1, JValue.num 2].eraseIdx 0).length =
        [JValue.num 1, JValue.num 2].length - 1 ∧
      exportVal 20 σ2 [] =
        Except.ok (JValue.arr ([JValue.num 1, JValue.num 2].eraseIdx 0))) := by
  have hmem : ∀ v ∈ [JValue.num 1, JValue.num 2], isContainer v = false := by
    intro v hv
    rcases List.mem_cons.mp hv with rfl | hv2
    · rfl
    · rcases List.mem_cons.mp hv2 with rfl | hv3
      · rfl
      · cases hv3
  have hfu : ∀ v ∈ [JValue.num 1, JValue.num 2], dfB v + 2 ≤ 20 := by
    intro v hv
    rw [dfB_scalar v (hmem v hv)]
    omega
  have hef : ∀ v ∈ [JValue.num 1, JValue.num 2], efuelB v ≤ 20 := by
    intro v hv
    rw [efuelB_scalar v (hmem v hv)]
    omega
  have hefA : efuelB (JValue.arr [JValue.num 1, JValue.num 2]) ≤ 20 := by
    rw [efuelB_arr, eifB_cons, eifB_cons,
      show eifB ([] : List JValue) = 0 from by rw [eifB],
      efuelB_scalar (JValue.num 1) rfl, efuelB_scalar (JValue.num 2) rfl]
    simp
  have hwf : wfItems [JValue.num 1, JValue.num 2] = true := by
    rw [wfItems_iff_forall]
    intro v hv
    exact wfB_scalar v (hmem v hv)
  exact ⟨⟨hfu, by omega, hef, hefA, hwf⟩,
    (C7_list_delete 20 20 (layout [] (JValue.arr [JValue.num 1, JValue.num 2]))
      [] [JValue.num 1, JValue.num 2] hfu (by omega) hef hefA hwf
      (fun addr _ => rfl)).1 0 (by decide)⟩

/-- Claim C8 (refuted, code bug): __getitem__ probes the cache with the
0xFF-joined byte string but populates it under the address tuple, so the
probe never hits: a second get of the same address reads and decodes the
underlying dbm again (flag true) instead of being answered from the
cache. -/
theorem C8_cache_read_bug (st : DBMState) (key : Addr) (r : Rec)
    (htup : ∀ p ∈ st.cache, ∃ a, p.1 = CacheKey.tup a)
    (hr : storeGet st.dbm key = some r) :
    ∃ st1, dbmwGet st key = Except.ok (r, st1, true) ∧
      dbmwGet st1 key = Except.ok
        (r, { st1 with cache := (CacheKey.tup key, r) :: st1.cache }, true) := by
  refine ⟨{ st with cache := (CacheKey.tup key, r) :: st.cache },
    dbmwGet_read st key r htup hr, ?_⟩
  exact dbmwGet_read _ key r
    (by
      intro p hp
      rcases List.mem_cons.mp hp with rfl | hp2
      · exact ⟨key, rfl⟩
      · exact htup p hp2)
    hr

theorem C8_cache_read_bug_witness :
    ((∀ p ∈ (DBMState.mk [(["x"], Rec.rint 5)] []).cache,
        ∃ a, p.1 = CacheKey.tup a) ∧
      storeGet (DBMState.mk [(["x"], Rec.rint 5)] []).dbm ["x"] =
        some (Rec.rint 5)) ∧
    (∃ st1, dbmwGet (DBMState.mk [(["x"], Rec.rint 5)] []) ["x"] =
        Except.ok (Rec.rint 5, st1, true) ∧
      dbmwGet st1 ["x"] = Except.ok
        (Rec.rint 5,
         { st1 with cache := (CacheKey.tup ["x"], Rec.rint 5) :: st1.cache },
         true)) :=
  by
  constructor
  · constructor
    · intro p hp
      exact nomatch hp
    · rfl
  · exact C8_cache_read_bug (DBMState.mk [(["x"], Rec.rint 5)] []) ["x"]
      (Rec.rint 5) (fun p hp => nomatch hp) rfl

/-- Claim C9 (cells modelled from the spec; JList.cells is absent from
src/jsop.py): cells() yields one cell key per element in index order;
value() reads, put(v) overwrites, and remove() deletes the map entry at
the cell's frozen key; and a later cell stays usable after an earlier
element was removed. -/
theorem C9_cells_protocol (fuel : Nat) (σ : Store) (A : Addr)
    (xs : List JValue) (hwf : wfItems xs = true)
    (hrepr : ReprAt σ A (JValue.arr xs)) :
    (cells σ A = Except.ok (nodeKeys (arrEntries 0 xs))) ∧
    (∀ k v, (k, v) ∈ arrEntries 0 xs →
      cellValue σ A k = Except.ok (fetchOf (vaddr A k) v)) ∧
    (∀ (i : Nat) (hi : i < xs.length) (v : JValue), wfB v = true → 3 ≤ fuel →
      dfB (xs.get ⟨i, hi⟩) ≤ fuel →
      ∃ σ2, cellPut fuel σ A (idxKey i) v = Except.ok σ2 ∧
        ReprAt σ2 A (JValue.arr (xs.set i v))) ∧
    (∀ (i1 i2 : Nat) (h12 : i1 < i2) (hi2 : i2 < xs.length),
      dfB (xs.get ⟨i1, lt_trans h12 hi2⟩) + 2 ≤ fuel →
      ∃ σ2, cellRemove fuel σ A (idxKey i1) = Except.ok σ2 ∧
        cellValue σ2 A (idxKey i2) =
          Except.ok (fetchOf (vaddr A (idxKey i2)) (xs.get ⟨i2, hi2⟩))) := by
  refine ⟨cells_layout hrepr, ?_, ?_, ?_⟩
  · intro k v hmem
    exact cellValue_layout (reprAt_arr.mp hrepr) (arrEntries_keys_nodup 0 xs)
      hmem
  · intro i hi v hwfv hf hfw
    exact cellPut_set fuel σ A xs i v hi hf hfw hwfv hwf hrepr
  · intro i1 i2 h12 hi2 hfw
    exact cellRemove_later fuel σ A xs i1 i2 h12 hi2 hfw hwf hrepr

theorem C9_cells_protocol_witness :
    (wfItems [JValue.num 1, JValue.num 2] = true) ∧
    cells (layout [] (JValue.arr [JValue.num 1, JValue.num 2])) [] =
      Except.ok (nodeKeys (arrEntries 0 [JValue.num 1, JValue.num 2])) := by
  have hwf : wfItems [JValue.num 1, JValue.num 2] = true := by
    rw [wfItems_iff_forall]
    intro v hv
    rcases List.mem_cons.mp hv with rfl | hv2
    · exact wfB_scalar _ rfl
    · rcases List.mem_cons.mp hv2 with rfl | hv3
      · exact wfB_scalar _ rfl
      · cases hv3
  exact ⟨hwf,
    (C9_cells_protocol 9 (layout [] (JValue.arr [JValue.num 1, JValue.num 2]))
      [] [JValue.num 1, JValue.num 2] hwf (fun addr _ => rfl)).1⟩

/-- Claim C10: on a represented map, pop(k) of a present key whose value is
a container returns the exported snapshot as a detached native value and
removes the key together with the container's whole record subtree; pop of
an absent key returns the given default, or fails KeyError without one. -/
theorem C10_pop_container (fuel efuel : Nat) (σ σa : Store) (A : Addr)
    (mk : Rec) (k ka : String) (w : JValue)
    (l1 l2 la : List (String × JValue)) (dflt : Option JValue)
    (hf : dfB w + 2 ≤ fuel) (hef : efuelB w ≤ efuel) (hwf : wfB w = true)
    (hcw : isContainer w = true)
    (hnd : (nodeKeys (l1 ++ (k, w) :: l2)).Nodup)
    (hrepr : DictRepr σ A mk (l1 ++ (k, w) :: l2))
    (hka : ka ∉ nodeKeys la) (hreprA : DictRepr σa A mk la) :
    (∃ σ2, dictPop fuel efuel σ A k dflt = Except.ok (w, σ2) ∧
      DictRepr σ2 A mk (l1 ++ l2) ∧
      (∀ addr, vaddr A k <+: addr → storeGet σ2 addr = none)) ∧
    (∀ d, dictPop fuel efuel σa A ka (some d) = Except.ok (d, σa)) ∧
    (dictPop fuel efuel σa A ka none = Except.error (Err.keyError ka)) := by
  refine ⟨?_, fun d => dictPop_absent fuel efuel σa A mk ka la (some d) hka
    hreprA, dictPop_absent fuel efuel σa A mk ka la none hka hreprA⟩
  obtain ⟨σ2, hw2, hr2, hfr2⟩ := dictPop_spec fuel efuel σ A mk k w l1 l2 dflt
    hf hef hwf hnd hrepr
  have hknot : k ∉ nodeKeys (l1 ++ l2) := by
    rw [nodeKeys_append] at hnd
    obtain ⟨_, _, hk1, hk2, _, _⟩ := nodup_middle hnd
    rw [nodeKeys_append]
    intro hm
    rcases List.mem_append.mp hm with hm1 | hm2
    · exact hk1 hm1
    · exact hk2 hm2
  refine ⟨σ2, hw2, hr2, ?_⟩
  intro addr hpre
  rw [hr2 addr (nodeAddr_of_under_vaddr hpre)]
  exact dictRecs_get_under_fresh A mk (l1 ++ l2) k addr hknot hpre

theorem C10_pop_container_witness :
    (dfB (JValue.obj []) + 2 ≤ 9 ∧ efuelB (JValue.obj []) ≤ 9 ∧
      wfB (JValue.obj []) = true ∧ isContainer (JValue.obj []) = true ∧
      (nodeKeys ([] ++ ("a", JValue.obj []) :: [])).Nodup ∧
      "zz" ∉ nodeKeys ([] : List (String × JValue))) ∧
    ((∃ σ2, dictPop 9 9 (([], Rec.rmapM) :: dictRecs [] [("a", JValue.obj [])])
        [] "a" none = Except.ok (JValue.obj [], σ2) ∧
      DictRepr σ2 [] Rec.rmapM ([] ++ []) ∧
      (∀ addr, vaddr [] "a" <+: addr → storeGet σ2 addr = none)) ∧
    (∀ d, dictPop 9 9 (([], Rec.rmapM) :: dictRecs [] []) [] "zz" (some d) =
      Except.ok (d, ([], Rec.rmapM) :: dictRecs [] [])) ∧
    (dictPop 9 9 (([], Rec.rmapM) :: dictRecs [] []) [] "zz" none =
      Except.error (Err.keyError "zz"))) :=
  ⟨⟨by rw [dfB_obj_nil]; omega, by rw [efuelB_obj_nil]; omega, wfB_obj_nil,
     rfl, by decide, by decide⟩,
   C10_pop_container 9 9 (([], Rec.rmapM) :: dictRecs [] [("a", JValue.obj [])])
     (([], Rec.rmapM) :: dictRecs [] []) [] Rec.rmapM "a" "zz" (JValue.obj [])
     [] [] [] none (by rw [dfB_obj_nil]; omega) (by rw [efuelB_obj_nil]; omega)
     wfB_obj_nil rfl (by decide) (fun addr _ => rfl) (by decide)
     (fun addr _ => rfl)⟩

end Jsop
